import Mathlib

/-! Simulation of a UNIX file tree (`tree.c`): embedding and verified properties

The program keeps a tree of `Node` records linked by `child` / `sibling`
pointers, two globals `root` and `cwd`, and a set of shell-like commands.

Conventions of the embedding
* a C string is the list of its bytes before the terminating NUL;
* a value of type `Node` is a `Node*`: either `NULL` or a record together with
  the records reachable through its `child` and `sibling` fields;
* a pointer into the tree rooted at `root` is the list of child indices that
  leads from the root to the record (`[]` is the root itself); the `parent`
  field of a record is the pointer without its last index;
* `printf` diagnostics are summarised by an `Outcome` value; the `verbose`
  flag only changes what is printed and is left out;
* `malloc` and `fopen` are taken to succeed; a file is the list of its bytes;
* a run with undefined behaviour (a write past a buffer, an access outside an
  array) is reported as such and given no result.
-/

namespace FsSim

/-! ## Constants and libc helpers -/

abbrev MAX_NAME : Nat := 64
abbrev MAX_INPUT : Nat := 128
abbrev MAX_PATH_LEN : Nat := 1024

/-- The effect of `strncpy(dst, src, n); dst[n] = 0` on the string value: the
first `n` bytes of `src`. -/
def strncpy (src : List Char) (n : Nat) : List Char := src.take n

/-- The `isspace` classification of the C locale. -/
def isspace (c : Char) : Bool :=
  c = ' ' || c = '\t' || c = '\n' || c = Char.ofNat 11 || c = Char.ofNat 12 || c = '\r'

/-- The test `c == '/'`. -/
def isSlash (c : Char) : Bool := decide (c = '/')

/-- Removal of trailing bytes satisfying `p` (a backwards `while` loop). -/
def dropTrailing (p : Char → Bool) (s : List Char) : List Char :=
  (s.reverse.dropWhile p).reverse

/-- The string returned by `trim`: leading and trailing whitespace removed. -/
def trim (str : List Char) : List Char :=
  dropTrailing isspace (str.dropWhile isspace)

/-! ## normalizeName -/

/-- The copying `for` loop of `normalizeName`: the bytes it stores into `temp`
from index `j` on, given the rest of the input and the `lastWasSlash` flag. -/
def normalizeLoop : List Char → Nat → Bool → List Char
  | [], _, _ => []
  | c :: cs, j, lastWasSlash =>
    if j < MAX_NAME - 1 then
      if c = '/' ∧ lastWasSlash = true then normalizeLoop cs j lastWasSlash
      else c :: normalizeLoop cs (j + 1) (decide (c = '/'))
    else []

/-- The string left in the buffer by `normalizeName`. -/
def normalizeName (name : List Char) : List Char :=
  if name.length = 1 ∧ name.head? = some '/' then
    strncpy ['/'] (MAX_NAME - 1)
  else
    let rest := name.dropWhile isSlash
    let temp := normalizeLoop rest 0 false
    strncpy (dropTrailing isSlash temp) (MAX_NAME - 1)

/-! ## Nodes -/

/-- A `Node*`: `NULL`, or a record with its name, its kind and its `child` and
`sibling` pointers. -/
inductive Node where
  | null : Node
  | mk (name : List Char) (isDirectory : Bool) (child : Node) (sibling : Node) : Node
  deriving DecidableEq

namespace Node

def name : Node → List Char
  | null => []
  | mk n _ _ _ => n

def isDirectory : Node → Bool
  | null => false
  | mk _ d _ _ => d

def child : Node → Node
  | null => null
  | mk _ _ c _ => c

def sibling : Node → Node
  | null => null
  | mk _ _ _ s => s

end Node

/-- The node allocated by `createNode`, or `NULL` when the name is rejected. -/
def createNode (name : List Char) (isDirectory : Bool) : Node :=
  let normalizedName := normalizeName (strncpy name (MAX_NAME - 1))
  if normalizedName.length = 0 ∧ name ≠ ['/'] then Node.null
  else if normalizedName.length ≥ MAX_NAME then Node.null
  else Node.mk (strncpy normalizedName (MAX_NAME - 1)) isDirectory Node.null Node.null

/-- The sibling chain `first` after the walk `while (temp->sibling) ...;
temp->sibling = child` (or `child` itself when the chain is empty). -/
def appendSibling : Node → Node → Node
  | Node.null, c => c
  | Node.mk n d ch sib, c => Node.mk n d ch (appendSibling sib c)

/-- The scan of `findChild` along a sibling chain: the position of the first
record whose name is `name`. -/
def findSibling : Node → List Char → Option Nat
  | Node.null, _ => none
  | Node.mk n _ _ sib, name =>
    if n = name then some 0 else (findSibling sib name).map (fun i => i + 1)

/-- The result of `findChild(parent, name)`: the index of the child found,
`none` for `NULL`. -/
def findChild (parent : Node) (name : List Char) : Option Nat :=
  match parent with
  | Node.null => none
  | Node.mk _ _ ch _ => findSibling ch name

/-- The chain `first` after the unlink code of `rmdir` / `rm` removed its
record number `i`. -/
def unlink : Node → Nat → Node
  | Node.null, _ => Node.null
  | Node.mk _ _ _ sib, 0 => sib
  | Node.mk n d ch sib, i + 1 => Node.mk n d ch (unlink sib i)

/-! ## Pointers into the tree -/

/-- In the sibling chain `c`: go to record number `i`, then follow the child
indices `p`. -/
def chainAt : Node → Nat → List Nat → Node
  | Node.null, _, _ => Node.null
  | Node.mk _ _ _ sib, i + 1, p => chainAt sib i p
  | Node.mk n d ch sib, 0, [] => Node.mk n d ch sib
  | Node.mk _ _ ch _, 0, j :: p => chainAt ch j p

/-- The record a pointer refers to (`NULL` when it refers to nothing). -/
def deref (root : Node) (p : List Nat) : Node := chainAt root 0 p

/-- In the sibling chain `c`: replace the `child` field `ch` of the record
reached by `i`, `p` with `g ch`. -/
def chainUpd : Node → Nat → List Nat → (Node → Node) → Node
  | Node.null, _, _, _ => Node.null
  | Node.mk n d ch sib, i + 1, p, g => Node.mk n d ch (chainUpd sib i p g)
  | Node.mk n d ch sib, 0, [], g => Node.mk n d (g ch) sib
  | Node.mk n d ch sib, 0, j :: p, g => Node.mk n d (chainUpd ch j p g) sib

/-- The tree after an assignment through pointer `p` that changes the child
chain of the record it refers to. -/
def updChild (root : Node) (p : List Nat) (g : Node → Node) : Node :=
  chainUpd root 0 p g

/-- The tree after `insertChild(parent, child)`, for the record `parent`
given by its pointer: nothing happens when either is `NULL`, otherwise
`child` goes to the end of the child chain of `parent`. -/
def insertChild (root : Node) (parent : List Nat) (child : Node) : Node :=
  if child = Node.null then root
  else updChild root parent (fun ch => appendSibling ch child)

/-- The names and kinds along a sibling chain, in order. -/
def chainEntries : Node → List (List Char × Bool)
  | Node.null => []
  | Node.mk n d _ sib => (n, d) :: chainEntries sib

/-- The children of a record, in order, as (name, isDirectory) pairs. -/
def entries (n : Node) : List (List Char × Bool) := chainEntries n.child

/-! ## Session state and commands -/

/-- The globals `root` and `cwd`. -/
structure Session where
  root : Node
  cwd : List Nat
  deriving DecidableEq

/-- What a command reported. -/
inductive Outcome where
  | ok
  | emptyName
  | alreadyExists
  | invalidName
  | cannotRemoveRoot
  | noSuch
  | wrongType
  | notEmpty
  | isCwd
  deriving DecidableEq

/-- The state set up by `main`. -/
def initSession : Session := ⟨createNode ['/'] true, []⟩

/-- The lines printed by `ls` (verbose off). -/
def ls (s : Session) : List (List Char) :=
  (entries (deref s.root s.cwd)).map (fun e => e.1 ++ (if e.2 then ['/'] else []))

/-- The body shared by `mkdir` (isDirectory = true) and `createFile`. -/
def makeEntry (s : Session) (name : List Char) (isDirectory : Bool) : Session × Outcome :=
  if name.length = 0 then (s, Outcome.emptyName)
  else if (findChild (deref s.root s.cwd) name).isSome then (s, Outcome.alreadyExists)
  else
    let newNode := createNode name isDirectory
    if newNode = Node.null then (s, Outcome.invalidName)
    else (⟨insertChild s.root s.cwd newNode, s.cwd⟩, Outcome.ok)

def mkdir (s : Session) (name : List Char) : Session × Outcome := makeEntry s name true

def createFile (s : Session) (name : List Char) : Session × Outcome := makeEntry s name false

def rmdir (s : Session) (name : List Char) : Session × Outcome :=
  if name.length = 0 then (s, Outcome.emptyName)
  else if name = ['/'] then (s, Outcome.cannotRemoveRoot)
  else
    match findChild (deref s.root s.cwd) name with
    | none => (s, Outcome.noSuch)
    | some i =>
      let dir := deref s.root (s.cwd ++ [i])
      if dir.isDirectory = false then (s, Outcome.wrongType)
      else if dir.child ≠ Node.null then (s, Outcome.notEmpty)
      else if s.cwd = s.cwd ++ [i] then (s, Outcome.isCwd)
      else (⟨updChild s.root s.cwd (fun ch => unlink ch i), s.cwd⟩, Outcome.ok)

def rm (s : Session) (name : List Char) : Session × Outcome :=
  if name.length = 0 then (s, Outcome.emptyName)
  else
    match findChild (deref s.root s.cwd) name with
    | none => (s, Outcome.noSuch)
    | some i =>
      let file := deref s.root (s.cwd ++ [i])
      if file.isDirectory = true then (s, Outcome.wrongType)
      else (⟨updChild s.root s.cwd (fun ch => unlink ch i), s.cwd⟩, Outcome.ok)

/-! ## Path resolution -/

/-- One call of `strtok` with delimiter `/` on the remaining input: the token
and the input left after it, or `none` when no token is left. -/
def strtok (s : List Char) : Option (List Char × List Char) :=
  match s.dropWhile isSlash with
  | [] => none
  | c :: cs =>
    some ((c :: cs).takeWhile (fun x => !isSlash x),
          ((c :: cs).dropWhile (fun x => !isSlash x)).drop 1)

/-- The tokens produced by calling `strtok` until it returns `NULL`. -/
def strtokAll : Nat → List Char → List (List Char)
  | 0, _ => []
  | fuel + 1, s =>
    match strtok s with
    | none => []
    | some (token, rest) => token :: strtokAll fuel rest

/-- The tokens of a whole string. -/
def tokens (s : List Char) : List (List Char) := strtokAll (s.length + 1) s

/-- The `while (token)` loop shared by `findNodeFromPath` and `cd`: from
`target`, descend along the tokens; `none` is the `NULL` / error exit. -/
def walkTokens (root : Node) : List (List Char) → List Nat → Option (List Nat)
  | [], target => some target
  | token :: rest, target =>
    if token.length = 0 then walkTokens root rest target
    else
      match findChild (deref root target) token with
      | none => none
      | some i =>
        if (deref root (target ++ [i])).isDirectory = true then
          walkTokens root rest (target ++ [i])
        else none

def findNodeFromPath (root : Node) (start : List Nat) (path : List Char) :
    Option (List Nat) :=
  if path.length = 0 then some start
  else walkTokens root (tokens (strncpy path (MAX_INPUT - 1))) start

def cd (s : Session) (name : List Char) : Session × Outcome :=
  if name.length = 0 then (⟨s.root, []⟩, Outcome.ok)
  else if name = ['.', '.'] then
    (if s.cwd ≠ [] then ⟨s.root, s.cwd.dropLast⟩ else s, Outcome.ok)
  else
    let target := if name.head? = some '/' then [] else s.cwd
    let name1 := if name.head? = some '/' then name.drop 1 else name
    match walkTokens s.root (tokens (strncpy name1 (MAX_INPUT - 1))) target with
    | some t => (⟨s.root, t⟩, Outcome.ok)
    | none => (s, Outcome.noSuch)

/-- The commands of the interpreter that change the tree or `cwd`. -/
inductive Command where
  | mkdir (arg : List Char)
  | create (arg : List Char)
  | rmdir (arg : List Char)
  | rm (arg : List Char)
  | cd (arg : List Char)

/-- The dispatch of `executeCommand` on these commands. -/
def execute (s : Session) : Command → Session × Outcome
  | Command.mkdir a => mkdir s a
  | Command.create a => createFile s a
  | Command.rmdir a => rmdir s a
  | Command.rm a => rm s a
  | Command.cd a => cd s a

/-- The session after a sequence of commands. -/
def run (s : Session) (cmds : List Command) : Session :=
  cmds.foldl (fun st c => (execute st c).1) s

/-- Session states the interpreter can reach from the initial root-only tree
with mkdir, create, rmdir, rm and cd. -/
def Reachable (s : Session) : Prop := ∃ cmds : List Command, run initSession cmds = s

/-! ## save -/

/-- The text written by the nested function `saveNode(node, file, depth)`. -/
def saveNode : Node → Nat → List Char
  | Node.null, _ => []
  | Node.mk name isDirectory child sibling, depth =>
    List.replicate (2 * depth) ' ' ++ name ++ [' ']
      ++ [if isDirectory then '1' else '0'] ++ ['\n']
      ++ saveNode child (depth + 1) ++ saveNode sibling depth

/-- The content of the file written by `save`. -/
def save (s : Session) : List Char := saveNode s.root 0

/-! ## reload -/

/-- The bytes `fgets` stores when `room` bytes may still be stored, and the
input left in the file. -/
def fgetsAux : Nat → List Char → List Char × List Char
  | 0, s => ([], s)
  | _ + 1, [] => ([], [])
  | room + 1, c :: cs =>
    if c = '\n' then ([c], cs)
    else ((c :: (fgetsAux room cs).1), (fgetsAux room cs).2)

/-- One call `fgets(line, MAX_INPUT, file)`: `none` at end of file. -/
def fgets (input : List Char) : Option (List Char × List Char) :=
  match input with
  | [] => none
  | _ :: _ => some (fgetsAux (MAX_INPUT - 1) input)

/-- The buffers returned by the successive `fgets` calls of the read loop. -/
def fgetsAll : Nat → List Char → List (List Char)
  | 0, _ => []
  | fuel + 1, input =>
    match fgets input with
    | none => []
    | some (line, rest) => line :: fgetsAll fuel rest

/-- The C string held by a buffer: its bytes up to the first NUL. -/
def cstr (buf : List Char) : List Char := buf.takeWhile (fun c => decide (c ≠ Char.ofNat 0))

/-- The value of a run of decimal digits. -/
def digitsValue (ds : List Char) : Nat :=
  ds.foldl (fun acc c => 10 * acc + (c.toNat - '0'.toNat)) 0

/-- What `sscanf(trimmedLine, "%s %d", name, &isDir)` does. -/
inductive Scan where
  | undefined
  | mismatch
  | matched (name : List Char) (isDir : Int)
  deriving DecidableEq

/-- The `%d` directive on the input left after the name: `none` when no
integer can be read, otherwise its value. -/
def scanInt (s : List Char) : Option Int :=
  let s1 := s.dropWhile isspace
  let neg := decide (s1.head? = some '-')
  let s2 := if s1.head? = some '-' ∨ s1.head? = some '+' then s1.drop 1 else s1
  let ds := s2.takeWhile Char.isDigit
  if ds.length = 0 then none
  else some (if neg then - (digitsValue ds : Int) else (digitsValue ds : Int))

/-- The call `sscanf(s, "%s %d", name, &isDir)` with `char name[MAX_NAME]` and
`int isDir`: `mismatch` when it returns something else than 2, `undefined`
when the token overruns `name` or the integer does not fit an `int`. -/
def sscanfNameFlag (s : List Char) : Scan :=
  let s1 := s.dropWhile isspace
  let tok := s1.takeWhile (fun c => !isspace c)
  let rest := s1.dropWhile (fun c => !isspace c)
  if tok.length = 0 then Scan.mismatch
  else if tok.length ≥ MAX_NAME then Scan.undefined
  else
    match scanInt rest with
    | none => Scan.mismatch
    | some v =>
      if v < -2147483648 ∨ v > 2147483647 then Scan.undefined
      else Scan.matched tok v

/-- How `reload` ended. -/
inductive LoadStatus where
  | loaded
  | noEntries
  | invalidIndentation
  | firstEntryNotDirectory
  | stackOverflow
  | nodeCreationFailed
  | rootCreationFailed
  deriving DecidableEq

/-- The locals of `reload` together with the global `root` under
construction: `stack k` is the pointer stored in `stack[k]`, `none` while the
slot has never been written. -/
structure Loader where
  root : Node
  stack : Nat → Option (List Nat)
  stackTop : Int

/-- The result of one iteration of the read loop. -/
inductive Step where
  | next (st : Loader)
  | stop (s : Session) (status : LoadStatus)
  | undefined

/-- The loop `while (stackTop >= 0 && stackTop >= currentLevel) stackTop--`. -/
def popStack : Nat → Int → Int → Int
  | 0, stackTop, _ => stackTop
  | fuel + 1, stackTop, currentLevel =>
    if stackTop ≥ 0 ∧ stackTop ≥ currentLevel then popStack fuel (stackTop - 1) currentLevel
    else stackTop

/-- The number of records of a sibling chain. -/
def chainLength : Node → Nat
  | Node.null => 0
  | Node.mk _ _ _ sib => chainLength sib + 1

/-- The body of the read loop of `reload` for one buffer filled by `fgets`. -/
def processLine (st : Loader) (buf : List Char) : Step :=
  let line := cstr buf
  let trimmedLine := trim line
  if trimmedLine.length = 0 then Step.next st
  else
    let depth := (line.takeWhile (fun c => decide (c = ' '))).length
    if depth % 2 ≠ 0 then
      Step.stop ⟨createNode ['/'] true, []⟩ LoadStatus.invalidIndentation
    else
      match sscanfNameFlag trimmedLine with
      | Scan.undefined => Step.undefined
      | Scan.mismatch => Step.next st
      | Scan.matched name isDir =>
        let normalizedName := normalizeName (strncpy name (MAX_NAME - 1))
        if normalizedName.length = 0 then Step.next st
        else
          let currentLevel : Int := ((depth / 2 : Nat) : Int)
          if st.root = Node.null then
            if isDir = 0 then
              Step.stop ⟨createNode ['/'] true, []⟩ LoadStatus.firstEntryNotDirectory
            else
              let root := createNode normalizedName true
              if root = Node.null then Step.stop ⟨Node.null, []⟩ LoadStatus.rootCreationFailed
              else
                let top := st.stackTop + 1
                if top < 0 ∨ top ≥ MAX_PATH_LEN then Step.undefined
                else Step.next ⟨root, Function.update st.stack top.toNat (some []), top⟩
          else
            let top := popStack (st.stackTop + 1).toNat st.stackTop currentLevel + 1
            if top ≥ MAX_PATH_LEN then
              Step.stop ⟨createNode ['/'] true, []⟩ LoadStatus.stackOverflow
            else
              let newNode := createNode normalizedName (decide (isDir ≠ 0))
              if newNode = Node.null then
                Step.stop ⟨createNode ['/'] true, []⟩ LoadStatus.nodeCreationFailed
              else if top - 1 < 0 then Step.undefined
              else
                match st.stack (top - 1).toNat with
                | none => Step.undefined
                | some parent =>
                  let k := chainLength (deref st.root parent).child
                  Step.next ⟨insertChild st.root parent newNode,
                    Function.update st.stack top.toNat (some (parent ++ [k])), top⟩

/-- The read loop over the buffers delivered by `fgets`, and the code after
it. -/
def reloadLoop : List (List Char) → Loader → Option (Session × LoadStatus)
  | [], st =>
    if st.root = Node.null then some (⟨createNode ['/'] true, []⟩, LoadStatus.noEntries)
    else some (⟨st.root, []⟩, LoadStatus.loaded)
  | buf :: rest, st =>
    match processLine st buf with
    | Step.next st1 => reloadLoop rest st1
    | Step.stop s status => some (s, status)
    | Step.undefined => none

/-- The session left by `reload` on a file that could be opened and holds
`text`, and how the load ended; `none` when the run has undefined behaviour
(a buffer overrun or an access outside `stack`). The old tree is freed
first and plays no part. -/
def reload (_old : Session) (text : List Char) : Option (Session × LoadStatus) :=
  reloadLoop (fgetsAll text.length text) ⟨Node.null, fun _ => none, -1⟩

/-! ## Definitions used to state the properties -/

/-- The non-empty `/`-separated segments of a string. -/
def segments (s : List Char) : List (List Char) :=
  (s.splitOn '/').filter (fun seg => decide (seg ≠ []))

/-- Segments joined by single `/` characters. -/
def joinSegments (segs : List (List Char)) : List Char := List.intercalate ['/'] segs

/-- The copying loop of `normalizeName` without the bound on the output
length. -/
def squeeze : List Char → Bool → List Char
  | [], _ => []
  | c :: cs, lastWasSlash =>
    if c = '/' ∧ lastWasSlash = true then squeeze cs lastWasSlash
    else c :: squeeze cs (decide (c = '/'))

/-- Every record reachable through `child` and `sibling` has a non-empty name. -/
def namesNonempty : Node → Bool
  | Node.null => true
  | Node.mk n _ ch sib => decide (n ≠ []) && namesNonempty ch && namesNonempty sib

/-- The change `s` to `s1` appended one childless record `(nm, b)` as the last
child of `cwd` and changed nothing else: `cwd` is the same, the earlier
children of `cwd` keep their order, and every other record keeps its list of
children. -/
def AppendedLast (s s1 : Session) (nm : List Char) (b : Bool) : Prop :=
  s1.cwd = s.cwd ∧
  entries (deref s1.root s.cwd) = entries (deref s.root s.cwd) ++ [(nm, b)] ∧
  (deref s1.root (s.cwd ++ [(entries (deref s.root s.cwd)).length])).child = Node.null ∧
  ∀ q : List Nat, q ≠ s.cwd → entries (deref s1.root q) = entries (deref s.root q)

/-- A name of 64 bytes: 63 slashes and a letter. -/
def longSlashName : List Char := List.replicate 63 '/' ++ ['a']

/-- The index of the first child of `n` whose name is `seg`. -/
def firstChildNamed (n : Node) (seg : List Char) : Option Nat :=
  (entries n).findIdx? (fun e => decide (e.1 = seg))

/-- Whether child number `i` of `n` exists and is a directory. -/
def childIsDirectory (n : Node) (i : Nat) : Bool :=
  decide (((entries n)[i]?).map Prod.snd = some true)

/-- Resolution as the specification words it: walk the segments from left to
right; at each one move to the first child of that name, and give up when
there is none or when it is a file. -/
def resolveSegments (root : Node) : List (List Char) → List Nat → Option (List Nat)
  | [], cur => some cur
  | seg :: rest, cur =>
    match firstChildNamed (deref root cur) seg with
    | none => none
    | some i =>
      if childIsDirectory (deref root cur) i = true then
        resolveSegments root rest (cur ++ [i])
      else none

/-- A path of 128 bytes whose last segment is cut by the copy into the
127-byte buffer. -/
def longPath : List Char := List.replicate 126 '/' ++ ['a', 'b']

/-- The commands `mkdir a`, `cd a` issued 31 times, then `mkdir` of a name of
63 bytes: a directory at depth 32 whose line in the saved file has 130
bytes. -/
def deepCommands : List Command :=
  (List.replicate 31 [Command.mkdir ['a'], Command.cd ['a']]).flatten
    ++ [Command.mkdir (List.replicate 63 'b')]

/-- A name of 70 bytes without any separator. -/
def longName : List Char := List.replicate 70 'a'

/-- A name that `save` and `reload` carry unchanged: not empty, at most 63
bytes, free of whitespace and NUL bytes, and already normalized. -/
def plainName (n : List Char) : Bool :=
  decide (n ≠ []) && decide (n.length ≤ 63) &&
    n.all (fun c => !isspace c && decide (c ≠ Char.ofNat 0)) &&
    decide (normalizeName n = n)

/-- The line `saveNode` prints for one record. -/
def saveLine (name : List Char) (isDirectory : Bool) (depth : Nat) : List Char :=
  List.replicate (2 * depth) ' ' ++ name ++ [' ']
    ++ [if isDirectory then '1' else '0'] ++ ['\n']

/-- The lines printed by `saveNode(node, file, depth)`, one for each record. -/
def saveLines : Node → Nat → List (List Char)
  | Node.null, _ => []
  | Node.mk name isDirectory child sibling, depth =>
    saveLine name isDirectory depth :: (saveLines child (depth + 1) ++ saveLines sibling depth)

/-- Every record below has a plain name and a line of at most 127 bytes, so
that one `fgets` call reads it whole. -/
def fits : Node → Nat → Bool
  | Node.null, _ => true
  | Node.mk name _ child sibling, depth =>
    plainName name && decide (2 * depth + name.length + 3 ≤ 127) &&
      fits child (depth + 1) && fits sibling depth

/-- The flag byte written by `saveNode`. -/
def flagChar (isDirectory : Bool) : Char := if isDirectory then '1' else '0'

/-- A buffer-sized line: at most 127 bytes, ended by its only newline. -/
def IsLine (l : List Char) : Prop :=
  l.length ≤ 127 ∧ ∃ body, l = body ++ ['\n'] ∧ '\n' ∉ body

/-- A small tree: `/` holding the directory `a` (with the file `f` and the
directory `b`) and the directory `c`. -/
def sampleChild : Node :=
  Node.mk ['a'] true
    (Node.mk ['f'] false Node.null (Node.mk ['b'] true Node.null Node.null))
    (Node.mk ['c'] true Node.null Node.null)

/-! ## Sessions with reload, frames and traversal orders -/


/-- Session states the interpreter can reach from the initial root-only tree
with mkdir, create, rmdir, rm, cd and with reload of any text on which the run
of `reload` is defined. -/
inductive ReachableWithReload : Session → Prop where
  | init : ReachableWithReload initSession
  | command (s : Session) (c : Command) :
      ReachableWithReload s → ReachableWithReload (execute s c).1
  | reload (s : Session) (text : List Char) (s1 : Session) (status : LoadStatus) :
      ReachableWithReload s → reload s text = some (s1, status) → ReachableWithReload s1

/-- The name and kind of the record a pointer refers to, `none` for `NULL`. -/
def Node.label : Node → Option (List Char × Bool)
  | Node.null => none
  | Node.mk n d _ _ => some (n, d)

/-- The current directory and each of its ancestors is a record of the tree
and a directory. -/
def CwdLive (s : Session) : Prop :=
  ∀ p : List Nat, p <+: s.cwd → ∃ nm, (deref s.root p).label = some (nm, true)

/-- What `reload` keeps true of `root` while it builds the tree: it is `NULL`
or a directory with a non-empty name that is linked into no sibling chain. -/
def RootInv (r : Node) : Prop :=
  r = Node.null ∨ (r.isDirectory = true ∧ r.sibling = Node.null ∧ r.name ≠ [])



/-- Two pointers refer to records with the same name, kind and list of
children (or both to nothing). -/
def SameRecord (a b : Node) : Prop := a.label = b.label ∧ entries a = entries b

/-- Where the record found at pointer `q` after child number `i` of `cwd` was
unlinked stood before: the children of `cwd` from number `i` on, and what is
below them, stood one place further; every other pointer is unchanged. -/
def origin : List Nat → Nat → List Nat → List Nat
  | [], _, [] => []
  | [], i, j :: r => (if j < i then j else j + 1) :: r
  | _ :: _, _, [] => []
  | c :: cs, i, j :: r => if j = c then j :: origin cs i r else j :: r

/-- The effect of a successful `rmdir name` or `rm name` from `s` to `s1`. -/
def Removed (s s1 : Session) (name : List Char) : Prop :=
  ∃ i : Nat, firstChildNamed (deref s.root s.cwd) name = some i ∧
    s1.cwd = s.cwd ∧
    (deref s1.root s.cwd).label = (deref s.root s.cwd).label ∧
    entries (deref s1.root s.cwd) = (entries (deref s.root s.cwd)).eraseIdx i ∧
    ∀ q : List Nat, q ≠ s.cwd → SameRecord (deref s1.root q) (deref s.root (origin s.cwd i q))


/-- The tree `/` holding `a`, which holds `b`, as built by `mkdir a`, `cd a`,
`mkdir b`. -/
def nestedRoot : Node :=
  (run initSession [Command.mkdir ['a'], Command.cd ['a'], Command.mkdir ['b']]).root

/-- A directory tree as the specification describes it: a node with its name,
its kind and the ordered sequence of its children. -/
inductive Tree where
  | node (name : List Char) (isDirectory : Bool) (children : List Tree) : Tree

/-- The trees hanging off a sibling chain, in order. -/
def forest : Node → List Tree
  | Node.null => []
  | Node.mk n d ch sib => Tree.node n d (forest ch) :: forest sib

mutual
/-- Pre-order listing: the line of a node at depth `d`, then the listings of
its children in order, each one level deeper. -/
def Tree.lines : Tree → Nat → List (List Char)
  | Tree.node name isDirectory children, d =>
    saveLine name isDirectory d :: Tree.linesList children (d + 1)
/-- The listings of a sequence of trees, one after the other. -/
def Tree.linesList : List Tree → Nat → List (List Char)
  | [], _ => []
  | t :: ts, d => Tree.lines t d ++ Tree.linesList ts d
end

mutual
/-- The number of nodes of a tree. -/
def Tree.size : Tree → Nat
  | Tree.node _ _ children => 1 + Tree.sizeList children
/-- The number of nodes of a sequence of trees. -/
def Tree.sizeList : List Tree → Nat
  | [] => 0
  | t :: ts => Tree.size t + Tree.sizeList ts
end

/-- A line of 131 bytes: `a`, 126 spaces, `b 1` and the newline. -/
def longLine : List Char := ['a'] ++ List.replicate 126 ' ' ++ ['b', ' ', '1', '\n']

/-- A file whose first entry is named `foo`. -/
def fooText : List Char := "foo 1\n  a 1\n".toList

/-- The session `reload` leaves for `fooText`. -/
def fooSession : Session :=
  ⟨Node.mk "foo".toList true (Node.mk ['a'] true Node.null Node.null) Node.null, []⟩

/-- A file in which a directory line is indented below a file line. -/
def fileParentText : List Char := "/ 1\n  f 0\n    g 1\n".toList

/-- A file whose second entry is three levels below the root line and whose
third entry is at level two. -/
def jumpText : List Char := "/ 1\n      a 1\n    b 1\n".toList

/-- A file with a malformed line between two entries. -/
def junkText : List Char := "/ 1\n  junk\n  a 1\n".toList

/-! ## printTree -/


/-- The UTF-8 bytes of a character. -/
def utf8Char (c : Char) : List Char :=
  if c.toNat < 128 then [c]
  else if c.toNat < 2048 then
    [Char.ofNat (192 + c.toNat / 64), Char.ofNat (128 + c.toNat % 64)]
  else if c.toNat < 65536 then
    [Char.ofNat (224 + c.toNat / 4096), Char.ofNat (128 + c.toNat / 64 % 64),
      Char.ofNat (128 + c.toNat % 64)]
  else
    [Char.ofNat (240 + c.toNat / 262144), Char.ofNat (128 + c.toNat / 4096 % 64),
      Char.ofNat (128 + c.toNat / 64 % 64), Char.ofNat (128 + c.toNat % 64)]

/-- The bytes of a string literal of the source file. -/
def utf8 (s : String) : List Char := (s.toList.map utf8Char).flatten

/-- The string built by `snprintf(newPrefix, sizeof(newPrefix), "%s%s   ",
prefix, isLast ? "    " : "│")`. -/
def newPrefix (pfx : List Char) (isLast : Bool) : List Char :=
  strncpy (pfx ++ (if isLast then utf8 "    " else utf8 "│") ++ utf8 "   ") (1024 - 1)

/-- The line `printTreeRecursive` prints for a record other than the root. -/
def entryLine (pfx name : List Char) (isDirectory isLast : Bool) : List Char :=
  pfx ++ (if isLast then utf8 "└" else utf8 "├") ++ utf8 "── " ++ name
    ++ (if isDirectory then utf8 "/" else []) ++ utf8 "\n"

/-- The output of the loop `while (child)` of `printTreeRecursive`: the call
`printTreeRecursive(child, newPrefix, i == count - 1)` for each record of the
chain, the last one being the one without sibling. -/
def printChildren : Node → List Char → List Char
  | Node.null, _ => []
  | Node.mk name isDirectory child sibling, pfx =>
    entryLine pfx name isDirectory (decide (sibling = Node.null))
      ++ printChildren child (newPrefix pfx (decide (sibling = Node.null)))
      ++ printChildren sibling pfx

/-- The output of `printTreeRecursive(node, prefix, isLast)`; `isRoot` is the
test `node == root`. -/
def printTreeRecursive (node : Node) (isRoot : Bool) (pfx : List Char) (isLast : Bool) :
    List Char :=
  match node with
  | Node.null => []
  | Node.mk name isDirectory child _ =>
    (if isRoot then pfx ++ utf8 ".\n" else entryLine pfx name isDirectory isLast)
      ++ printChildren child (newPrefix pfx isLast)

/-- The output of `printTree(start)` for a record `start` given by its
pointer (verbose off). -/
def printTree (s : Session) (start : List Nat) : List Char :=
  printTreeRecursive (deref s.root start) (decide (start = [])) [] true

/-- The session after `mkdir docs`, `cd docs`, `create notes`. -/
def docsSession : Session :=
  run initSession
    [Command.mkdir "docs".toList, Command.cd "docs".toList, Command.create "notes".toList]

/-! ## Histories of a session -/

/-- One step of a session: a command of the interpreter, or `reload` of a file
that holds `text`. -/
inductive Event where
  | command (c : Command)
  | reload (text : List Char)

/-- The session after a sequence of commands and reloads, `none` when the run
of a reload has undefined behaviour. -/
def runEvents : Session → List Event → Option Session
  | s, [] => some s
  | s, Event.command c :: es => runEvents (execute s c).1 es
  | s, Event.reload text :: es =>
    match reload s text with
    | none => none
    | some (s1, _) => runEvents s1 es

/-- The normalized name of the entry a line of a saved file describes: `none`
for a blank line, a line that is not `<name> <flag>`, and a name that
normalizes to the empty string. -/
def entryName (buf : List Char) : Option (List Char) :=
  if (trim (cstr buf)).length = 0 then none
  else
    match sscanfNameFlag (trim (cstr buf)) with
    | Scan.matched name _ =>
      if (normalizeName (strncpy name (MAX_NAME - 1))).length = 0 then none
      else some (normalizeName (strncpy name (MAX_NAME - 1)))
    | _ => none

/-- The normalized name of the first valid entry of a file. -/
def firstEntryName (text : List Char) : Option (List Char) :=
  (fgetsAll text.length text).findSome? entryName

/-- The name of the root after a history that starts with a root named `nm`:
a command keeps it; a reload that loads its file sets it to the name of the
first valid entry of the file, any other reload sets it to `/`. -/
def rootNameAfter : List Event → List Char → List Char
  | [], nm => nm
  | Event.command _ :: es, nm => rootNameAfter es nm
  | Event.reload text :: es, _ =>
    rootNameAfter es
      (match reload initSession text with
        | some (_, LoadStatus.loaded) => (firstEntryName text).getD ['/']
        | _ => ['/'])

/-- The history `mkdir a`, `reload` of `fooText`, `mkdir x`. -/
def fooHistory : List Event :=
  [Event.command (Command.mkdir ['a']), Event.reload fooText,
    Event.command (Command.mkdir ['x'])]

/-- The tree `/` holding the directory `d`, which holds the directory `a`, the
file `f` and the directory `b`; `cwd` is `d`. -/
def dirAndFile : Session :=
  run initSession [Command.mkdir ['d'], Command.cd ['d'], Command.mkdir ['a'],
    Command.create ['f'], Command.mkdir ['b']]

/-! ## The ancestor stack of reload -/

/-- A root line followed by an entry at nesting level 0. -/
def levelZeroText : List Char := "/ 1\na 1\n".toList

/-- The locals of `reload` after the line `/ 1` was read: `root` is the new
root and `stack[0]` holds it. -/
def afterRootLine : Loader :=
  ⟨createNode ['/'] true, Function.update (fun _ => none) 0 (some []), 0⟩

/-- What the read loop of `reload` keeps true of `stack`: before the root
exists the stack is empty; afterwards `stackTop` is a valid index and every
slot up to it holds a pointer to a record of the tree being built. -/
def StackLive (st : Loader) : Prop :=
  (st.root = Node.null ∧ st.stackTop = -1) ∨
    (st.root ≠ Node.null ∧ 0 ≤ st.stackTop ∧ st.stackTop < MAX_PATH_LEN ∧
      ∀ k : Nat, (k : Int) ≤ st.stackTop →
        ∃ P, st.stack k = some P ∧ deref st.root P ≠ Node.null)

/-! ## Strings: segments, tokens and `normalizeName` -/


theorem splitOnP_takeWhile (p : Char → Bool) (s : List Char) :
    s.splitOnP p = s.takeWhile (fun c => !p c) ::
      (match s.dropWhile (fun c => !p c) with
        | [] => []
        | _ :: r => r.splitOnP p) := by
  induction s with
  | nil => simp
  | cons x xs ih =>
    rw [List.splitOnP_cons]
    by_cases h : p x = true
    · simp [h]
    · simp only [h, Bool.false_eq_true, if_false]
      rw [ih]
      simp [h, List.modifyHead]

theorem segments_nil : segments [] = [] := by
  simp [segments]

theorem segments_slash (s : List Char) : segments ('/' :: s) = segments s := by
  simp [segments, List.splitOn, List.splitOnP_cons]

theorem segments_token (c : Char) (cs : List Char) (hc : c ≠ '/') :
    segments (c :: cs) = (c :: cs).takeWhile (fun x => !isSlash x) ::
      segments (((c :: cs).dropWhile (fun x => !isSlash x)).drop 1) := by
  have hp : (fun x : Char => x == '/') = isSlash := by
    funext x; rw [Bool.eq_iff_iff]; simp [isSlash]
  unfold segments List.splitOn
  rw [hp, splitOnP_takeWhile isSlash (c :: cs)]
  have h1 : isSlash c = false := by simp [isSlash, hc]
  rw [List.filter_cons]
  have h2 : List.takeWhile (fun x => !isSlash x) (c :: cs) ≠ [] := by
    simp [List.takeWhile, h1]
  simp only [h2, ne_eq, not_false_eq_true, decide_True, if_true]
  congr 1
  cases hd : List.dropWhile (fun x => !isSlash x) (c :: cs) with
  | nil => simp
  | cons y r => simp

theorem segments_dropWhile (s : List Char) : segments (s.dropWhile isSlash) = segments s := by
  induction s with
  | nil => rfl
  | cons c cs ih =>
    by_cases hc : c = '/'
    · subst hc
      rw [segments_slash]
      simpa [List.dropWhile, isSlash] using ih
    · simp [List.dropWhile, isSlash, hc]

theorem mem_segments_ne_nil {s seg : List Char} (h : seg ∈ segments s) : seg ≠ [] := by
  simpa using (List.mem_filter.mp h).2

theorem dropWhile_isSlash_head {s : List Char} {c : Char} {cs : List Char}
    (h : s.dropWhile isSlash = c :: cs) : c ≠ '/' := by
  have := List.head_dropWhile_not isSlash s (by simp [h])
  simp only [h, List.head_cons] at this
  simpa [isSlash] using this

theorem strtokAll_eq_segments (fuel : Nat) :
    ∀ s : List Char, s.length < fuel → strtokAll fuel s = segments s := by
  induction fuel with
  | zero => intro s h; omega
  | succ n ih =>
    intro s hlen
    rw [← segments_dropWhile s]
    unfold strtokAll strtok
    have hle : (s.dropWhile isSlash).length ≤ s.length := (List.dropWhile_sublist _).length_le
    cases hd : s.dropWhile isSlash with
    | nil => simp [segments_nil]
    | cons c cs =>
      have hc := dropWhile_isSlash_head hd
      simp only
      rw [segments_token c cs hc, ih]
      rw [hd] at hle
      have h2 : (List.dropWhile (fun x => !isSlash x) (c :: cs)).length ≤ (c :: cs).length :=
        (List.dropWhile_sublist _).length_le
      simp only [List.length_drop, List.length_cons] at *
      omega

theorem tokens_eq_segments (s : List Char) : tokens s = segments s :=
  strtokAll_eq_segments _ s (Nat.lt_succ_self _)

theorem normalizeLoop_eq_squeeze (cs : List Char) :
    ∀ (j : Nat) (last : Bool), j + cs.length ≤ MAX_NAME - 1 →
      normalizeLoop cs j last = squeeze cs last := by
  induction cs with
  | nil => intro j last _; rfl
  | cons c cs ih =>
    intro j last h
    simp only [List.length_cons] at h
    have hj : j < MAX_NAME - 1 := by omega
    simp only [normalizeLoop, squeeze, hj, if_true]
    rw [ih j last (by omega), ih (j + 1) _ (by omega)]

theorem squeeze_length_le (cs : List Char) : ∀ last, (squeeze cs last).length ≤ cs.length := by
  induction cs with
  | nil => intro _; simp [squeeze]
  | cons c cs ih =>
    intro last
    simp only [squeeze]
    split
    · exact Nat.le_succ_of_le (ih _)
    · simpa using ih _

theorem squeeze_false (cs : List Char) :
    squeeze cs false = cs.takeWhile (fun x => !isSlash x) ++
      (match cs.dropWhile (fun x => !isSlash x) with
        | [] => []
        | _ :: r => '/' :: squeeze r true) := by
  induction cs with
  | nil => rfl
  | cons c cs ih =>
    by_cases hc : c = '/'
    · subst hc
      simp [squeeze, isSlash, List.takeWhile, List.dropWhile]
    · simp [squeeze, isSlash, List.takeWhile, List.dropWhile, hc]
      simpa [isSlash] using ih

theorem squeeze_nonslash (c : Char) (cs : List Char) (last : Bool) (hc : c ≠ '/') :
    squeeze (c :: cs) last = c :: squeeze cs false := by
  simp [squeeze, hc]

theorem dropTrailing_append (p : Char → Bool) (a b : List Char) :
    dropTrailing p (a ++ b) =
      if dropTrailing p b = [] then dropTrailing p a else a ++ dropTrailing p b := by
  unfold dropTrailing
  rw [List.reverse_append, List.dropWhile_append]
  by_cases h : List.dropWhile p b.reverse = []
  · simp [h]
  · have h2 : (List.dropWhile p b.reverse).isEmpty = false := by
      cases hh : List.dropWhile p b.reverse with
      | nil => exact absurd hh h
      | cons _ _ => rfl
    simp [h, h2]

theorem dropTrailing_length_le (p : Char → Bool) (s : List Char) :
    (dropTrailing p s).length ≤ s.length := by
  unfold dropTrailing
  rw [List.length_reverse]
  exact Nat.le_trans (List.dropWhile_sublist _).length_le (by simp)

theorem dropTrailing_of_all_not (p : Char → Bool) (s : List Char) (h : ∀ x ∈ s, p x = false) :
    dropTrailing p s = s := by
  unfold dropTrailing
  cases hr : s.reverse with
  | nil => simp [List.reverse_eq_nil_iff.mp hr]
  | cons x xs =>
    have hx : p x = false := h x (by rw [← List.mem_reverse, hr]; simp)
    rw [List.dropWhile_cons, hx]
    simp [← hr]

theorem joinSegments_nil : joinSegments [] = [] := rfl

theorem joinSegments_cons (tok : List Char) (segs : List (List Char)) :
    joinSegments (tok :: segs) =
      if segs = [] then tok else tok ++ '/' :: joinSegments segs := by
  cases segs with
  | nil => simp [joinSegments, List.intercalate]
  | cons a r => simp [joinSegments, List.intercalate]

theorem joinSegments_eq_nil {segs : List (List Char)} (hne : ∀ seg ∈ segs, seg ≠ [])
    (h : joinSegments segs = []) : segs = [] := by
  cases segs with
  | nil => rfl
  | cons a r =>
    rw [joinSegments_cons] at h
    have ha := hne a (by simp)
    split at h
    · exact absurd h ha
    · simp at h

theorem dropTrailing_squeeze (n : Nat) :
    ∀ cs : List Char, cs.length ≤ n →
      dropTrailing isSlash (squeeze cs true) = joinSegments (segments cs) := by
  induction n with
  | zero =>
    intro cs h
    have : cs = [] := List.length_eq_zero.mp (Nat.le_zero.mp h)
    subst this
    simp [squeeze, dropTrailing, segments_nil, joinSegments_nil]
  | succ n ih =>
    intro cs h
    cases cs with
    | nil => simp [squeeze, dropTrailing, segments_nil, joinSegments_nil]
    | cons c cs =>
      simp only [List.length_cons] at h
      by_cases hc : c = '/'
      · subst hc
        rw [segments_slash]
        have : squeeze ('/' :: cs) true = squeeze cs true := by simp [squeeze]
        rw [this]
        exact ih cs (by omega)
      · rw [squeeze_nonslash c cs true hc, segments_token c cs hc, squeeze_false]
        have hco : isSlash c = false := by simp [isSlash, hc]
        have htw : List.takeWhile (fun x => !isSlash x) (c :: cs)
            = c :: List.takeWhile (fun x => !isSlash x) cs := by
          simp [List.takeWhile, hco]
        have hdw : List.dropWhile (fun x => !isSlash x) (c :: cs)
            = List.dropWhile (fun x => !isSlash x) cs := by
          simp [List.dropWhile, hco]
        rw [htw, hdw, joinSegments_cons]
        have hall : ∀ x ∈ c :: List.takeWhile (fun x => !isSlash x) cs, isSlash x = false := by
          intro x hx
          rcases List.mem_cons.mp hx with rfl | hx
          · exact hco
          · simpa using List.mem_takeWhile_imp hx
        have hlen : (List.dropWhile (fun x => !isSlash x) cs).length ≤ cs.length :=
          (List.dropWhile_sublist _).length_le
        cases hd : List.dropWhile (fun x => !isSlash x) cs with
        | nil =>
          simp only [List.drop_nil, segments_nil, if_true, List.append_nil]
          exact dropTrailing_of_all_not isSlash _ hall
        | cons y r =>
          rw [hd] at hlen
          simp only [List.length_cons] at hlen
          have ihr := ih r (by omega)
          simp only [List.drop_succ_cons, List.drop_zero]
          rw [← List.cons_append, dropTrailing_append]
          have hsl : dropTrailing isSlash ('/' :: squeeze r true) =
              if dropTrailing isSlash (squeeze r true) = [] then []
              else '/' :: dropTrailing isSlash (squeeze r true) := by
            have := dropTrailing_append isSlash ['/'] (squeeze r true)
            simpa [dropTrailing, isSlash] using this
          rw [hsl, ihr]
          by_cases hs : segments r = []
          · simp [hs, joinSegments_nil, dropTrailing_of_all_not isSlash _ hall]
          · have hj : joinSegments (segments r) ≠ [] := fun hj =>
              hs (joinSegments_eq_nil (fun seg hseg => mem_segments_ne_nil hseg) hj)
            simp [hs, hj]

theorem eq_slash_iff (s : List Char) : (s.length = 1 ∧ s.head? = some '/') ↔ s = ['/'] := by
  constructor
  · rintro ⟨h1, h2⟩
    match s, h1, h2 with
    | [c], _, h2 => simpa using h2
  · rintro rfl; simp

theorem squeeze_head_irrel (cs : List Char) (h : cs.head? ≠ some '/') (b : Bool) :
    squeeze cs b = squeeze cs true := by
  cases cs with
  | nil => rfl
  | cons c cs =>
    have hc : c ≠ '/' := by simpa using h
    rw [squeeze_nonslash c cs b hc, squeeze_nonslash c cs true hc]

theorem head_dropWhile_isSlash (s : List Char) : (s.dropWhile isSlash).head? ≠ some '/' := by
  cases hd : s.dropWhile isSlash with
  | nil => simp
  | cons c cs =>
    have := dropWhile_isSlash_head hd
    simpa using this

theorem normalizeName_eq_join (s : List Char) (hs : s ≠ ['/']) (hlen : s.length ≤ MAX_NAME - 1) :
    normalizeName s = joinSegments (segments s) := by
  unfold normalizeName
  rw [if_neg (by rw [eq_slash_iff]; exact hs)]
  have hle : (s.dropWhile isSlash).length ≤ s.length := (List.dropWhile_sublist _).length_le
  simp only
  rw [normalizeLoop_eq_squeeze _ 0 false (by omega),
    squeeze_head_irrel _ (head_dropWhile_isSlash s) false,
    dropTrailing_squeeze _ _ (Nat.le_refl _), segments_dropWhile]
  unfold strncpy
  apply List.take_of_length_le
  rw [← segments_dropWhile, ← dropTrailing_squeeze _ _ (Nat.le_refl _)]
  have h1 := dropTrailing_length_le isSlash (squeeze (s.dropWhile isSlash) true)
  have h2 := squeeze_length_le (s.dropWhile isSlash) true
  omega

theorem normalizeName_length_le (s : List Char) : (normalizeName s).length ≤ MAX_NAME - 1 := by
  unfold normalizeName strncpy
  split <;> simp [List.length_take]

theorem segments_no_slash (n : Nat) :
    ∀ s : List Char, s.length ≤ n → ∀ seg ∈ segments s, '/' ∉ seg := by
  induction n with
  | zero =>
    intro s h seg hseg
    have : s = [] := List.length_eq_zero.mp (Nat.le_zero.mp h)
    subst this
    simp [segments_nil] at hseg
  | succ n ih =>
    intro s h seg hseg
    cases s with
    | nil => simp [segments_nil] at hseg
    | cons c cs =>
      simp only [List.length_cons] at h
      by_cases hc : c = '/'
      · subst hc
        rw [segments_slash] at hseg
        exact ih cs (by omega) seg hseg
      · rw [segments_token c cs hc] at hseg
        rcases List.mem_cons.mp hseg with rfl | hseg
        · intro hmem
          have := List.mem_takeWhile_imp hmem
          simp [isSlash] at this
        · have h2 : (List.dropWhile (fun x => !isSlash x) (c :: cs)).length ≤ (c :: cs).length :=
            (List.dropWhile_sublist _).length_le
          refine ih _ ?_ seg hseg
          simp only [List.length_drop, List.length_cons] at *
          omega

theorem segments_joinSegments (segs : List (List Char)) (hne : ∀ seg ∈ segs, seg ≠ [])
    (hns : ∀ seg ∈ segs, '/' ∉ seg) : segments (joinSegments segs) = segs := by
  by_cases h : segs = []
  · subst h; simp [joinSegments_nil, segments_nil]
  · unfold segments joinSegments
    rw [List.splitOn_intercalate _ '/' hns h]
    apply List.filter_eq_self.mpr
    intro seg hseg
    simpa using hne seg hseg

theorem joinSegments_ne_slash (segs : List (List Char)) (hne : ∀ seg ∈ segs, seg ≠ [])
    (hns : ∀ seg ∈ segs, '/' ∉ seg) : joinSegments segs ≠ ['/'] := by
  cases segs with
  | nil => simp [joinSegments_nil]
  | cons a r =>
    have ha := hne a (by simp)
    have hs := hns a (by simp)
    rw [joinSegments_cons]
    cases a with
    | nil => exact absurd rfl ha
    | cons x xs =>
      have hx : x ≠ '/' := fun hx => hs (by simp [hx])
      split <;> simp [hx]

theorem normalizeName_idem (s : List Char) (hlen : s.length ≤ MAX_NAME - 1) :
    normalizeName (normalizeName s) = normalizeName s := by
  by_cases hs : s = ['/']
  · subst hs; decide
  · have hne : ∀ seg ∈ segments s, seg ≠ [] := fun seg h => mem_segments_ne_nil h
    have hns := segments_no_slash _ s (Nat.le_refl _)
    have hl := normalizeName_length_le s
    rw [normalizeName_eq_join s hs hlen] at hl ⊢
    rw [normalizeName_eq_join _ (joinSegments_ne_slash _ hne hns) hl,
      segments_joinSegments _ hne hns]

theorem normalizeName_root : normalizeName ['/'] = ['/'] := by decide

/-- C8: `normalizeName` maps the one-byte string `/` to itself, and every
other string of at most 63 bytes to its non-empty `/`-separated segments
joined by single `/` characters (the empty string when there is no such
segment). -/
theorem normalizeName_segments (s : List Char) :
    normalizeName ['/'] = ['/'] ∧
      (s ≠ ['/'] → s.length ≤ 63 → normalizeName s = joinSegments (segments s)) :=
  ⟨normalizeName_root, fun hs hlen => normalizeName_eq_join s hs hlen⟩

/-- C8, instance: `//usr///local/` becomes `usr/local`. -/
theorem normalizeName_segments_witness :
    normalizeName "//usr///local/".toList = joinSegments (segments "//usr///local/".toList) ∧
      joinSegments (segments "//usr///local/".toList) = "usr/local".toList :=
  ⟨(normalizeName_segments "//usr///local/".toList).2 (by decide) (by decide), by decide⟩

/-! ## Pointers and sibling chains -/


theorem chainAt_null (i : Nat) (p : List Nat) : chainAt Node.null i p = Node.null := by
  simp [chainAt]

theorem chainAt_append (c : Node) :
    ∀ (i : Nat) (p : List Nat) (k : Nat),
      chainAt c i (p ++ [k]) = chainAt (chainAt c i p).child k [] := by
  induction c with
  | null => intro i p k; simp [chainAt, Node.child]
  | mk n d ch sib ihc ihs =>
    intro i p k
    cases i with
    | succ i => simpa [chainAt] using ihs i p k
    | zero =>
      cases p with
      | nil => simp [chainAt, Node.child]
      | cons j p => simpa [chainAt] using ihc j p k

theorem deref_append (root : Node) (p : List Nat) (k : Nat) :
    deref root (p ++ [k]) = chainAt (deref root p).child k [] :=
  chainAt_append root 0 p k

theorem findSibling_eq_findIdx (c : Node) (name : List Char) :
    findSibling c name = (chainEntries c).findIdx? (fun e => decide (e.1 = name)) := by
  induction c with
  | null => simp [findSibling, chainEntries]
  | mk n d ch sib _ ihs =>
    simp only [findSibling, chainEntries, List.findIdx?_cons]
    by_cases h : n = name
    · simp [h]
    · simp [h, ihs, List.findIdx?_succ]

theorem findChild_eq_findIdx (nd : Node) (name : List Char) :
    findChild nd name = (entries nd).findIdx? (fun e => decide (e.1 = name)) := by
  cases nd with
  | null => simp [findChild, entries, Node.child, chainEntries]
  | mk n d ch sib => simp [findChild, entries, Node.child, findSibling_eq_findIdx]

theorem chainEntries_getElem (c : Node) :
    ∀ k : Nat, (chainEntries c)[k]? =
      if chainAt c k [] = Node.null then none
      else some ((chainAt c k []).name, (chainAt c k []).isDirectory) := by
  induction c with
  | null => intro k; simp [chainEntries, chainAt]
  | mk n d ch sib _ ihs =>
    intro k
    cases k with
    | zero => simp [chainEntries, chainAt, Node.name, Node.isDirectory]
    | succ k => simpa [chainEntries, chainAt] using ihs k

theorem chainEntries_appendSibling (c leaf : Node) :
    chainEntries (appendSibling c leaf) = chainEntries c ++ chainEntries leaf := by
  induction c with
  | null => simp [appendSibling, chainEntries]
  | mk n d ch sib _ ihs => simp [appendSibling, chainEntries, ihs]

theorem chainEntries_unlink (c : Node) :
    ∀ i : Nat, chainEntries (unlink c i) = (chainEntries c).eraseIdx i := by
  induction c with
  | null => intro i; simp [unlink, chainEntries]
  | mk n d ch sib _ ihs =>
    intro i
    cases i with
    | zero => simp [unlink, chainEntries]
    | succ i => simp [unlink, chainEntries, ihs]

theorem chainEntries_chainUpd (c : Node) (g : Node → Node) :
    ∀ (i : Nat) (p : List Nat), chainEntries (chainUpd c i p g) = chainEntries c := by
  induction c with
  | null => intro i p; simp [chainUpd]
  | mk n d ch sib _ ihs =>
    intro i p
    cases i with
    | succ i => simp [chainUpd, chainEntries, ihs]
    | zero =>
      cases p with
      | nil => simp [chainUpd, chainEntries]
      | cons j p => simp [chainUpd, chainEntries]

/-- The record reached by `i`, `p` after an update at the same place. -/
theorem chainAt_chainUpd_same (c : Node) (g : Node → Node) :
    ∀ (i : Nat) (p : List Nat),
      chainAt (chainUpd c i p g) i p =
        match chainAt c i p with
        | Node.null => Node.null
        | Node.mk n d ch sib => Node.mk n d (g ch) sib := by
  induction c with
  | null => intro i p; simp [chainUpd, chainAt]
  | mk n d ch sib ihc ihs =>
    intro i p
    cases i with
    | succ i => simpa [chainUpd, chainAt] using ihs i p
    | zero =>
      cases p with
      | nil => simp [chainUpd, chainAt]
      | cons j p => simpa [chainUpd, chainAt] using ihc j p

theorem entries_chainAt_appendSibling (c : Node) (nm : List Char) (d : Bool) :
    ∀ (j : Nat) (q : List Nat),
      entries (chainAt (appendSibling c (Node.mk nm d Node.null Node.null)) j q)
        = entries (chainAt c j q) := by
  induction c with
  | null =>
    intro j q
    cases j with
    | succ j => simp [appendSibling, chainAt]
    | zero =>
      cases q with
      | nil => simp [appendSibling, chainAt, entries, Node.child, chainEntries]
      | cons k q => simp [appendSibling, chainAt]
  | mk n e ch sib _ ihs =>
    intro j q
    cases j with
    | succ j => simpa [appendSibling, chainAt] using ihs j q
    | zero =>
      cases q with
      | nil => simp [appendSibling, chainAt, entries, Node.child]
      | cons k q => simp [appendSibling, chainAt]

/-- Frame property of appending a childless record below the record at `i`, `p`. -/
theorem entries_chainAt_insert (c : Node) (nm : List Char) (d : Bool) :
    ∀ (i : Nat) (p : List Nat) (j : Nat) (q : List Nat),
      entries (chainAt (chainUpd c i p
          (fun ch => appendSibling ch (Node.mk nm d Node.null Node.null))) j q)
        = if j = i ∧ q = p ∧ chainAt c i p ≠ Node.null
          then entries (chainAt c i p) ++ [(nm, d)]
          else entries (chainAt c j q) := by
  induction c with
  | null => intro i p j q; simp [chainUpd, chainAt]
  | mk n e ch sib ihc ihs =>
    intro i p j q
    cases i with
    | succ i =>
      cases j with
      | succ j => simpa [chainUpd, chainAt] using ihs i p j q
      | zero =>
        cases q with
        | nil => simp [chainUpd, chainAt, entries, Node.child]
        | cons k q => simp [chainUpd, chainAt]
    | zero =>
      cases p with
      | nil =>
        cases j with
        | succ j => simp [chainUpd, chainAt]
        | zero =>
          cases q with
          | nil =>
            simp [chainUpd, chainAt, entries, Node.child, chainEntries_appendSibling,
              chainEntries]
          | cons k q =>
            simpa [chainUpd, chainAt] using entries_chainAt_appendSibling ch nm d k q
      | cons i2 p =>
        cases j with
        | succ j => simp [chainUpd, chainAt]
        | zero =>
          cases q with
          | nil => simp [chainUpd, chainAt, entries, Node.child, chainEntries_chainUpd]
          | cons k q => simpa [chainUpd, chainAt, and_assoc] using ihc i2 p k q

/-! ## Creating entries -/


theorem createNode_eq (name : List Char) (b : Bool) (hlen : name.length ≤ MAX_NAME - 1)
    (hnorm : normalizeName name ≠ []) :
    createNode name b = Node.mk (normalizeName name) b Node.null Node.null := by
  have htake : strncpy name (MAX_NAME - 1) = name := List.take_of_length_le hlen
  have hl := normalizeName_length_le name
  have h0 : (normalizeName name).length ≠ 0 := fun h => hnorm (List.length_eq_zero.mp h)
  unfold createNode
  simp only [htake]
  rw [if_neg (fun h => h0 h.1), if_neg (by omega)]
  congr 1
  exact List.take_of_length_le hl

theorem createNode_cases (name : List Char) (b : Bool) :
    createNode name b = Node.null ∨
      ∃ nm, nm ≠ [] ∧ createNode name b = Node.mk nm b Node.null Node.null := by
  unfold createNode
  simp only
  split
  · exact Or.inl rfl
  · rename_i h1
    split
    · exact Or.inl rfl
    · rename_i h2
      refine Or.inr ⟨_, ?_, rfl⟩
      have hl := normalizeName_length_le (strncpy name (MAX_NAME - 1))
      have hne : normalizeName (strncpy name (MAX_NAME - 1)) ≠ [] := by
        by_cases hn : name = ['/']
        · subst hn; decide
        · intro h
          exact h1 ⟨by rw [h]; rfl, hn⟩
      have ht : strncpy (normalizeName (strncpy name (MAX_NAME - 1))) (MAX_NAME - 1)
          = normalizeName (strncpy name (MAX_NAME - 1)) := List.take_of_length_le hl
      rw [ht]
      exact hne

theorem chainAt_appendSibling_last (c leaf : Node) :
    chainAt (appendSibling c leaf) (chainEntries c).length [] = chainAt leaf 0 [] := by
  induction c with
  | null => simp [appendSibling, chainEntries]
  | mk n d ch sib _ ihs => simpa [appendSibling, chainEntries, chainAt] using ihs

theorem insertChild_appendedLast (s : Session) (nm : List Char) (b : Bool)
    (hcwd : deref s.root s.cwd ≠ Node.null) :
    AppendedLast s ⟨insertChild s.root s.cwd (Node.mk nm b Node.null Node.null), s.cwd⟩ nm b := by
  have hins : insertChild s.root s.cwd (Node.mk nm b Node.null Node.null)
      = chainUpd s.root 0 s.cwd
          (fun ch => appendSibling ch (Node.mk nm b Node.null Node.null)) := by
    simp [insertChild, updChild]
  refine ⟨rfl, ?_, ?_, ?_⟩
  · simp only [hins, deref]
    rw [entries_chainAt_insert]
    simp [deref] at hcwd
    simp [hcwd]
  · simp only [hins]
    rw [deref_append]
    simp only [deref]
    rw [chainAt_chainUpd_same]
    cases hd : chainAt s.root 0 s.cwd with
    | null => exact absurd hd hcwd
    | mk n d ch sib =>
      simp only [Node.child, entries]
      rw [chainAt_appendSibling_last]
      simp [chainAt, Node.child]
  · intro q hq
    simp only [hins, deref]
    rw [entries_chainAt_insert]
    simp [hq]

theorem makeEntry_appends (s : Session) (name : List Char) (b : Bool)
    (hcwd : deref s.root s.cwd ≠ Node.null)
    (hfree : findChild (deref s.root s.cwd) name = none)
    (hlen : name.length ≤ MAX_NAME - 1) (hnorm : normalizeName name ≠ []) :
    (makeEntry s name b).2 = Outcome.ok ∧
      AppendedLast s (makeEntry s name b).1 (normalizeName name) b := by
  have hname : name.length ≠ 0 := by
    intro h
    have : name = [] := List.length_eq_zero.mp h
    subst this
    exact hnorm (by decide)
  unfold makeEntry
  simp only [hname, if_false, hfree, Option.isSome_none, Bool.false_eq_true,
    createNode_eq name b hlen hnorm]
  rw [if_neg (by simp)]
  exact ⟨rfl, insertChild_appendedLast s _ b hcwd⟩

/-- C4 (amended): when `cwd` is a live record with no child named exactly
`name`, `name` has at most 63 bytes and `normalizeName name` is not empty,
`mkdir name` (resp. `create name`) succeeds and appends exactly one childless
record named `normalizeName name`, a directory (resp. a file), as the last
child of `cwd`; the earlier children of `cwd` keep their order, every other
record keeps its list of children, and `cwd` is unchanged. -/
theorem mkdir_create_append_last (s : Session) (name : List Char)
    (hcwd : deref s.root s.cwd ≠ Node.null)
    (hfree : findChild (deref s.root s.cwd) name = none)
    (hlen : name.length ≤ 63) (hnorm : normalizeName name ≠ []) :
    ((mkdir s name).2 = Outcome.ok ∧
        AppendedLast s (mkdir s name).1 (normalizeName name) true) ∧
      ((createFile s name).2 = Outcome.ok ∧
        AppendedLast s (createFile s name).1 (normalizeName name) false) :=
  ⟨makeEntry_appends s name true hcwd hfree hlen hnorm,
    makeEntry_appends s name false hcwd hfree hlen hnorm⟩

/-- C4, instance: `mkdir docs` and `create docs` in the initial session. -/
theorem mkdir_create_append_last_witness :
    ((mkdir initSession "docs".toList).2 = Outcome.ok ∧
        AppendedLast initSession (mkdir initSession "docs".toList).1
          (normalizeName "docs".toList) true) ∧
      ((createFile initSession "docs".toList).2 = Outcome.ok ∧
        AppendedLast initSession (createFile initSession "docs".toList).1
          (normalizeName "docs".toList) false) :=
  mkdir_create_append_last initSession "docs".toList (by decide) (by decide) (by decide)
    (by decide)

/-- C4 as stated fails for a name longer than 63 bytes: the initial root has
no child named `longSlashName` and `normalizeName longSlashName` is `a`, but
`createNode` first cuts the argument to its 63 leading slashes, so `mkdir`
and `create` report an invalid name and add nothing. -/
theorem mkdir_long_name_not_appended :
    findChild (deref initSession.root initSession.cwd) longSlashName = none ∧
      normalizeName longSlashName = ['a'] ∧
      mkdir initSession longSlashName = (initSession, Outcome.invalidName) ∧
      createFile initSession longSlashName = (initSession, Outcome.invalidName) := by
  decide

theorem makeEntry_ok_free (s : Session) (name : List Char) (b : Bool)
    (hok : (makeEntry s name b).2 = Outcome.ok) :
    findChild (deref s.root s.cwd) name = none := by
  unfold makeEntry at hok
  split at hok
  · simp at hok
  · split at hok
    · simp at hok
    · rename_i h
      simpa using h

theorem makeEntry_exists (s : Session) (name : List Char) (b : Bool) (hne : name ≠ [])
    (h : ∃ e ∈ entries (deref s.root s.cwd), e.1 = name) :
    makeEntry s name b = (s, Outcome.alreadyExists) := by
  have hname : name.length ≠ 0 := fun h0 => hne (List.length_eq_zero.mp h0)
  have hsome : (findChild (deref s.root s.cwd) name).isSome = true := by
    rw [findChild_eq_findIdx, List.findIdx?_isSome]
    obtain ⟨e, he, hen⟩ := h
    exact List.any_eq_true.mpr ⟨e, he, by simpa using hen⟩
  unfold makeEntry
  simp [hname, hsome]

/-- C5: for a non-empty name `n` with `normalizeName n = n` and a live `cwd`,
after a successful `mkdir n` a second `mkdir n`, and likewise `create n`,
reports already-exists and returns the session unchanged (tree and `cwd`),
and `cwd` has exactly one child named `n`. -/
theorem mkdir_twice (s : Session) (n : List Char)
    (hcwd : deref s.root s.cwd ≠ Node.null)
    (hcanon : normalizeName n = n) (hne : n ≠ [])
    (hok : (mkdir s n).2 = Outcome.ok) :
    mkdir (mkdir s n).1 n = ((mkdir s n).1, Outcome.alreadyExists) ∧
      createFile (mkdir s n).1 n = ((mkdir s n).1, Outcome.alreadyExists) ∧
      ((entries (deref (mkdir s n).1.root (mkdir s n).1.cwd)).filter
        (fun e => decide (e.1 = n))).length = 1 := by
  have hfree := makeEntry_ok_free s n true hok
  have hlen : n.length ≤ MAX_NAME - 1 := by
    rw [← hcanon]; exact normalizeName_length_le n
  have hnorm : normalizeName n ≠ [] := by rw [hcanon]; exact hne
  obtain ⟨_, hcwd1, hent, _, _⟩ := makeEntry_appends s n true hcwd hfree hlen hnorm
  rw [hcanon] at hent
  have hmk : mkdir s n = makeEntry s n true := rfl
  rw [hmk] at *
  have hex : ∃ e ∈ entries (deref (makeEntry s n true).1.root (makeEntry s n true).1.cwd),
      e.1 = n := by
    rw [hcwd1, hent]
    exact ⟨(n, true), by simp, rfl⟩
  refine ⟨makeEntry_exists _ n true hne hex, makeEntry_exists _ n false hne hex, ?_⟩
  rw [hcwd1, hent, List.filter_append]
  have hold : (entries (deref s.root s.cwd)).filter (fun e => decide (e.1 = n)) = [] := by
    rw [List.filter_eq_nil_iff]
    intro a ha
    rw [findChild_eq_findIdx, List.findIdx?_eq_none_iff] at hfree
    simpa using hfree a ha
  rw [hold]
  simp

/-- C5, instance: `mkdir a` twice in the initial session. -/
theorem mkdir_twice_witness :
    mkdir (mkdir initSession "a".toList).1 "a".toList
        = ((mkdir initSession "a".toList).1, Outcome.alreadyExists) ∧
      createFile (mkdir initSession "a".toList).1 "a".toList
        = ((mkdir initSession "a".toList).1, Outcome.alreadyExists) ∧
      ((entries (deref (mkdir initSession "a".toList).1.root
          (mkdir initSession "a".toList).1.cwd)).filter
        (fun e => decide (e.1 = "a".toList))).length = 1 :=
  mkdir_twice initSession "a".toList (by decide) (by decide) (by decide) (by decide)

/-! ## Names in reachable sessions, and `rmdir` -/


theorem namesNonempty_mk (n : List Char) (d : Bool) (ch sib : Node) :
    namesNonempty (Node.mk n d ch sib) = true ↔
      n ≠ [] ∧ namesNonempty ch = true ∧ namesNonempty sib = true := by
  simp [namesNonempty, and_assoc]

theorem namesNonempty_chainAt (c : Node) :
    ∀ (i : Nat) (p : List Nat), namesNonempty c = true → namesNonempty (chainAt c i p) = true := by
  induction c with
  | null => intro i p _; simp [chainAt, namesNonempty]
  | mk n d ch sib ihc ihs =>
    intro i p h
    have h3 := (namesNonempty_mk n d ch sib).mp h
    cases i with
    | succ i => simpa [chainAt] using ihs i p h3.2.2
    | zero =>
      cases p with
      | nil => simpa [chainAt] using h
      | cons j p => simpa [chainAt] using ihc j p h3.2.1

theorem namesNonempty_chainUpd (c : Node) (g : Node → Node)
    (hg : ∀ ch, namesNonempty ch = true → namesNonempty (g ch) = true) :
    ∀ (i : Nat) (p : List Nat), namesNonempty c = true →
      namesNonempty (chainUpd c i p g) = true := by
  induction c with
  | null => intro i p _; simp [chainUpd, namesNonempty]
  | mk n d ch sib ihc ihs =>
    intro i p h
    have h3 := (namesNonempty_mk n d ch sib).mp h
    cases i with
    | succ i =>
      simp only [chainUpd]
      exact (namesNonempty_mk _ _ _ _).mpr ⟨h3.1, h3.2.1, ihs i p h3.2.2⟩
    | zero =>
      cases p with
      | nil =>
        simp only [chainUpd]
        exact (namesNonempty_mk _ _ _ _).mpr ⟨h3.1, hg ch h3.2.1, h3.2.2⟩
      | cons j p =>
        simp only [chainUpd]
        exact (namesNonempty_mk _ _ _ _).mpr ⟨h3.1, ihc j p h3.2.1, h3.2.2⟩

theorem namesNonempty_appendSibling (c leaf : Node) (hc : namesNonempty c = true)
    (hl : namesNonempty leaf = true) : namesNonempty (appendSibling c leaf) = true := by
  induction c with
  | null => simpa [appendSibling] using hl
  | mk n d ch sib _ ihs =>
    have h3 := (namesNonempty_mk n d ch sib).mp hc
    simp only [appendSibling]
    exact (namesNonempty_mk _ _ _ _).mpr ⟨h3.1, h3.2.1, ihs h3.2.2⟩

theorem namesNonempty_unlink (c : Node) :
    ∀ i : Nat, namesNonempty c = true → namesNonempty (unlink c i) = true := by
  induction c with
  | null => intro i _; simp [unlink, namesNonempty]
  | mk n d ch sib _ ihs =>
    intro i h
    have h3 := (namesNonempty_mk n d ch sib).mp h
    cases i with
    | zero => simpa [unlink] using h3.2.2
    | succ i =>
      simp only [unlink]
      exact (namesNonempty_mk _ _ _ _).mpr ⟨h3.1, h3.2.1, ihs i h3.2.2⟩

theorem namesNonempty_createNode (name : List Char) (b : Bool) :
    namesNonempty (createNode name b) = true := by
  rcases createNode_cases name b with h | ⟨nm, hnm, h⟩
  · rw [h]; rfl
  · rw [h]; simp [namesNonempty, hnm]

theorem namesNonempty_makeEntry (s : Session) (name : List Char) (b : Bool)
    (h : namesNonempty s.root = true) : namesNonempty (makeEntry s name b).1.root = true := by
  unfold makeEntry
  split
  · exact h
  · split
    · exact h
    · simp only
      split
      · exact h
      · simp only [insertChild]
        split
        · exact h
        · exact namesNonempty_chainUpd _ _
            (fun ch hch => namesNonempty_appendSibling ch _ hch
              (namesNonempty_createNode name b)) _ _ h

theorem namesNonempty_rmdir (s : Session) (name : List Char)
    (h : namesNonempty s.root = true) : namesNonempty (rmdir s name).1.root = true := by
  unfold rmdir
  split
  · exact h
  · split
    · exact h
    · split
      · exact h
      · simp only
        split
        · exact h
        · split
          · exact h
          · split
            · exact h
            · exact namesNonempty_chainUpd _ _
                (fun ch hch => namesNonempty_unlink ch _ hch) _ _ h

theorem namesNonempty_rm (s : Session) (name : List Char)
    (h : namesNonempty s.root = true) : namesNonempty (rm s name).1.root = true := by
  unfold rm
  split
  · exact h
  · split
    · exact h
    · simp only
      split
      · exact h
      · exact namesNonempty_chainUpd _ _
          (fun ch hch => namesNonempty_unlink ch _ hch) _ _ h

theorem cd_root (s : Session) (name : List Char) : (cd s name).1.root = s.root := by
  unfold cd
  split
  · rfl
  · split
    · split <;> rfl
    · simp only
      split <;> rfl

theorem namesNonempty_execute (s : Session) (c : Command)
    (h : namesNonempty s.root = true) : namesNonempty (execute s c).1.root = true := by
  cases c with
  | mkdir a => exact namesNonempty_makeEntry s a true h
  | create a => exact namesNonempty_makeEntry s a false h
  | rmdir a => exact namesNonempty_rmdir s a h
  | rm a => exact namesNonempty_rm s a h
  | cd a => simpa [execute, cd_root] using h

theorem namesNonempty_run (cmds : List Command) :
    ∀ s : Session, namesNonempty s.root = true → namesNonempty (run s cmds).root = true := by
  induction cmds with
  | nil => intro s h; exact h
  | cons c cs ih =>
    intro s h
    exact ih _ (namesNonempty_execute s c h)

theorem namesNonempty_reachable {s : Session} (h : Reachable s) :
    namesNonempty s.root = true := by
  obtain ⟨cmds, rfl⟩ := h
  exact namesNonempty_run cmds initSession (by decide)

theorem findSibling_name_ne_nil (c : Node) (name : List Char) :
    ∀ i : Nat, namesNonempty c = true → findSibling c name = some i → name ≠ [] := by
  induction c with
  | null => intro i _ h; simp [findSibling] at h
  | mk n d ch sib _ ihs =>
    intro i hn h
    have h3 := (namesNonempty_mk n d ch sib).mp hn
    simp only [findSibling] at h
    split at h
    · rename_i heq
      rw [← heq]; exact h3.1
    · cases hf : findSibling sib name with
      | none => simp [hf] at h
      | some k => exact ihs k h3.2.2 hf

theorem findChild_name_ne_nil (nd : Node) (name : List Char) (i : Nat)
    (hn : namesNonempty nd = true) (h : findChild nd name = some i) : name ≠ [] := by
  cases nd with
  | null => simp [findChild] at h
  | mk n d ch sib =>
    exact findSibling_name_ne_nil ch name i ((namesNonempty_mk n d ch sib).mp hn).2.1 h

theorem entries_updChild_same (root : Node) (p : List Nat) (g : Node → Node) :
    entries (deref (updChild root p g) p) = chainEntries (g (deref root p).child) ∨
      deref root p = Node.null := by
  simp only [deref, updChild]
  rw [chainAt_chainUpd_same]
  cases chainAt root 0 p with
  | null => exact Or.inr rfl
  | mk n d ch sib => exact Or.inl (by simp [entries, Node.child])

/-- C3 (amended): in a reachable session, when `findChild(cwd, name)` is a
directory `d` (child number `i` of `cwd`), `rmdir name` succeeds if and only
if `name` is not the one-byte string `/`, `d` has no children, `d` is not the
root and `d` is not the current directory (the pointer `cwd ++ [i]` differs
from the root pointer `[]` and from `cwd`); on success `cwd` is unchanged and
the children of `cwd` are the former ones without child number `i`. -/
theorem rmdir_succeeds_iff (s : Session) (name : List Char) (i : Nat)
    (hreach : Reachable s)
    (hfind : findChild (deref s.root s.cwd) name = some i)
    (hdir : (deref s.root (s.cwd ++ [i])).isDirectory = true) :
    ((rmdir s name).2 = Outcome.ok ↔
        name ≠ ['/'] ∧ (deref s.root (s.cwd ++ [i])).child = Node.null ∧
          s.cwd ++ [i] ≠ [] ∧ s.cwd ++ [i] ≠ s.cwd) ∧
      ((rmdir s name).2 = Outcome.ok →
        (rmdir s name).1.cwd = s.cwd ∧
          entries (deref (rmdir s name).1.root s.cwd)
            = (entries (deref s.root s.cwd)).eraseIdx i) := by
  have hnn := namesNonempty_chainAt s.root 0 s.cwd (namesNonempty_reachable hreach)
  have hne : name ≠ [] := findChild_name_ne_nil _ name i hnn hfind
  have hlen : name.length ≠ 0 := fun h => hne (List.length_eq_zero.mp h)
  have hp1 : s.cwd ++ [i] ≠ [] := by simp
  have hp2 : s.cwd ++ [i] ≠ s.cwd := by simp
  have hderef : deref s.root s.cwd ≠ Node.null := by
    intro h; rw [h] at hfind; simp [findChild] at hfind
  unfold rmdir
  simp only [hlen, if_false, hfind, hdir]
  by_cases hroot : name = ['/']
  · simp [hroot]
  · by_cases hch : (deref s.root (s.cwd ++ [i])).child = Node.null
    · simp only [hroot, if_false, hch, ne_eq, not_true_eq_false, hp2.symm, not_false_eq_true,
        true_and, and_true, hp1, hp2, true_iff, forall_const]
      simp only [Bool.true_eq_false, if_false, true_and]
      rcases entries_updChild_same s.root s.cwd (fun ch => unlink ch i) with h | h
      · rw [h, chainEntries_unlink]; intro _; rfl
      · exact absurd h hderef
    · simp [hroot, hch]

/-- C3, instance: after `mkdir a` in the initial session, `rmdir a`. -/
theorem rmdir_succeeds_iff_witness :
    ((rmdir (run initSession [Command.mkdir "a".toList]) "a".toList).2 = Outcome.ok ↔
        "a".toList ≠ ['/'] ∧
          (deref (run initSession [Command.mkdir "a".toList]).root
            ((run initSession [Command.mkdir "a".toList]).cwd ++ [0])).child = Node.null ∧
          (run initSession [Command.mkdir "a".toList]).cwd ++ [0] ≠ [] ∧
          (run initSession [Command.mkdir "a".toList]).cwd ++ [0]
            ≠ (run initSession [Command.mkdir "a".toList]).cwd) ∧
      ((rmdir (run initSession [Command.mkdir "a".toList]) "a".toList).2 = Outcome.ok →
        (rmdir (run initSession [Command.mkdir "a".toList]) "a".toList).1.cwd
            = (run initSession [Command.mkdir "a".toList]).cwd ∧
          entries (deref (rmdir (run initSession [Command.mkdir "a".toList]) "a".toList).1.root
              (run initSession [Command.mkdir "a".toList]).cwd)
            = (entries (deref (run initSession [Command.mkdir "a".toList]).root
                (run initSession [Command.mkdir "a".toList]).cwd)).eraseIdx 0) :=
  rmdir_succeeds_iff (run initSession [Command.mkdir "a".toList]) "a".toList 0
    ⟨[Command.mkdir "a".toList], rfl⟩ (by decide) (by decide)

/-- C3 as stated fails: after `mkdir /` the current directory has a child
directory named `/` that is empty, is not the root and is not the current
directory, yet `rmdir /` is refused with the cannot-remove-root message. -/
theorem rmdir_slash_child_refused :
    Reachable (run initSession [Command.mkdir ['/']]) ∧
    findChild (deref (run initSession [Command.mkdir ['/']]).root
        (run initSession [Command.mkdir ['/']]).cwd) ['/'] = some 0 ∧
      (deref (run initSession [Command.mkdir ['/']]).root
        ((run initSession [Command.mkdir ['/']]).cwd ++ [0])).isDirectory = true ∧
      (deref (run initSession [Command.mkdir ['/']]).root
        ((run initSession [Command.mkdir ['/']]).cwd ++ [0])).child = Node.null ∧
      (run initSession [Command.mkdir ['/']]).cwd ++ [0] ≠ [] ∧
      (run initSession [Command.mkdir ['/']]).cwd ++ [0]
        ≠ (run initSession [Command.mkdir ['/']]).cwd ∧
      (rmdir (run initSession [Command.mkdir ['/']]) ['/']).2 = Outcome.cannotRemoveRoot :=
  ⟨⟨_, rfl⟩, by decide⟩

/-! ## Path resolution -/


theorem isDirectory_deref_append (root : Node) (p : List Nat) (i : Nat) :
    (deref root (p ++ [i])).isDirectory = childIsDirectory (deref root p) i := by
  rw [deref_append]
  unfold childIsDirectory entries
  rw [chainEntries_getElem]
  by_cases h : chainAt (deref root p).child i [] = Node.null
  · simp [h, Node.isDirectory]
  · simp [h]

theorem walkTokens_eq_resolveSegments (root : Node) (toks : List (List Char))
    (hne : ∀ t ∈ toks, t ≠ []) :
    ∀ cur : List Nat, walkTokens root toks cur = resolveSegments root toks cur := by
  induction toks with
  | nil => intro cur; rfl
  | cons t rest ih =>
    intro cur
    have ht : t.length ≠ 0 := fun h => hne t (by simp) (List.length_eq_zero.mp h)
    have ih2 := ih (fun x hx => hne x (List.mem_cons_of_mem _ hx))
    simp only [walkTokens, resolveSegments, ht, if_false, firstChildNamed,
      ← findChild_eq_findIdx]
    cases findChild (deref root cur) t with
    | none => rfl
    | some i =>
      simp only [isDirectory_deref_append, ih2]

theorem findNodeFromPath_eq_walk (root : Node) (start : List Nat) (path : List Char)
    (hlen : path.length ≤ MAX_INPUT - 1) :
    findNodeFromPath root start path = walkTokens root (segments path) start := by
  unfold findNodeFromPath
  split
  · rename_i h
    have : path = [] := List.length_eq_zero.mp h
    subst this
    simp [segments_nil, walkTokens]
  · have : strncpy path (MAX_INPUT - 1) = path := List.take_of_length_le hlen
    rw [this, tokens_eq_segments]

theorem walkTokens_result (root : Node) (toks : List (List Char)) :
    ∀ (cur t : List Nat), walkTokens root toks cur = some t →
      t = cur ∨ (deref root t).isDirectory = true := by
  induction toks with
  | nil => intro cur t h; simp [walkTokens] at h; exact Or.inl h.symm
  | cons tok rest ih =>
    intro cur t h
    simp only [walkTokens] at h
    split at h
    · exact ih cur t h
    · split at h
      · simp at h
      · rename_i i _
        split at h
        · rename_i hd
          rcases ih _ t h with h1 | h1
          · right; rw [h1]; exact hd
          · exact Or.inr h1
        · simp at h

theorem resolveSegments_append (root : Node) (pre post : List (List Char)) :
    ∀ cur : List Nat, resolveSegments root (pre ++ post) cur
      = (resolveSegments root pre cur).bind (resolveSegments root post) := by
  induction pre with
  | nil => intro cur; simp [resolveSegments]
  | cons seg rest ih =>
    intro cur
    simp only [List.cons_append, resolveSegments]
    cases firstChildNamed (deref root cur) seg with
    | none => simp
    | some i =>
      simp only
      split
      · exact ih _
      · simp

/-- C7 (amended): for a path of at most 127 bytes `findNodeFromPath` is the
walk over the non-empty segments from left to right that moves, at each
segment, to the first child with that name; it returns `NULL` as soon as a
segment has no such child or that child is a file, whatever segments follow;
otherwise it returns the record reached, which is `start` itself or a
directory. -/
theorem findNodeFromPath_walk (root : Node) (start : List Nat) (path : List Char)
    (hlen : path.length ≤ 127) :
    findNodeFromPath root start path = resolveSegments root (segments path) start ∧
      (∀ (pre post : List (List Char)) (seg : List Char) (cur : List Nat),
        segments path = pre ++ seg :: post →
        resolveSegments root pre start = some cur →
        (firstChildNamed (deref root cur) seg = none ∨
          ∃ i, firstChildNamed (deref root cur) seg = some i ∧
            (deref root (cur ++ [i])).isDirectory = false) →
        findNodeFromPath root start path = none) ∧
      (∀ t, findNodeFromPath root start path = some t →
        t = start ∨ (deref root t).isDirectory = true) := by
  have hw := findNodeFromPath_eq_walk root start path hlen
  have hr : findNodeFromPath root start path = resolveSegments root (segments path) start := by
    rw [hw]
    exact walkTokens_eq_resolveSegments root _ (fun t ht => mem_segments_ne_nil ht) start
  refine ⟨hr, ?_, ?_⟩
  · intro pre post seg cur hseg hpre hbad
    rw [hr, hseg, resolveSegments_append, hpre]
    simp only [Option.some_bind, resolveSegments]
    rcases hbad with h | ⟨i, h, hfile⟩
    · rw [h]
    · rw [h]
      rw [isDirectory_deref_append] at hfile
      simp [hfile]
  · intro t ht
    rw [hw] at ht
    exact walkTokens_result root _ start t ht

/-- C7, instance: the path `/a/b` in the tree made by `mkdir a`. -/
theorem findNodeFromPath_walk_witness :
    findNodeFromPath (run initSession [Command.mkdir "a".toList]).root [] "/a/b".toList
        = resolveSegments (run initSession [Command.mkdir "a".toList]).root
            (segments "/a/b".toList) [] ∧
      (∀ (pre post : List (List Char)) (seg : List Char) (cur : List Nat),
        segments "/a/b".toList = pre ++ seg :: post →
        resolveSegments (run initSession [Command.mkdir "a".toList]).root pre [] = some cur →
        (firstChildNamed (deref (run initSession [Command.mkdir "a".toList]).root cur) seg = none ∨
          ∃ i, firstChildNamed (deref (run initSession [Command.mkdir "a".toList]).root cur) seg
              = some i ∧
            (deref (run initSession [Command.mkdir "a".toList]).root (cur ++ [i])).isDirectory
              = false) →
        findNodeFromPath (run initSession [Command.mkdir "a".toList]).root [] "/a/b".toList
          = none) ∧
      (∀ t, findNodeFromPath (run initSession [Command.mkdir "a".toList]).root [] "/a/b".toList
          = some t →
        t = [] ∨ (deref (run initSession [Command.mkdir "a".toList]).root t).isDirectory = true) :=
  findNodeFromPath_walk (run initSession [Command.mkdir "a".toList]).root [] "/a/b".toList
    (by decide)

set_option maxRecDepth 100000 in
/-- C7 as stated fails for a path longer than 127 bytes: `longPath` has the
single segment `ab`, which names no child of the root, but the copy into the
128-byte buffer cuts it to `a`, and the directory `a` is returned. -/
theorem findNodeFromPath_long_path_cut :
    findNodeFromPath (run initSession [Command.mkdir "a".toList]).root [] longPath = some [0] ∧
      resolveSegments (run initSession [Command.mkdir "a".toList]).root (segments longPath) []
        = none := by
  decide!

/-- C6: `findNodeFromPath(start, "")` and `findNodeFromPath(start, "/")` are
`start`, and two paths of at most 127 bytes with the same sequence of
non-empty `/`-separated segments resolve to the same result. -/
theorem findNodeFromPath_separators (root : Node) (start : List Nat) :
    findNodeFromPath root start [] = some start ∧
      findNodeFromPath root start ['/'] = some start ∧
      ∀ p q : List Char, p.length ≤ 127 → q.length ≤ 127 → segments p = segments q →
        findNodeFromPath root start p = findNodeFromPath root start q := by
  refine ⟨rfl, rfl, ?_⟩
  intro p q hp hq h
  rw [findNodeFromPath_eq_walk root start p hp, findNodeFromPath_eq_walk root start q hq, h]

/-- C6, instance: `a//b` and `a/b` in a tree holding `a/b`. -/
theorem findNodeFromPath_separators_witness :
    findNodeFromPath
        (run initSession [Command.mkdir "a".toList, Command.cd "a".toList,
          Command.mkdir "b".toList]).root [] "a//b".toList
      = findNodeFromPath
        (run initSession [Command.mkdir "a".toList, Command.cd "a".toList,
          Command.mkdir "b".toList]).root [] "a/b".toList :=
  (findNodeFromPath_separators
    (run initSession [Command.mkdir "a".toList, Command.cd "a".toList,
      Command.mkdir "b".toList]).root []).2.2 "a//b".toList "a/b".toList
    (by decide) (by decide) (by decide)

/-! ## reload: the fallback tree -/


theorem createNode_root : createNode ['/'] true = Node.mk ['/'] true Node.null Node.null := by
  decide

theorem createNode_normalized_ne_null (x : List Char) (b : Bool)
    (h : (normalizeName (strncpy x (MAX_NAME - 1))).length ≠ 0) :
    createNode (normalizeName (strncpy x (MAX_NAME - 1))) b ≠ Node.null := by
  have hx : (strncpy x (MAX_NAME - 1)).length ≤ MAX_NAME - 1 := by
    unfold strncpy; simp [List.length_take]
  have hid := normalizeName_idem _ hx
  have hl := normalizeName_length_le (strncpy x (MAX_NAME - 1))
  have hne : normalizeName (normalizeName (strncpy x (MAX_NAME - 1))) ≠ [] := by
    rw [hid]; intro h0; exact h (by rw [h0]; rfl)
  rw [createNode_eq _ b hl hne]
  simp

theorem processLine_stop (st : Loader) (buf : List Char) (s : Session) (status : LoadStatus)
    (h : processLine st buf = Step.stop s status) :
    s = ⟨Node.mk ['/'] true Node.null Node.null, []⟩ := by
  unfold processLine at h
  simp only at h
  split at h
  · simp at h
  · split at h
    · simp only [Step.stop.injEq, createNode_root] at h
      exact h.1.symm
    · split at h
      · simp at h
      · simp at h
      · rename_i name isDir _
        split at h
        · simp at h
        · rename_i hnz
          split at h
          · split at h
            · simp only [Step.stop.injEq, createNode_root] at h
              exact h.1.symm
            · split at h
              · rename_i hnull
                exact absurd hnull (createNode_normalized_ne_null name true hnz)
              · split at h <;> simp at h
          · split at h
            · simp only [Step.stop.injEq, createNode_root] at h
              exact h.1.symm
            · split at h
              · simp only [Step.stop.injEq, createNode_root] at h
                exact h.1.symm
              · split at h
                · simp at h
                · split at h <;> simp at h

theorem reloadLoop_fallback (lines : List (List Char)) :
    ∀ (st : Loader) (s : Session) (status : LoadStatus),
      reloadLoop lines st = some (s, status) → status ≠ LoadStatus.loaded →
      s = ⟨Node.mk ['/'] true Node.null Node.null, []⟩ := by
  induction lines with
  | nil =>
    intro st s status h hs
    simp only [reloadLoop] at h
    split at h
    · simp only [Option.some.injEq, Prod.mk.injEq, createNode_root] at h
      exact h.1.symm
    · simp only [Option.some.injEq, Prod.mk.injEq] at h
      exact absurd h.2.symm hs
  | cons buf rest ih =>
    intro st s status h hs
    simp only [reloadLoop] at h
    split at h
    · exact ih _ s status h hs
    · rename_i s1 status1 hstep
      simp only [Option.some.injEq, Prod.mk.injEq] at h
      rw [← h.1]
      exact processLine_stop st buf s1 status1 hstep
    · simp at h

/-- C10: whenever `reload` ends otherwise than with a loaded tree (a fatal
error: odd indentation, a first entry that is a file, the stack bound, a node
that cannot be created; or no valid entry at all), the session is the single
childless directory `/` with `cwd` at that root, whatever the old session
was. -/
theorem reload_fallback (old : Session) (text : List Char) (s : Session) (status : LoadStatus)
    (h : reload old text = some (s, status)) (hs : status ≠ LoadStatus.loaded) :
    s.root = Node.mk ['/'] true Node.null Node.null ∧ s.cwd = [] ∧
      entries (deref s.root s.cwd) = [] := by
  have := reloadLoop_fallback _ _ s status h hs
  subst this
  exact ⟨rfl, rfl, rfl⟩

/-- C10, instance: a file whose first line has one leading space, reloaded
over a session that holds a directory `a`. -/
theorem reload_fallback_witness :
    (run initSession [Command.mkdir "a".toList]).root.child ≠ Node.null ∧
    reload (run initSession [Command.mkdir "a".toList]) " a 1\n".toList
      = some (⟨Node.mk ['/'] true Node.null Node.null, []⟩, LoadStatus.invalidIndentation) ∧
    ((⟨Node.mk ['/'] true Node.null Node.null, []⟩ : Session).root
        = Node.mk ['/'] true Node.null Node.null ∧
      (⟨Node.mk ['/'] true Node.null Node.null, []⟩ : Session).cwd = [] ∧
      entries (deref (⟨Node.mk ['/'] true Node.null Node.null, []⟩ : Session).root
        (⟨Node.mk ['/'] true Node.null Node.null, []⟩ : Session).cwd) = []) :=
  ⟨by decide, by decide,
    reload_fallback (run initSession [Command.mkdir "a".toList]) " a 1\n".toList
      ⟨Node.mk ['/'] true Node.null Node.null, []⟩ LoadStatus.invalidIndentation
      (by decide) (by decide)⟩

/-! ## reload: the read loop runs to its end -/


theorem fgetsAux_append (room : Nat) :
    ∀ s : List Char, (fgetsAux room s).1 ++ (fgetsAux room s).2 = s := by
  induction room with
  | zero => intro s; simp [fgetsAux]
  | succ n ih =>
    intro s
    cases s with
    | nil => simp [fgetsAux]
    | cons c cs =>
      simp only [fgetsAux]
      split
      · simp
      · simpa using ih cs

theorem fgetsAux_rest_lt (room : Nat) (c : Char) (cs : List Char) :
    (fgetsAux (room + 1) (c :: cs)).2.length < (c :: cs).length := by
  have h := congrArg List.length (fgetsAux_append (room + 1) (c :: cs))
  have h1 : 0 < (fgetsAux (room + 1) (c :: cs)).1.length := by
    simp only [fgetsAux]
    split <;> simp
  simp only [List.length_append] at h
  omega

/-- The buffers delivered by the read loop, put end to end, are the whole
file: the fuel given to `fgetsAll` is enough. -/
theorem fgetsAll_flatten (fuel : Nat) :
    ∀ text : List Char, text.length ≤ fuel → (fgetsAll fuel text).flatten = text := by
  induction fuel with
  | zero =>
    intro text h
    have : text = [] := List.length_eq_zero.mp (Nat.le_zero.mp h)
    subst this
    simp [fgetsAll]
  | succ n ih =>
    intro text h
    cases text with
    | nil => simp [fgetsAll, fgets]
    | cons c cs =>
      have hlt : (fgetsAux (MAX_INPUT - 1) (c :: cs)).2.length < (c :: cs).length :=
        fgetsAux_rest_lt 126 c cs
      have happ := fgetsAux_append (MAX_INPUT - 1) (c :: cs)
      simp only [fgetsAll, fgets, List.flatten_cons]
      rw [ih _ (by simp only [List.length_cons] at h hlt ⊢; omega)]
      exact happ

/-- With enough fuel the loop `while (stackTop >= 0 && stackTop >= currentLevel)`
has run to its exit: its condition is false for the value returned. -/
theorem popStack_exit (fuel : Nat) :
    ∀ (stackTop currentLevel : Int), stackTop + 1 ≤ fuel →
      ¬ (popStack fuel stackTop currentLevel ≥ 0 ∧
          popStack fuel stackTop currentLevel ≥ currentLevel) := by
  induction fuel with
  | zero =>
    intro t l h
    simp only [popStack]
    omega
  | succ n ih =>
    intro t l h
    simp only [popStack]
    split
    · exact ih (t - 1) l (by push_cast at h ⊢; omega)
    · assumption

/-- A first buffer that is not blank and starts with an odd number of spaces
makes `reload` stop with the invalid-indentation error and the root-only
tree. -/
theorem reload_first_line_odd (old : Session) (text buf rest : List Char)
    (hbuf : fgets text = some (buf, rest))
    (hnonblank : (trim (cstr buf)).length ≠ 0)
    (hodd : ((cstr buf).takeWhile (fun c => decide (c = ' '))).length % 2 = 1) :
    reload old text
      = some (⟨Node.mk ['/'] true Node.null Node.null, []⟩, LoadStatus.invalidIndentation) := by
  unfold reload
  cases text with
  | nil => simp [fgets] at hbuf
  | cons c cs =>
    have hall : fgetsAll (c :: cs).length (c :: cs) = buf :: fgetsAll cs.length rest := by
      simp only [List.length_cons, fgetsAll, hbuf]
    rw [hall]
    simp only [reloadLoop, processLine, hnonblank, if_false, hodd]
    simp [createNode_root]

/-! ## save followed by reload -/


theorem saveNode_eq_flatten (n : Node) :
    ∀ depth : Nat, saveNode n depth = (saveLines n depth).flatten := by
  induction n with
  | null => intro depth; simp [saveNode, saveLines]
  | mk name d ch sib ihc ihs =>
    intro depth
    simp [saveNode, saveLines, saveLine, ihc, ihs, List.append_assoc]

theorem fgetsAux_line (body : List Char) :
    ∀ (room : Nat) (rest : List Char), '\n' ∉ body → body.length + 1 ≤ room →
      fgetsAux room (body ++ '\n' :: rest) = (body ++ ['\n'], rest) := by
  induction body with
  | nil =>
    intro room rest _ h
    cases room with
    | zero => omega
    | succ r => simp [fgetsAux]
  | cons c cs ih =>
    intro room rest hn h
    cases room with
    | zero => omega
    | succ r =>
      have hc : c ≠ '\n' := fun hc => hn (by simp [hc])
      have hcs : '\n' ∉ cs := fun hcs => hn (by simp [hcs])
      simp only [List.length_cons] at h
      have := ih r rest hcs (by omega)
      simp only [List.cons_append, fgetsAux, hc, if_false, List.append_eq, this]

theorem fgetsAll_lines (lines : List (List Char)) :
    ∀ fuel : Nat, (∀ l ∈ lines, IsLine l) → lines.length ≤ fuel →
      fgetsAll fuel lines.flatten = lines := by
  induction lines with
  | nil =>
    intro fuel _ _
    cases fuel <;> simp [fgetsAll, fgets]
  | cons l rest ih =>
    intro fuel hl hf
    cases fuel with
    | zero => simp at hf
    | succ n =>
      obtain ⟨hlen, body, hb, hnl⟩ := hl l (by simp)
      subst hb
      simp only [List.length_append, List.length_singleton] at hlen
      have haux := fgetsAux_line body (MAX_INPUT - 1) rest.flatten hnl (by simp; omega)
      have hcons : (body ++ ['\n'] ++ rest.flatten) = body ++ '\n' :: rest.flatten := by simp
      simp only [List.flatten_cons, fgetsAll]
      rw [hcons]
      cases hbody : body ++ '\n' :: rest.flatten with
      | nil => simp at hbody
      | cons x xs =>
        simp only [fgets]
        rw [← hbody, haux]
        simp only
        rw [ih n (fun l hl2 => hl l (List.mem_cons_of_mem _ hl2))
          (by simp only [List.length_cons] at hf; omega)]

theorem plainName_iff (n : List Char) :
    plainName n = true ↔
      n ≠ [] ∧ n.length ≤ 63 ∧ (∀ c ∈ n, isspace c = false ∧ c ≠ Char.ofNat 0) ∧
        normalizeName n = n := by
  simp [plainName, and_assoc]

theorem flagChar_facts (b : Bool) :
    isspace (flagChar b) = false ∧ flagChar b ≠ Char.ofNat 0 ∧ flagChar b ≠ ' ' ∧
      flagChar b ≠ '\n' ∧ flagChar b ≠ '-' ∧ flagChar b ≠ '+' ∧
      (flagChar b).isDigit = true ∧
      digitsValue [flagChar b] = (if b then 1 else 0) := by
  cases b <;> decide

theorem saveLine_cstr (name : List Char) (b : Bool) (d : Nat) (hp : plainName name = true) :
    cstr (saveLine name b d) = saveLine name b d := by
  obtain ⟨_, _, hall, _⟩ := (plainName_iff name).mp hp
  unfold cstr
  rw [List.takeWhile_eq_self_iff]
  intro x hx
  have hf := flagChar_facts b
  simp only [saveLine, List.mem_append, List.mem_replicate, List.mem_singleton] at hx
  simp only [decide_eq_true_eq]
  rcases hx with (((⟨_, rfl⟩ | hx) | rfl) | rfl) | rfl
  · decide
  · exact (hall x hx).2
  · decide
  · exact hf.2.1
  · decide

theorem saveLine_leading (name : List Char) (b : Bool) (d : Nat) (hp : plainName name = true) :
    ((saveLine name b d).takeWhile (fun c => decide (c = ' '))).length = 2 * d := by
  obtain ⟨hne, _, hall, _⟩ := (plainName_iff name).mp hp
  cases name with
  | nil => exact absurd rfl hne
  | cons c cs =>
    have hc : c ≠ ' ' := by
      intro h
      have := (hall c (by simp)).1
      rw [h] at this
      exact absurd this (by decide)
    simp only [saveLine, List.append_assoc, List.cons_append]
    rw [List.takeWhile_append_of_pos (by simp [List.mem_replicate])]
    simp [hc]

theorem saveLine_trim (name : List Char) (b : Bool) (d : Nat) (hp : plainName name = true) :
    trim (saveLine name b d) = name ++ [' ', flagChar b] := by
  obtain ⟨hne, _, hall, _⟩ := (plainName_iff name).mp hp
  have hf := flagChar_facts b
  unfold trim
  have hdrop : (saveLine name b d).dropWhile isspace = name ++ [' ', flagChar b] ++ ['\n'] := by
    cases name with
    | nil => exact absurd rfl hne
    | cons c cs =>
      have hc : isspace c = false := (hall c (by simp)).1
      simp only [saveLine, List.append_assoc, List.cons_append]
      rw [List.dropWhile_append_of_pos (by
        intro a ha
        rw [(List.mem_replicate.mp ha).2]; decide)]
      simp [hc, flagChar]
  rw [hdrop, dropTrailing_append]
  have h1 : dropTrailing isspace ['\n'] = [] := by decide
  rw [h1, if_pos rfl]
  have h2 : name ++ [' ', flagChar b] = (name ++ [' ']) ++ [flagChar b] := by simp
  rw [h2, dropTrailing_append]
  have h3 : dropTrailing isspace [flagChar b] = [flagChar b] :=
    dropTrailing_of_all_not isspace _ (by simp [hf.1])
  rw [h3, if_neg (by simp)]

theorem scanInt_flag (b : Bool) :
    scanInt [' ', flagChar b] = some (if b then 1 else 0) := by
  cases b <;> decide

theorem sscanf_saved (name : List Char) (b : Bool) (hp : plainName name = true) :
    sscanfNameFlag (name ++ [' ', flagChar b]) = Scan.matched name (if b then 1 else 0) := by
  obtain ⟨hne, hlen, hall, _⟩ := (plainName_iff name).mp hp
  have hnot : ∀ a ∈ name, (fun c => !isspace c) a = true := by
    intro a ha; simp [(hall a ha).1]
  have hs1 : (name ++ [' ', flagChar b]).dropWhile isspace = name ++ [' ', flagChar b] := by
    cases name with
    | nil => exact absurd rfl hne
    | cons c cs =>
      have hc : isspace c = false := (hall c (by simp)).1
      simp [hc]
  have htok : (name ++ [' ', flagChar b]).takeWhile (fun c => !isspace c) = name := by
    rw [List.takeWhile_append_of_pos hnot]
    simp [isspace]
  have hrest : (name ++ [' ', flagChar b]).dropWhile (fun c => !isspace c)
      = [' ', flagChar b] := by
    rw [List.dropWhile_append_of_pos hnot]
    simp [isspace]
  have hl0 : name.length ≠ 0 := fun h => hne (List.length_eq_zero.mp h)
  unfold sscanfNameFlag
  simp only [hs1, htok, hrest, hl0, if_false, scanInt_flag]
  rw [if_neg (by simp only [MAX_NAME]; omega)]
  cases b <;> simp

theorem normalize_saved (name : List Char) (hp : plainName name = true) :
    normalizeName (strncpy name (MAX_NAME - 1)) = name := by
  obtain ⟨_, hlen, _, hn⟩ := (plainName_iff name).mp hp
  have : strncpy name (MAX_NAME - 1) = name := List.take_of_length_le hlen
  rw [this, hn]

theorem popStack_eq (fuel : Nat) :
    ∀ (t : Int) (d : Nat), 1 ≤ d → (d : Int) - 1 ≤ t → t + 1 ≤ fuel →
      popStack fuel t d = (d : Int) - 1 := by
  induction fuel with
  | zero => intro t d h1 h2 h3; simp only [popStack]; omega
  | succ n ih =>
    intro t d h1 h2 h3
    simp only [popStack]
    split
    · exact ih (t - 1) d h1 (by omega) (by push_cast at h3 ⊢; omega)
    · omega

theorem processLine_root (st : Loader) (name : List Char) (d : Nat)
    (hroot : st.root = Node.null) (htop : st.stackTop = -1) (hp : plainName name = true) :
    processLine st (saveLine name true d)
      = Step.next ⟨Node.mk name true Node.null Node.null,
          Function.update st.stack 0 (some []), 0⟩ := by
  obtain ⟨hne, hlen, _, hn⟩ := (plainName_iff name).mp hp
  have hl0 : name.length ≠ 0 := fun h => hne (List.length_eq_zero.mp h)
  have hcreate : createNode name true = Node.mk name true Node.null Node.null := by
    rw [createNode_eq name true hlen (by rw [hn]; exact hne), hn]
  unfold processLine
  simp only [saveLine_cstr name true d hp, saveLine_trim name true d hp,
    saveLine_leading name true d hp, sscanf_saved name true hp, normalize_saved name hp,
    hroot, htop, hcreate]
  simp [hl0]

theorem processLine_entry (st : Loader) (name : List Char) (b : Bool) (d : Nat)
    (P : List Nat) (hroot : st.root ≠ Node.null) (hd : 1 ≤ d) (hd2 : d < MAX_PATH_LEN)
    (htop : (d : Int) - 1 ≤ st.stackTop) (hstack : st.stack (d - 1) = some P)
    (hp : plainName name = true) :
    processLine st (saveLine name b d)
      = Step.next ⟨insertChild st.root P (Node.mk name b Node.null Node.null),
          Function.update st.stack d (some (P ++ [chainLength (deref st.root P).child])),
          (d : Int)⟩ := by
  obtain ⟨hne, hlen, _, hn⟩ := (plainName_iff name).mp hp
  have hl0 : name.length ≠ 0 := fun h => hne (List.length_eq_zero.mp h)
  have hcreate : ∀ c : Bool, createNode name c = Node.mk name c Node.null Node.null := by
    intro c
    rw [createNode_eq name c hlen (by rw [hn]; exact hne), hn]
  have hpop : popStack (st.stackTop + 1).toNat st.stackTop ((2 * d / 2 : Nat) : Int)
      = (d : Int) - 1 := by
    have h2 : 2 * d / 2 = d := by omega
    rw [h2]
    exact popStack_eq _ _ d hd htop (by omega)
  have hflag : decide ((if b then (1 : Int) else 0) ≠ 0) = b := by cases b <;> simp
  have hidx : ((d : Int) - 1 + 1 - 1).toNat = d - 1 := by omega
  have hidx2 : ((d : Int) - 1 + 1).toNat = d := by omega
  have hge : ¬ ((d : Int) - 1 + 1 ≥ (MAX_PATH_LEN : Nat)) := by
    simp only [MAX_PATH_LEN] at hd2 ⊢; omega
  have hlt : ¬ ((d : Int) - 1 + 1 - 1 < 0) := by omega
  unfold processLine
  simp only [saveLine_cstr name b d hp, saveLine_trim name b d hp,
    saveLine_leading name b d hp, sscanf_saved name b hp, normalize_saved name hp,
    hpop, hcreate, hflag, hidx, hidx2, hstack]
  have h1024 : ¬ (1024 ≤ d) := by simp only [MAX_PATH_LEN] at hd2; omega
  have hd0 : d ≠ 0 := by omega
  simp [hl0, hroot, h1024, hd0]

theorem chainUpd_congr (c : Node) (g1 g2 : Node → Node) :
    ∀ (i : Nat) (p : List Nat), g1 (chainAt c i p).child = g2 (chainAt c i p).child →
      chainUpd c i p g1 = chainUpd c i p g2 := by
  induction c with
  | null => intro i p _; simp [chainUpd]
  | mk n d ch sib ihc ihs =>
    intro i p h
    cases i with
    | succ i =>
      simp only [chainAt] at h
      simp only [chainUpd, ihs i p h]
    | zero =>
      cases p with
      | nil =>
        simp only [chainAt, Node.child] at h
        simp only [chainUpd, h]
      | cons j p =>
        simp only [chainAt] at h
        simp only [chainUpd, ihc j p h]

theorem chainUpd_chainUpd (c : Node) (g1 g2 : Node → Node) :
    ∀ (i : Nat) (p : List Nat),
      chainUpd (chainUpd c i p g1) i p g2 = chainUpd c i p (fun ch => g2 (g1 ch)) := by
  induction c with
  | null => intro i p; simp [chainUpd]
  | mk n d ch sib ihc ihs =>
    intro i p
    cases i with
    | succ i => simp only [chainUpd, ihs i p]
    | zero =>
      cases p with
      | nil => simp only [chainUpd]
      | cons j p => simp only [chainUpd, ihc j p]

theorem chainUpd_append (c : Node) (g : Node → Node) (k : Nat) :
    ∀ (i : Nat) (p : List Nat),
      chainUpd c i (p ++ [k]) g = chainUpd c i p (fun ch => chainUpd ch k [] g) := by
  induction c with
  | null => intro i p; simp [chainUpd]
  | mk n d ch sib ihc ihs =>
    intro i p
    cases i with
    | succ i => simp only [chainUpd, ihs i p]
    | zero =>
      cases p with
      | nil => simp only [List.nil_append, chainUpd]
      | cons j p => simp only [List.cons_append, chainUpd, List.append_eq, ihc j p]

theorem chainLength_eq (c : Node) : chainLength c = (chainEntries c).length := by
  induction c with
  | null => rfl
  | mk n d ch sib _ ihs => simp [chainLength, chainEntries, ihs]

theorem chainUpd_appendSibling_last (c : Node) (n : List Char) (d : Bool) (x s : Node)
    (g : Node → Node) :
    chainUpd (appendSibling c (Node.mk n d x s)) (chainLength c) [] g
      = appendSibling c (Node.mk n d (g x) s) := by
  induction c with
  | null => simp [appendSibling, chainLength, chainUpd]
  | mk m e ch sib _ ihs => simp [appendSibling, chainLength, chainUpd, ihs]

theorem appendSibling_assoc (a b c : Node) :
    appendSibling (appendSibling a b) c = appendSibling a (appendSibling b c) := by
  induction a with
  | null => simp [appendSibling]
  | mk n d ch sib _ ihs => simp [appendSibling, ihs]

theorem appendSibling_null (c : Node) : appendSibling c Node.null = c := by
  induction c with
  | null => rfl
  | mk n d ch sib _ ihs => simp [appendSibling, ihs]

theorem chainUpd_self (c : Node) :
    ∀ (i : Nat) (p : List Nat), chainUpd c i p (fun ch => ch) = c := by
  induction c with
  | null => intro i p; simp [chainUpd]
  | mk n d ch sib ihc ihs =>
    intro i p
    cases i with
    | succ i => simp only [chainUpd, ihs i p]
    | zero =>
      cases p with
      | nil => simp only [chainUpd]
      | cons j p => simp only [chainUpd, ihc j p]

theorem chainUpd_ne_null (c : Node) (g : Node → Node) (i : Nat) (p : List Nat)
    (h : c ≠ Node.null) : chainUpd c i p g ≠ Node.null := by
  cases c with
  | null => exact absurd rfl h
  | mk n d ch sib =>
    cases i with
    | succ i => simp [chainUpd]
    | zero => cases p <;> simp [chainUpd]

theorem deref_updChild_ne_null (root : Node) (p : List Nat) (g : Node → Node)
    (h : deref root p ≠ Node.null) : deref (updChild root p g) p ≠ Node.null := by
  simp only [deref, updChild] at h ⊢
  rw [chainAt_chainUpd_same]
  cases hd : chainAt root 0 p with
  | null => exact absurd hd h
  | mk n d ch sib => simp

/-- Appending a childless record and then filling in its children is the same
as appending the record with its children. -/
theorem updChild_leaf_then_children (root : Node) (P : List Nat) (name : List Char)
    (b : Bool) (child : Node) :
    updChild (updChild root P
        (fun ch => appendSibling ch (Node.mk name b Node.null Node.null)))
        (P ++ [chainLength (deref root P).child]) (fun ch => appendSibling ch child)
      = updChild root P (fun ch => appendSibling ch (Node.mk name b child Node.null)) := by
  simp only [updChild, deref]
  rw [chainUpd_append, chainUpd_chainUpd]
  apply chainUpd_congr
  rw [chainUpd_appendSibling_last]
  simp [appendSibling]

theorem updChild_then_sibling (root : Node) (P : List Nat) (name : List Char)
    (b : Bool) (child sib : Node) :
    updChild (updChild root P
        (fun ch => appendSibling ch (Node.mk name b child Node.null)))
        P (fun ch => appendSibling ch sib)
      = updChild root P (fun ch => appendSibling ch (Node.mk name b child sib)) := by
  simp only [updChild]
  rw [chainUpd_chainUpd]
  apply chainUpd_congr
  rw [appendSibling_assoc]
  simp [appendSibling]

theorem fits_mk (name : List Char) (b : Bool) (child sib : Node) (d : Nat) :
    fits (Node.mk name b child sib) d = true ↔
      plainName name = true ∧ 2 * d + name.length + 3 ≤ 127 ∧
        fits child (d + 1) = true ∧ fits sib d = true := by
  simp [fits, and_assoc]

/-- Reading back the lines of a sibling chain `n` saved at depth `d`, with
the parent `P` in slot `d - 1` of the stack, appends `n` with all its
descendants to the children of `P`. -/
theorem reloadLoop_saveLines (n : Node) :
    ∀ (d : Nat) (st : Loader) (P : List Nat) (rest : List (List Char)),
      1 ≤ d → fits n d = true → st.root ≠ Node.null → (d : Int) - 1 ≤ st.stackTop →
      st.stack (d - 1) = some P → deref st.root P ≠ Node.null →
      ∃ st1 : Loader, reloadLoop (saveLines n d ++ rest) st = reloadLoop rest st1 ∧
        st1.root = updChild st.root P (fun ch => appendSibling ch n) ∧
        (∀ k, k < d → st1.stack k = st.stack k) ∧ (d : Int) - 1 ≤ st1.stackTop := by
  induction n with
  | null =>
    intro d st P rest _ _ _ htop _ _
    refine ⟨st, by simp [saveLines], ?_, fun _ _ => rfl, htop⟩
    simp only [updChild, appendSibling_null]
    exact (chainUpd_self _ _ _).symm
  | mk name b child sib ihc ihs =>
    intro d st P rest hd hfit hroot htop hstack hP
    obtain ⟨hp, hline, hfc, hfs⟩ := (fits_mk name b child sib d).mp hfit
    have hstep := processLine_entry st name b d P hroot hd
      (by simp only [MAX_PATH_LEN]; omega) htop hstack hp
    have hins : insertChild st.root P (Node.mk name b Node.null Node.null)
        = updChild st.root P (fun ch => appendSibling ch (Node.mk name b Node.null Node.null)) := by
      simp [insertChild]
    rw [hins] at hstep
    -- the state after the line of the record itself
    obtain ⟨st2, hrun2, hroot2, hstack2, htop2⟩ :=
      ihc (d + 1)
        ⟨updChild st.root P (fun ch => appendSibling ch (Node.mk name b Node.null Node.null)),
          Function.update st.stack d (some (P ++ [chainLength (deref st.root P).child])),
          (d : Int)⟩
        (P ++ [chainLength (deref st.root P).child]) (saveLines sib d ++ rest)
        (by omega) hfc (chainUpd_ne_null _ _ _ _ hroot) (by push_cast; omega)
        (by simp)
        (by
          rw [deref_append]
          have hsame := chainAt_chainUpd_same st.root
            (fun ch => appendSibling ch (Node.mk name b Node.null Node.null)) 0 P
          simp only [deref, updChild] at hP ⊢
          rw [hsame]
          cases hd0 : chainAt st.root 0 P with
          | null => exact absurd hd0 hP
          | mk m e ch sb =>
            simp only [Node.child]
            rw [chainLength_eq, chainAt_appendSibling_last]
            simp [chainAt])
    simp only at hroot2 hstack2 htop2
    rw [updChild_leaf_then_children] at hroot2
    have hstackP : st2.stack (d - 1) = some P := by
      rw [hstack2 (d - 1) (by omega), Function.update_noteq (by omega), hstack]
    have hP2 : deref st2.root P ≠ Node.null := by
      rw [hroot2]; exact deref_updChild_ne_null _ _ _ hP
    obtain ⟨st3, hrun3, hroot3, hstack3, htop3⟩ :=
      ihs d st2 P rest hd hfs (by rw [hroot2]; exact chainUpd_ne_null _ _ _ _ hroot)
        (by omega) hstackP hP2
    refine ⟨st3, ?_, ?_, ?_, htop3⟩
    · simp only [saveLines, List.cons_append, reloadLoop, hstep, List.append_eq,
        List.append_assoc]
      rw [hrun2, hrun3]
    · rw [hroot3, hroot2, updChild_then_sibling]
    · intro k hk
      rw [hstack3 k hk, hstack2 k (by omega), Function.update_noteq (by omega)]

theorem isLine_saveLine (name : List Char) (b : Bool) (d : Nat) (hp : plainName name = true)
    (hlen : 2 * d + name.length + 3 ≤ 127) : IsLine (saveLine name b d) := by
  obtain ⟨_, _, hall, _⟩ := (plainName_iff name).mp hp
  have hf := flagChar_facts b
  refine ⟨by simp [saveLine]; omega,
    List.replicate (2 * d) ' ' ++ name ++ [' '] ++ [flagChar b], by simp [saveLine, flagChar], ?_⟩
  intro hmem
  simp only [List.mem_append, List.mem_replicate, List.mem_singleton] at hmem
  rcases hmem with ((⟨_, h⟩ | h) | h) | h
  · exact absurd h (by decide)
  · exact absurd (hall _ h).1 (by decide)
  · exact absurd h (by decide)
  · exact hf.2.2.2.1 h.symm

theorem isLine_saveLines (n : Node) :
    ∀ d : Nat, fits n d = true → ∀ l ∈ saveLines n d, IsLine l := by
  induction n with
  | null => intro d _ l hl; simp [saveLines] at hl
  | mk name b child sib ihc ihs =>
    intro d hfit l hl
    obtain ⟨hp, hline, hfc, hfs⟩ := (fits_mk name b child sib d).mp hfit
    simp only [saveLines, List.mem_cons, List.mem_append] at hl
    rcases hl with rfl | hl | hl
    · exact isLine_saveLine name b d hp hline
    · exact ihc (d + 1) hfc l hl
    · exact ihs d hfs l hl

theorem length_le_flatten_length (lines : List (List Char)) (h : ∀ l ∈ lines, l ≠ []) :
    lines.length ≤ lines.flatten.length := by
  induction lines with
  | nil => simp
  | cons l rest ih =>
    have hl : l ≠ [] := h l (by simp)
    have hpos : 0 < l.length := List.length_pos.mpr hl
    have := ih (fun x hx => h x (List.mem_cons_of_mem _ hx))
    simp only [List.length_cons, List.flatten_cons, List.length_append]
    omega

theorem isLine_ne_nil {l : List Char} (h : IsLine l) : l ≠ [] := by
  obtain ⟨_, body, rfl, _⟩ := h
  simp

/-- Round trip within the limits of the reader: for a tree whose root is a
directory without sibling, whose names are all plain (not empty, at most 63
bytes, no whitespace or NUL byte, normalized) and whose saved lines all have at
most 127 bytes (`2 * depth + length of the name + 3`), `reload` of the text
written by `saveNode` ends with status loaded and yields exactly that tree,
with `cwd` at its root. -/
theorem reload_saveNode (old : Session) (name : List Char) (child : Node)
    (hfit : fits (Node.mk name true child Node.null) 0 = true) :
    reload old (saveNode (Node.mk name true child Node.null) 0)
      = some (⟨Node.mk name true child Node.null, []⟩, LoadStatus.loaded) := by
  have hlines := isLine_saveLines _ 0 hfit
  obtain ⟨hp, _, hfc, _⟩ := (fits_mk name true child Node.null 0).mp hfit
  unfold reload
  rw [saveNode_eq_flatten,
    fgetsAll_lines _ _ hlines
      (length_le_flatten_length _ (fun l hl => isLine_ne_nil (hlines l hl)))]
  simp only [saveLines, List.append_nil, reloadLoop]
  rw [processLine_root _ name 0 rfl rfl hp]
  simp only
  obtain ⟨st1, hrun, hroot, _, _⟩ :=
    reloadLoop_saveLines child 1
      ⟨Node.mk name true Node.null Node.null,
        Function.update (fun _ => none) 0 (some []), 0⟩ [] []
      (Nat.le_refl 1) hfc (by simp) (by simp) (by simp) (by simp [deref, chainAt])
  rw [List.append_nil] at hrun
  rw [hrun]
  simp only [updChild, chainUpd, appendSibling] at hroot
  simp [reloadLoop, hroot]

/-- The tree `/` over `sampleChild` is read back unchanged from its saved
text. -/
theorem reload_saveNode_witness :
    reload initSession (saveNode (Node.mk ['/'] true sampleChild Node.null) 0)
      = some (⟨Node.mk ['/'] true sampleChild Node.null, []⟩, LoadStatus.loaded) :=
  reload_saveNode initSession ['/'] sampleChild (by decide)

/-! ## Sessions with reload: the root and the current directory -/

theorem label_chainUpd_prefix (c : Node) (g : Node → Node) :
    ∀ (k : Nat) (cwd p : List Nat), p <+: cwd →
      (chainAt (chainUpd c k cwd g) k p).label = (chainAt c k p).label := by
  induction c with
  | null => intro k cwd p _; simp [chainUpd]
  | mk n d ch sib ihc ihs =>
    intro k cwd p hp
    cases k with
    | succ k => simpa [chainUpd, chainAt] using ihs k cwd p hp
    | zero =>
      cases cwd with
      | nil =>
        have : p = [] := List.prefix_nil.mp hp
        subst this
        simp [chainUpd, chainAt, Node.label]
      | cons c2 cs =>
        cases p with
        | nil => simp [chainUpd, chainAt, Node.label]
        | cons j r =>
          obtain ⟨hj, hr⟩ := List.cons_prefix_cons.mp hp
          subst hj
          simpa [chainUpd, chainAt] using ihc j cs r hr

theorem label_updChild_prefix (root : Node) (cwd p : List Nat) (g : Node → Node)
    (hp : p <+: cwd) : (deref (updChild root cwd g) p).label = (deref root p).label :=
  label_chainUpd_prefix root g 0 cwd p hp

theorem label_insertChild_prefix (root : Node) (cwd p : List Nat) (child : Node)
    (hp : p <+: cwd) : (deref (insertChild root cwd child) p).label = (deref root p).label := by
  unfold insertChild
  split
  · rfl
  · exact label_updChild_prefix root cwd p _ hp

theorem makeEntry_cwd (s : Session) (name : List Char) (b : Bool) :
    (makeEntry s name b).1.cwd = s.cwd := by
  unfold makeEntry
  split
  · rfl
  · split
    · rfl
    · simp only
      split <;> rfl

theorem makeEntry_label (s : Session) (name : List Char) (b : Bool) (p : List Nat)
    (hp : p <+: s.cwd) :
    (deref (makeEntry s name b).1.root p).label = (deref s.root p).label := by
  unfold makeEntry
  split
  · rfl
  · split
    · rfl
    · simp only
      split
      · rfl
      · exact label_insertChild_prefix s.root s.cwd p _ hp

theorem rmdir_cwd_label (s : Session) (name : List Char) :
    (rmdir s name).1.cwd = s.cwd ∧
      ∀ p : List Nat, p <+: s.cwd →
        (deref (rmdir s name).1.root p).label = (deref s.root p).label := by
  unfold rmdir
  split
  · exact ⟨rfl, fun _ _ => rfl⟩
  · split
    · exact ⟨rfl, fun _ _ => rfl⟩
    · split
      · exact ⟨rfl, fun _ _ => rfl⟩
      · simp only
        split
        · exact ⟨rfl, fun _ _ => rfl⟩
        · split
          · exact ⟨rfl, fun _ _ => rfl⟩
          · split
            · exact ⟨rfl, fun _ _ => rfl⟩
            · exact ⟨rfl, fun p hp => label_updChild_prefix s.root s.cwd p _ hp⟩

theorem rm_cwd_label (s : Session) (name : List Char) :
    (rm s name).1.cwd = s.cwd ∧
      ∀ p : List Nat, p <+: s.cwd →
        (deref (rm s name).1.root p).label = (deref s.root p).label := by
  unfold rm
  split
  · exact ⟨rfl, fun _ _ => rfl⟩
  · split
    · exact ⟨rfl, fun _ _ => rfl⟩
    · simp only
      split
      · exact ⟨rfl, fun _ _ => rfl⟩
      · exact ⟨rfl, fun p hp => label_updChild_prefix s.root s.cwd p _ hp⟩

theorem label_of_isDirectory (n : Node) (h : n.isDirectory = true) :
    ∃ nm, n.label = some (nm, true) := by
  cases n with
  | null => simp [Node.isDirectory] at h
  | mk nm d ch sib =>
    simp only [Node.isDirectory] at h
    subst h
    exact ⟨nm, rfl⟩

theorem walkTokens_live (root : Node) (toks : List (List Char)) :
    ∀ (target t : List Nat), walkTokens root toks target = some t →
      (∀ p, p <+: target → ∃ nm, (deref root p).label = some (nm, true)) →
      ∀ p, p <+: t → ∃ nm, (deref root p).label = some (nm, true) := by
  induction toks with
  | nil =>
    intro target t h hl
    simp only [walkTokens, Option.some.injEq] at h
    subst h
    exact hl
  | cons tok rest ih =>
    intro target t h hl
    simp only [walkTokens] at h
    split at h
    · exact ih target t h hl
    · split at h
      · simp at h
      · rename_i i _
        split at h
        · rename_i hd
          refine ih (target ++ [i]) t h ?_
          intro p hp
          rcases List.prefix_concat_iff.mp hp with h1 | h1
          · rw [h1]; exact label_of_isDirectory _ hd
          · exact hl p h1
        · simp at h

theorem cd_live (s : Session) (arg : List Char) (h : CwdLive s) : CwdLive (cd s arg).1 := by
  have hroot : ∀ p, p <+: ([] : List Nat) → ∃ nm, (deref s.root p).label = some (nm, true) := by
    intro p hp
    exact h p (by rw [List.prefix_nil.mp hp]; exact List.nil_prefix)
  unfold cd
  split
  · exact hroot
  · split
    · split
      · intro p hp
        exact h p (hp.trans (List.dropLast_prefix _))
      · exact h
    · simp only
      split
      · rename_i t ht
        intro p hp
        refine walkTokens_live s.root _ _ t ht ?_ p hp
        split
        · exact hroot
        · exact h
      · exact h

theorem execute_live (s : Session) (c : Command) (h : CwdLive s) :
    CwdLive (execute s c).1 := by
  cases c with
  | mkdir a =>
    intro p hp
    have hp2 : p <+: s.cwd := by simpa [execute, mkdir, makeEntry_cwd] using hp
    simpa [execute, mkdir, makeEntry_label s a true p hp2] using h p hp2
  | create a =>
    intro p hp
    have hp2 : p <+: s.cwd := by simpa [execute, createFile, makeEntry_cwd] using hp
    simpa [execute, createFile, makeEntry_label s a false p hp2] using h p hp2
  | rmdir a =>
    intro p hp
    have hp2 : p <+: s.cwd := by simpa [execute, (rmdir_cwd_label s a).1] using hp
    simpa [execute, (rmdir_cwd_label s a).2 p hp2] using h p hp2
  | rm a =>
    intro p hp
    have hp2 : p <+: s.cwd := by simpa [execute, (rm_cwd_label s a).1] using hp
    simpa [execute, (rm_cwd_label s a).2 p hp2] using h p hp2
  | cd a => exact cd_live s a h

theorem chainUpd_zero_fields (c : Node) (p : List Nat) (g : Node → Node) :
    (chainUpd c 0 p g).isDirectory = c.isDirectory ∧
      (chainUpd c 0 p g).sibling = c.sibling ∧ (chainUpd c 0 p g).name = c.name ∧
      (c ≠ Node.null → chainUpd c 0 p g ≠ Node.null) := by
  cases c with
  | null => simp [chainUpd]
  | mk n d ch sib => cases p <;> simp [chainUpd, Node.isDirectory, Node.sibling, Node.name]

theorem insertChild_fields (root : Node) (p : List Nat) (child : Node) :
    (insertChild root p child).isDirectory = root.isDirectory ∧
      (insertChild root p child).sibling = root.sibling ∧
      (insertChild root p child).name = root.name ∧
      (root ≠ Node.null → insertChild root p child ≠ Node.null) := by
  unfold insertChild
  split
  · exact ⟨rfl, rfl, rfl, fun h => h⟩
  · exact chainUpd_zero_fields root p _

theorem rootInv_of_fields {r r1 : Node} (h : RootInv r) (hr : r ≠ Node.null)
    (hf : r1.isDirectory = r.isDirectory ∧ r1.sibling = r.sibling ∧ r1.name = r.name ∧
      (r ≠ Node.null → r1 ≠ Node.null)) :
    RootInv r1 ∧ r1 ≠ Node.null ∧ r1.name = r.name := by
  rcases h with h | ⟨h1, h2, h3⟩
  · exact absurd h hr
  · exact ⟨Or.inr ⟨by rw [hf.1, h1], by rw [hf.2.1, h2], by rw [hf.2.2.1]; exact h3⟩,
      hf.2.2.2 hr, hf.2.2.1⟩

theorem rootInv_createNode (name : List Char) : RootInv (createNode name true) := by
  rcases createNode_cases name true with h | ⟨nm, hnm, h⟩
  · exact Or.inl h
  · rw [h]
    exact Or.inr ⟨rfl, rfl, hnm⟩

theorem processLine_next_rootInv (st st1 : Loader) (buf : List Char)
    (h : processLine st buf = Step.next st1) (hinv : RootInv st.root) :
    RootInv st1.root ∧ (st.root ≠ Node.null → st1.root ≠ Node.null) := by
  unfold processLine at h
  simp only at h
  split at h
  · simp only [Step.next.injEq] at h
    subst h; exact ⟨hinv, fun h => h⟩
  · split at h
    · simp at h
    · split at h
      · simp at h
      · simp only [Step.next.injEq] at h
        subst h; exact ⟨hinv, fun h => h⟩
      · split at h
        · simp only [Step.next.injEq] at h
          subst h; exact ⟨hinv, fun h => h⟩
        · split at h
          · rename_i hnull
            split at h
            · simp at h
            · split at h
              · simp at h
              · split at h
                · simp at h
                · simp only [Step.next.injEq] at h
                  subst h
                  exact ⟨rootInv_createNode _, fun hne => absurd hnull hne⟩
          · rename_i hnn
            split at h
            · simp at h
            · split at h
              · simp at h
              · split at h
                · simp at h
                · split at h
                  · simp at h
                  · simp only [Step.next.injEq] at h
                    subst h
                    exact ⟨(rootInv_of_fields hinv hnn (insertChild_fields _ _ _)).1,
                      fun _ => (rootInv_of_fields hinv hnn (insertChild_fields _ _ _)).2.1⟩

/-- The session left by the read loop: `cwd` is the root, and the root is a
directory outside any sibling chain; its name is `/` unless a tree was
loaded. -/
theorem reloadLoop_root (lines : List (List Char)) :
    ∀ (st : Loader) (s : Session) (status : LoadStatus),
      reloadLoop lines st = some (s, status) → RootInv st.root →
      s.cwd = [] ∧ s.root ≠ Node.null ∧ s.root.isDirectory = true ∧
        s.root.sibling = Node.null ∧ s.root.name ≠ [] ∧
        (status ≠ LoadStatus.loaded → s.root.name = ['/']) := by
  induction lines with
  | nil =>
    intro st s status h hinv
    simp only [reloadLoop] at h
    split at h
    · simp only [Option.some.injEq, Prod.mk.injEq, createNode_root] at h
      obtain ⟨h1, _⟩ := h
      subst h1
      simp [Node.isDirectory, Node.sibling, Node.name]
    · rename_i hnn
      simp only [Option.some.injEq, Prod.mk.injEq] at h
      obtain ⟨h1, h2⟩ := h
      subst h1
      rcases hinv with hinv | ⟨i1, i2, i3⟩
      · exact absurd hinv hnn
      · exact ⟨rfl, hnn, i1, i2, i3, fun hs => absurd h2.symm hs⟩
  | cons buf rest ih =>
    intro st s status h hinv
    simp only [reloadLoop] at h
    split at h
    · rename_i st1 hstep
      exact ih st1 s status h (processLine_next_rootInv st st1 buf hstep hinv).1
    · rename_i s1 status1 hstep
      simp only [Option.some.injEq, Prod.mk.injEq] at h
      have := processLine_stop st buf s1 status1 hstep
      rw [← h.1, this]
      simp [Node.isDirectory, Node.sibling, Node.name]
    · simp at h

theorem reload_root (old : Session) (text : List Char) (s : Session) (status : LoadStatus)
    (h : reload old text = some (s, status)) :
    s.cwd = [] ∧ s.root ≠ Node.null ∧ s.root.isDirectory = true ∧
      s.root.sibling = Node.null ∧ s.root.name ≠ [] ∧
      (status ≠ LoadStatus.loaded → s.root.name = ['/']) :=
  reloadLoop_root _ _ s status h (Or.inl rfl)

theorem deref_nil (root : Node) : deref root [] = root := by
  cases root <;> simp [deref, chainAt]

theorem reload_live (old : Session) (text : List Char) (s : Session) (status : LoadStatus)
    (h : reload old text = some (s, status)) : CwdLive s := by
  obtain ⟨hc, hn, hd, _⟩ := reload_root old text s status h
  intro p hp
  rw [hc] at hp
  rw [List.prefix_nil.mp hp, deref_nil]
  exact label_of_isDirectory _ hd

theorem reachableWithReload_live {s : Session} (h : ReachableWithReload s) : CwdLive s := by
  induction h with
  | init =>
    intro p hp
    have : p = [] := List.prefix_nil.mp hp
    subst this
    exact ⟨['/'], by decide⟩
  | command s c _ ih => exact execute_live s c ih
  | reload s text s1 status _ hr _ => exact reload_live s text s1 status hr

/-- C11: in every session reachable with mkdir, create, rmdir, rm, cd and
reload (of any text on which its run is defined), `cwd` and each of its
ancestors refers to a record of the current tree that is a directory; and
`rmdir` and `rm` never remove one of them: they leave `cwd` as it is, and
`cwd` and its ancestors refer to the same records (name and kind) afterwards. -/
theorem cwd_always_live (s : Session) (h : ReachableWithReload s) :
    (∀ p : List Nat, p <+: s.cwd →
        deref s.root p ≠ Node.null ∧ (deref s.root p).isDirectory = true) ∧
      (∀ name : List Char,
        ((rmdir s name).1.cwd = s.cwd ∧
          ∀ p : List Nat, p <+: s.cwd →
            (deref (rmdir s name).1.root p).label = (deref s.root p).label) ∧
        ((rm s name).1.cwd = s.cwd ∧
          ∀ p : List Nat, p <+: s.cwd →
            (deref (rm s name).1.root p).label = (deref s.root p).label)) := by
  refine ⟨?_, fun name => ⟨rmdir_cwd_label s name, rm_cwd_label s name⟩⟩
  intro p hp
  obtain ⟨nm, hl⟩ := reachableWithReload_live h p hp
  cases hd : deref s.root p with
  | null => rw [hd] at hl; simp [Node.label] at hl
  | mk n d ch sib =>
    rw [hd] at hl
    simp only [Node.label, Option.some.injEq, Prod.mk.injEq] at hl
    simp [Node.isDirectory, hl.2]

theorem execute_root_fields (s : Session) (c : Command) :
    (execute s c).1.root.isDirectory = s.root.isDirectory ∧
      (execute s c).1.root.sibling = s.root.sibling ∧
      (execute s c).1.root.name = s.root.name ∧
      (s.root ≠ Node.null → (execute s c).1.root ≠ Node.null) := by
  have hmk : ∀ a b, (makeEntry s a b).1.root.isDirectory = s.root.isDirectory ∧
      (makeEntry s a b).1.root.sibling = s.root.sibling ∧
      (makeEntry s a b).1.root.name = s.root.name ∧
      (s.root ≠ Node.null → (makeEntry s a b).1.root ≠ Node.null) := by
    intro a b
    unfold makeEntry
    split
    · exact ⟨rfl, rfl, rfl, fun h => h⟩
    · split
      · exact ⟨rfl, rfl, rfl, fun h => h⟩
      · simp only
        split
        · exact ⟨rfl, rfl, rfl, fun h => h⟩
        · exact insertChild_fields s.root s.cwd _
  cases c with
  | mkdir a => exact hmk a true
  | create a => exact hmk a false
  | rmdir a =>
    simp only [execute]
    unfold rmdir
    split
    · exact ⟨rfl, rfl, rfl, fun h => h⟩
    · split
      · exact ⟨rfl, rfl, rfl, fun h => h⟩
      · split
        · exact ⟨rfl, rfl, rfl, fun h => h⟩
        · simp only
          split
          · exact ⟨rfl, rfl, rfl, fun h => h⟩
          · split
            · exact ⟨rfl, rfl, rfl, fun h => h⟩
            · split
              · exact ⟨rfl, rfl, rfl, fun h => h⟩
              · exact chainUpd_zero_fields s.root s.cwd _
  | rm a =>
    simp only [execute]
    unfold rm
    split
    · exact ⟨rfl, rfl, rfl, fun h => h⟩
    · split
      · exact ⟨rfl, rfl, rfl, fun h => h⟩
      · simp only
        split
        · exact ⟨rfl, rfl, rfl, fun h => h⟩
        · exact chainUpd_zero_fields s.root s.cwd _
  | cd a =>
    simp [execute, cd_root]

/-- C11, instance: `reload` of `fooText`, then `cd a`. -/
theorem cwd_always_live_witness :
    (∀ p : List Nat, p <+: (cd fooSession ['a']).1.cwd →
        deref (cd fooSession ['a']).1.root p ≠ Node.null ∧
          (deref (cd fooSession ['a']).1.root p).isDirectory = true) ∧
      (∀ name : List Char,
        ((rmdir (cd fooSession ['a']).1 name).1.cwd = (cd fooSession ['a']).1.cwd ∧
          ∀ p : List Nat, p <+: (cd fooSession ['a']).1.cwd →
            (deref (rmdir (cd fooSession ['a']).1 name).1.root p).label
              = (deref (cd fooSession ['a']).1.root p).label) ∧
        ((rm (cd fooSession ['a']).1 name).1.cwd = (cd fooSession ['a']).1.cwd ∧
          ∀ p : List Nat, p <+: (cd fooSession ['a']).1.cwd →
            (deref (rm (cd fooSession ['a']).1 name).1.root p).label
              = (deref (cd fooSession ['a']).1.root p).label)) :=
  cwd_always_live (cd fooSession ['a']).1
    (ReachableWithReload.command fooSession (Command.cd ['a'])
      (ReachableWithReload.reload initSession fooText fooSession LoadStatus.loaded
        ReachableWithReload.init (by decide)))

/-- A fatal exit of the read loop never reports `loaded`. -/
theorem processLine_stop_status (st : Loader) (buf : List Char) (s : Session)
    (status : LoadStatus) (h : processLine st buf = Step.stop s status) :
    status ≠ LoadStatus.loaded := by
  unfold processLine at h
  simp only at h
  split at h
  · simp at h
  · split at h
    · simp only [Step.stop.injEq] at h
      rw [← h.2]; decide
    · split at h
      · simp at h
      · simp at h
      · split at h
        · simp at h
        · split at h
          · split at h
            · simp only [Step.stop.injEq] at h
              rw [← h.2]; decide
            · split at h
              · simp only [Step.stop.injEq] at h
                rw [← h.2]; decide
              · split at h
                · simp at h
                · simp at h
          · split at h
            · simp only [Step.stop.injEq] at h
              rw [← h.2]; decide
            · split at h
              · simp only [Step.stop.injEq] at h
                rw [← h.2]; decide
              · split at h
                · simp at h
                · split at h
                  · simp at h
                  · simp at h

/-- Once the root exists, an iteration of the read loop keeps it and its
name. -/
theorem processLine_next_root_name (st st1 : Loader) (buf : List Char)
    (h : processLine st buf = Step.next st1) (hroot : st.root ≠ Node.null) :
    st1.root.name = st.root.name ∧ st1.root ≠ Node.null := by
  unfold processLine at h
  simp only at h
  split at h
  · simp only [Step.next.injEq] at h
    subst h; exact ⟨rfl, hroot⟩
  · split at h
    · simp at h
    · split at h
      · simp at h
      · simp only [Step.next.injEq] at h
        subst h; exact ⟨rfl, hroot⟩
      · split at h
        · simp only [Step.next.injEq] at h
          subst h; exact ⟨rfl, hroot⟩
        · split at h
          · simp at h
          · split at h
            · simp at h
            · split at h
              · simp at h
              · split at h
                · simp at h
                · simp only [Step.next.injEq] at h
                  subst h
                  exact ⟨(insertChild_fields _ _ _).2.2.1, (insertChild_fields _ _ _).2.2.2 hroot⟩

/-- While the root does not exist, an iteration of the read loop skips the
line, or creates the root under the name `entryName` gives. -/
theorem processLine_next_first_entry (st st1 : Loader) (buf : List Char)
    (h : processLine st buf = Step.next st1) (hroot : st.root = Node.null) :
    (st1.root = Node.null ∧ entryName buf = none) ∨
      (st1.root ≠ Node.null ∧ entryName buf = some st1.root.name) := by
  unfold processLine at h
  unfold entryName
  simp only at h
  split at h
  · rename_i hblank
    simp only [Step.next.injEq] at h
    subst h
    exact Or.inl ⟨hroot, by rw [if_pos hblank]⟩
  · rename_i hblank
    rw [if_neg hblank]
    split at h
    · simp at h
    · split at h
      · simp at h
      · rename_i hscan
        simp only [Step.next.injEq] at h
        subst h
        exact Or.inl ⟨hroot, by rw [hscan]⟩
      · rename_i name isDir hscan
        rw [hscan]
        simp only
        split at h
        · rename_i hlen
          simp only [Step.next.injEq] at h
          subst h
          exact Or.inl ⟨hroot, by rw [if_pos hlen]⟩
        · rename_i hlen
          rw [if_neg hlen]
          split at h
          · simp at h
          · split at h
            · simp at h
            · rename_i hne
              split at h
              · simp at h
              · simp only [Step.next.injEq] at h
                subst h
                refine Or.inr ⟨hne, ?_⟩
                have hl := normalizeName_length_le (strncpy name (MAX_NAME - 1))
                have hidem := normalizeName_idem (strncpy name (MAX_NAME - 1))
                  (List.length_take_le _ _)
                have hnn : normalizeName (strncpy name (MAX_NAME - 1)) ≠ [] :=
                  fun h0 => hlen (by rw [h0]; rfl)
                simp only
                rw [createNode_eq _ true hl (by rw [hidem]; exact hnn), hidem]
                rfl

/-- A load that succeeds from a state without a root gives the root the name
of the first valid entry of the remaining lines; from a state with a root it
keeps the name of that root. -/
theorem reloadLoop_loaded_name (lines : List (List Char)) :
    ∀ (st : Loader) (s : Session), reloadLoop lines st = some (s, LoadStatus.loaded) →
      (st.root ≠ Node.null → s.root.name = st.root.name) ∧
      (st.root = Node.null → lines.findSome? entryName = some s.root.name) := by
  induction lines with
  | nil =>
    intro st s h
    simp only [reloadLoop] at h
    split at h
    · simp at h
    · rename_i hnn
      simp only [Option.some.injEq, Prod.mk.injEq, and_true] at h
      subst h
      exact ⟨fun _ => rfl, fun h0 => absurd h0 hnn⟩
  | cons buf rest ih =>
    intro st s h
    simp only [reloadLoop] at h
    split at h
    · rename_i st1 hstep
      obtain ⟨ih1, ih2⟩ := ih st1 s h
      refine ⟨?_, ?_⟩
      · intro hroot
        obtain ⟨hn, hne⟩ := processLine_next_root_name st st1 buf hstep hroot
        rw [ih1 hne, hn]
      · intro hroot
        rcases processLine_next_first_entry st st1 buf hstep hroot with ⟨h1, h2⟩ | ⟨h1, h2⟩
        · rw [List.findSome?_cons, h2]
          exact ih2 h1
        · rw [List.findSome?_cons, h2]
          simp only
          rw [ih1 h1]
    · rename_i s1 status1 hstep
      simp only [Option.some.injEq, Prod.mk.injEq] at h
      exact absurd h.2 (processLine_stop_status st buf s1 status1 hstep)
    · simp at h

/-- A reload that loads its file gives the root the normalized name of the
first valid entry of the file. -/
theorem reload_loaded_name (old : Session) (text : List Char) (s : Session)
    (h : reload old text = some (s, LoadStatus.loaded)) :
    firstEntryName text = some s.root.name :=
  (reloadLoop_loaded_name _ _ s h).2 rfl

theorem rootNameAfter_commands (cmds : List Command) (nm : List Char) :
    rootNameAfter (cmds.map Event.command) nm = nm := by
  induction cmds with
  | nil => rfl
  | cons c cs ih => simpa [rootNameAfter] using ih

/-- Along a history the root stays a directory outside any sibling chain, and
its name is the one `rootNameAfter` gives. -/
theorem runEvents_root (evs : List Event) :
    ∀ (s0 s : Session), runEvents s0 evs = some s →
      s0.root ≠ Node.null → s0.root.isDirectory = true → s0.root.sibling = Node.null →
      s.root ≠ Node.null ∧ s.root.isDirectory = true ∧ s.root.sibling = Node.null ∧
        s.root.name = rootNameAfter evs s0.root.name := by
  induction evs with
  | nil =>
    intro s0 s h h1 h2 h3
    simp only [runEvents, Option.some.injEq] at h
    subst h
    exact ⟨h1, h2, h3, rfl⟩
  | cons e es ih =>
    intro s0 s h h1 h2 h3
    cases e with
    | command c =>
      simp only [runEvents] at h
      obtain ⟨f1, f2, f3, f4⟩ := execute_root_fields s0 c
      obtain ⟨r1, r2, r3, r4⟩ := ih _ s h (f4 h1) (by rw [f1, h2]) (by rw [f2, h3])
      refine ⟨r1, r2, r3, ?_⟩
      rw [r4, f3]
      rfl
    | reload text =>
      simp only [runEvents] at h
      cases hr : reload s0 text with
      | none => simp [hr] at h
      | some res =>
        obtain ⟨s1, status⟩ := res
        simp only [hr] at h
        obtain ⟨_, q1, q2, q3, _, q5⟩ := reload_root s0 text s1 status hr
        obtain ⟨r1, r2, r3, r4⟩ := ih s1 s h q1 q2 q3
        refine ⟨r1, r2, r3, ?_⟩
        rw [r4]
        have hold : reload initSession text = some (s1, status) := hr
        simp only [rootNameAfter, hold]
        by_cases hs : status = LoadStatus.loaded
        · subst hs
          rw [reload_loaded_name s0 text s1 hr]
          rfl
        · rw [q5 hs]
          cases status <;> first | rfl | exact absurd rfl hs

theorem runEvents_reachable (evs : List Event) :
    ∀ (s0 s : Session), runEvents s0 evs = some s → ReachableWithReload s0 →
      ReachableWithReload s := by
  induction evs with
  | nil =>
    intro s0 s h h0
    simp only [runEvents, Option.some.injEq] at h
    subst h
    exact h0
  | cons e es ih =>
    intro s0 s h h0
    cases e with
    | command c =>
      simp only [runEvents] at h
      exact ih _ s h (ReachableWithReload.command s0 c h0)
    | reload text =>
      simp only [runEvents] at h
      cases hr : reload s0 text with
      | none => simp [hr] at h
      | some res =>
        obtain ⟨s1, status⟩ := res
        simp only [hr] at h
        exact ih s1 s h (ReachableWithReload.reload s0 text s1 status h0 hr)

theorem runEvents_append (a b : List Event) :
    ∀ s0 : Session, runEvents s0 (a ++ b) = (runEvents s0 a).bind (fun s1 => runEvents s1 b) := by
  induction a with
  | nil => intro s0; rfl
  | cons e es ih =>
    intro s0
    cases e with
    | command c => simpa [runEvents] using ih _
    | reload text =>
      simp only [List.cons_append, runEvents]
      cases hr : reload s0 text with
      | none => rfl
      | some res =>
        obtain ⟨s1, status⟩ := res
        simpa using ih s1

/-- Every session reachable with the commands and reload is the end of a
history. -/
theorem reachableWithReload_runEvents {s : Session} (h : ReachableWithReload s) :
    ∃ evs, runEvents initSession evs = some s := by
  induction h with
  | init => exact ⟨[], rfl⟩
  | command s c _ ih =>
    obtain ⟨evs, he⟩ := ih
    refine ⟨evs ++ [Event.command c], ?_⟩
    rw [runEvents_append, he]
    rfl
  | reload s text s1 status _ hr ih =>
    obtain ⟨evs, he⟩ := ih
    refine ⟨evs ++ [Event.reload text], ?_⟩
    rw [runEvents_append, he]
    simp [runEvents, hr]

/-- C12 (amended): a session reached from the initial one by any history of
commands and reloads is reachable, and its root is a record, a directory, and
is linked into no sibling chain (it is the record at the pointer `[]`, which
has no parent). Its name is the one `rootNameAfter` computes from the
history: `/` at the start, kept by every command, set by a reload that loads
its file to the normalized name of the first valid entry of that file, and
set to `/` by any other reload. In particular the name is `/` when the
history holds commands only. -/
theorem root_directory_named (evs : List Event) (s : Session)
    (h : runEvents initSession evs = some s) :
    ReachableWithReload s ∧ s.root ≠ Node.null ∧ s.root.isDirectory = true ∧
      s.root.sibling = Node.null ∧ s.root.name = rootNameAfter evs ['/'] ∧
      (∀ cmds : List Command, evs = cmds.map Event.command → s.root.name = ['/']) := by
  obtain ⟨r1, r2, r3, r4⟩ := runEvents_root evs initSession s h (by decide) (by decide)
    (by decide)
  have hname : s.root.name = rootNameAfter evs ['/'] := r4
  refine ⟨runEvents_reachable evs initSession s h ReachableWithReload.init, r1, r2, r3,
    hname, ?_⟩
  intro cmds hc
  rw [hname, hc, rootNameAfter_commands]

/-- C12, instance: after `mkdir a`, `reload` of `fooText` and `mkdir x` the
root is named `foo`, the first entry of the file; after `mkdir a`, `cd a`
alone it is named `/`. -/
theorem root_directory_named_witness :
    runEvents initSession fooHistory = some (mkdir fooSession ['x']).1 ∧
      (ReachableWithReload (mkdir fooSession ['x']).1 ∧
        (mkdir fooSession ['x']).1.root ≠ Node.null ∧
        (mkdir fooSession ['x']).1.root.isDirectory = true ∧
        (mkdir fooSession ['x']).1.root.sibling = Node.null ∧
        (mkdir fooSession ['x']).1.root.name = rootNameAfter fooHistory ['/']) ∧
      rootNameAfter fooHistory ['/'] = ['f', 'o', 'o'] ∧
      firstEntryName fooText = some ['f', 'o', 'o'] ∧
      runEvents initSession ([Command.mkdir ['a'], Command.cd ['a']].map Event.command)
        = some (run initSession [Command.mkdir ['a'], Command.cd ['a']]) ∧
      (run initSession [Command.mkdir ['a'], Command.cd ['a']]).root.name = ['/'] :=
  ⟨by decide,
    (match root_directory_named fooHistory (mkdir fooSession ['x']).1 (by decide) with
      | ⟨h1, h2, h3, h4, h5, _⟩ => ⟨h1, h2, h3, h4, h5⟩),
    by decide, by decide, by decide,
    (root_directory_named ([Command.mkdir ['a'], Command.cd ['a']].map Event.command)
      (run initSession [Command.mkdir ['a'], Command.cd ['a']]) (by decide)).2.2.2.2.2
      [Command.mkdir ['a'], Command.cd ['a']] rfl⟩

/-- C12 as stated fails: `reload` of a file whose first entry is `foo 1`
leaves a reachable session whose root is named `foo`. -/
theorem reload_root_named_foo :
    ReachableWithReload fooSession ∧ fooSession.root.name = ['f', 'o', 'o'] ∧
      fooSession.root.name ≠ ['/'] :=
  ⟨ReachableWithReload.reload initSession fooText fooSession LoadStatus.loaded
      ReachableWithReload.init (by decide), by decide, by decide⟩

/-! ## Removing an entry -/

theorem sameRecord_refl (a : Node) : SameRecord a a := ⟨rfl, rfl⟩

theorem chainAt_unlink (c : Node) :
    ∀ (i j : Nat) (r : List Nat),
      SameRecord (chainAt (unlink c i) j r) (chainAt c (if j < i then j else j + 1) r) := by
  induction c with
  | null => intro i j r; simp [unlink, chainAt, sameRecord_refl]
  | mk n d ch sib _ ihs =>
    intro i j r
    cases i with
    | zero => simp [unlink, chainAt, sameRecord_refl]
    | succ i =>
      cases j with
      | zero =>
        cases r with
        | nil => simp [unlink, chainAt, SameRecord, Node.label, entries, Node.child]
        | cons j2 r => simp [unlink, chainAt, sameRecord_refl]
      | succ j =>
        have := ihs i j r
        by_cases hj : j < i
        · simpa [unlink, chainAt, hj] using this
        · simpa [unlink, chainAt, hj] using this

theorem chainAt_chainUpd_unlink (c : Node) (i : Nat) :
    ∀ (k : Nat) (p : List Nat) (j : Nat) (q : List Nat), (j = k → q ≠ p) →
      SameRecord (chainAt (chainUpd c k p (fun ch => unlink ch i)) j q)
        (chainAt c j (if j = k then origin p i q else q)) := by
  induction c with
  | null => intro k p j q _; simp [chainUpd, chainAt, sameRecord_refl]
  | mk n d ch sib ihc ihs =>
    intro k p j q hne
    cases k with
    | succ k =>
      cases j with
      | zero =>
        cases q with
        | nil => simp [chainUpd, chainAt, SameRecord, Node.label, entries, Node.child]
        | cons j2 r => simp [chainUpd, chainAt, sameRecord_refl]
      | succ j =>
        have := ihs k p j q (fun h => hne (by rw [h]))
        simpa [chainUpd, chainAt] using this
    | zero =>
      cases j with
      | succ j => cases p <;> simp [chainUpd, chainAt, sameRecord_refl]
      | zero =>
        cases p with
        | nil =>
          cases q with
          | nil => exact absurd rfl (hne rfl)
          | cons j2 r =>
            simpa [chainUpd, chainAt, origin] using chainAt_unlink ch i j2 r
        | cons c2 cs =>
          cases q with
          | nil =>
            simp [chainUpd, chainAt, origin, SameRecord, Node.label, entries, Node.child,
              chainEntries_chainUpd]
          | cons j2 r =>
            have := ihc c2 cs j2 r (fun h => by
              intro hr
              exact hne rfl (by rw [h, hr]))
            by_cases hj : j2 = c2
            · simpa [chainUpd, chainAt, origin, hj] using this
            · simpa [chainUpd, chainAt, origin, hj] using this

theorem updChild_unlink_removed (s : Session) (name : List Char) (i : Nat)
    (hfind : findChild (deref s.root s.cwd) name = some i) :
    Removed s ⟨updChild s.root s.cwd (fun ch => unlink ch i), s.cwd⟩ name := by
  have hderef : deref s.root s.cwd ≠ Node.null := by
    intro h; rw [h] at hfind; simp [findChild] at hfind
  refine ⟨i, by rw [firstChildNamed, ← findChild_eq_findIdx]; exact hfind, rfl, ?_, ?_, ?_⟩
  · simp only [deref, updChild] at hderef ⊢
    rw [chainAt_chainUpd_same]
    cases hd : chainAt s.root 0 s.cwd with
    | null => exact absurd hd hderef
    | mk n d ch sib => rfl
  · rcases entries_updChild_same s.root s.cwd (fun ch => unlink ch i) with h | h
    · rw [h, chainEntries_unlink]; rfl
    · exact absurd h hderef
  · intro q hq
    have := chainAt_chainUpd_unlink s.root i 0 s.cwd 0 q (fun _ => hq)
    simpa [deref, updChild] using this

theorem rmdir_removed (s : Session) (name : List Char)
    (hok : (rmdir s name).2 = Outcome.ok) : Removed s (rmdir s name).1 name := by
  unfold rmdir at hok ⊢
  split at hok
  · simp at hok
  · rename_i h1
    rw [if_neg h1]
    split at hok
    · simp at hok
    · rename_i h2
      rw [if_neg h2]
      split at hok
      · simp at hok
      · rename_i i hfind
        simp only [hfind] at hok ⊢
        split at hok
        · simp at hok
        · rename_i h3
          rw [if_neg h3]
          split at hok
          · simp at hok
          · rename_i h4
            rw [if_neg h4]
            split at hok
            · simp at hok
            · rename_i h5
              rw [if_neg h5]
              exact updChild_unlink_removed s name i hfind

theorem rm_removed (s : Session) (name : List Char)
    (hok : (rm s name).2 = Outcome.ok) : Removed s (rm s name).1 name := by
  unfold rm at hok ⊢
  split at hok
  · simp at hok
  · rename_i h1
    rw [if_neg h1]
    split at hok
    · simp at hok
    · rename_i i hfind
      simp only [hfind] at hok ⊢
      split at hok
      · simp at hok
      · rename_i h3
        rw [if_neg h3]
        exact updChild_unlink_removed s name i hfind

/-- `rm name` succeeds exactly when `name` is not empty and the first child of
`cwd` with that name is not a directory. -/
theorem rm_ok_iff (s : Session) (name : List Char) :
    (rm s name).2 = Outcome.ok ↔
      name ≠ [] ∧ ∃ i, firstChildNamed (deref s.root s.cwd) name = some i ∧
        childIsDirectory (deref s.root s.cwd) i = false := by
  unfold rm firstChildNamed
  rw [← findChild_eq_findIdx]
  by_cases hn : name = []
  · subst hn; simp
  · have hl : name.length ≠ 0 := fun h => hn (List.length_eq_zero.mp h)
    rw [if_neg hl]
    cases hfind : findChild (deref s.root s.cwd) name with
    | none => simp [hn]
    | some i =>
      simp only [isDirectory_deref_append]
      by_cases hd : childIsDirectory (deref s.root s.cwd) i = true
      · simp [hd, hn]
      · simp [hd, hn]

/-- `rmdir name` succeeds exactly when `name` is neither empty nor `/` and the
first child of `cwd` with that name is a directory without children. -/
theorem rmdir_ok_iff (s : Session) (name : List Char) :
    (rmdir s name).2 = Outcome.ok ↔
      name ≠ [] ∧ name ≠ ['/'] ∧ ∃ i, firstChildNamed (deref s.root s.cwd) name = some i ∧
        childIsDirectory (deref s.root s.cwd) i = true ∧
        entries (deref s.root (s.cwd ++ [i])) = [] := by
  have hent : ∀ n : Node, entries n = [] ↔ n.child = Node.null := by
    intro n
    unfold entries
    cases n.child <;> simp [chainEntries]
  have hcwd : ∀ i : Nat, s.cwd ≠ s.cwd ++ [i] := by
    intro i h
    have := congrArg List.length h
    simp at this
  unfold rmdir firstChildNamed
  rw [← findChild_eq_findIdx]
  by_cases hn : name = []
  · subst hn; simp
  · have hl : name.length ≠ 0 := fun h => hn (List.length_eq_zero.mp h)
    rw [if_neg hl]
    by_cases hr : name = ['/']
    · simp [hr]
    · rw [if_neg hr]
      cases hfind : findChild (deref s.root s.cwd) name with
      | none => simp [hn]
      | some i =>
        simp only [isDirectory_deref_append, hent]
        by_cases hd : childIsDirectory (deref s.root s.cwd) i = true
        · by_cases hc : (deref s.root (s.cwd ++ [i])).child = Node.null
          · simp [hd, hn, hr, hc, hcwd i]
          · simp [hd, hn, hr, hc]
        · simp [hd, hn, hr]

/-- C14: when `rmdir name` or `rm name` succeeds, `cwd` is unchanged and refers
to the same record, whose children are the former ones without the first
child named `name`, in the same order; every other record of the new tree has
the name, kind and list of children it had before (at the pointer `origin`
gives, since the later children of `cwd` moved up one place). `rm name`
succeeds exactly when `name` is not empty and the first child of that name is
a file; `rmdir name` exactly when `name` is neither empty nor `/` and the
first child of that name is a directory without children. -/
theorem remove_frame (s : Session) (name : List Char) :
    ((rmdir s name).2 = Outcome.ok → Removed s (rmdir s name).1 name) ∧
      ((rm s name).2 = Outcome.ok → Removed s (rm s name).1 name) ∧
      ((rmdir s name).2 = Outcome.ok ↔
        name ≠ [] ∧ name ≠ ['/'] ∧
          ∃ i, firstChildNamed (deref s.root s.cwd) name = some i ∧
            childIsDirectory (deref s.root s.cwd) i = true ∧
            entries (deref s.root (s.cwd ++ [i])) = []) ∧
      ((rm s name).2 = Outcome.ok ↔
        name ≠ [] ∧
          ∃ i, firstChildNamed (deref s.root s.cwd) name = some i ∧
            childIsDirectory (deref s.root s.cwd) i = false) :=
  ⟨rmdir_removed s name, rm_removed s name, rmdir_ok_iff s name, rm_ok_iff s name⟩

/-- C14, instance: in `dirAndFile`, where `cwd` is `d` and holds the directory
`a`, the file `f` and the directory `b`, both `rmdir a` and `rm f` succeed;
`rmdir a` leaves `f`, `b` and `rm f` leaves `a`, `b`, and the root still
holds `d` alone. -/
theorem remove_frame_witness :
    (rmdir dirAndFile ['a']).2 = Outcome.ok ∧ (rm dirAndFile ['f']).2 = Outcome.ok ∧
      Removed dirAndFile (rmdir dirAndFile ['a']).1 ['a'] ∧
      Removed dirAndFile (rm dirAndFile ['f']).1 ['f'] ∧
      entries (deref dirAndFile.root dirAndFile.cwd)
        = [(['a'], true), (['f'], false), (['b'], true)] ∧
      entries (deref (rmdir dirAndFile ['a']).1.root dirAndFile.cwd)
        = [(['f'], false), (['b'], true)] ∧
      entries (deref (rm dirAndFile ['f']).1.root dirAndFile.cwd)
        = [(['a'], true), (['b'], true)] ∧
      entries (rm dirAndFile ['f']).1.root = [(['d'], true)] :=
  ⟨by decide, by decide,
    (remove_frame dirAndFile ['a']).1 (by decide),
    (remove_frame dirAndFile ['f']).2.1 (by decide),
    by decide, by decide, by decide, by decide⟩

/-! ## cd and absolute paths -/

theorem segments_leading_slash_path (arg : List Char) (h : arg.head? = some '/') :
    segments (arg.drop 1) = segments arg := by
  cases arg with
  | nil => simp at h
  | cons c cs =>
    have hc : c = '/' := by simpa using h
    subst hc
    simp [segments_slash]

/-- C16: for an argument of at most 127 bytes `cd` leaves the tree unchanged;
the empty argument sets `cwd` to the root; `..` sets it to the parent of
`cwd`, or leaves it when `cwd` is the root; any other argument sets it to
`findNodeFromPath(base, arg)`, where `base` is the root when the argument
begins with `/` and the old `cwd` otherwise, and leaves it unchanged when
that resolution yields `NULL`. -/
theorem cd_effect (s : Session) (arg : List Char) (hlen : arg.length ≤ 127) :
    (cd s arg).1.root = s.root ∧
      (arg = [] → (cd s arg).1.cwd = []) ∧
      (arg = ['.', '.'] → (cd s arg).1.cwd = if s.cwd = [] then [] else s.cwd.dropLast) ∧
      (arg ≠ [] → arg ≠ ['.', '.'] →
        (cd s arg).1.cwd =
          match findNodeFromPath s.root (if arg.head? = some '/' then [] else s.cwd) arg with
          | some t => t
          | none => s.cwd) := by
  refine ⟨cd_root s arg, ?_, ?_, ?_⟩
  · intro h; subst h; simp [cd]
  · intro h; subst h
    by_cases hc : s.cwd = []
    · simp [cd, hc]
    · simp [cd, hc]
  · intro h1 h2
    have hl0 : arg.length ≠ 0 := fun h => h1 (List.length_eq_zero.mp h)
    have hfind : ∀ base, findNodeFromPath s.root base arg
        = walkTokens s.root (segments arg) base :=
      fun base => findNodeFromPath_eq_walk s.root base arg hlen
    unfold cd
    simp only [hl0, if_false, h2]
    by_cases hs : arg.head? = some '/'
    · have hdl : (arg.drop 1).length ≤ MAX_INPUT - 1 := by
        show (arg.drop 1).length ≤ 127
        simp only [List.length_drop]; omega
      have ht : strncpy (arg.drop 1) (MAX_INPUT - 1) = arg.drop 1 :=
        List.take_of_length_le hdl
      simp only [hs, if_true, ht, tokens_eq_segments, segments_leading_slash_path arg hs,
        hfind]
      cases walkTokens s.root (segments arg) [] <;> rfl
    · have ht : strncpy arg (MAX_INPUT - 1) = arg := List.take_of_length_le hlen
      simp only [hs, if_false, ht, tokens_eq_segments, hfind]
      cases walkTokens s.root (segments arg) s.cwd <;> rfl

/-- C17 (amended): for a path of at most 127 bytes `findNodeFromPath(start,
path)` resolves the non-empty segments of the path from `start`, whether or
not the path begins with `/`: a leading `/` is skipped as an empty segment,
so `/p` and `p` give the same result from every `start`. -/
theorem findNodeFromPath_from_start (root : Node) (start : List Nat) (p : List Char)
    (hlen : p.length ≤ 126) :
    findNodeFromPath root start ('/' :: p) = resolveSegments root (segments p) start ∧
      findNodeFromPath root start p = resolveSegments root (segments p) start := by
  have h1 := findNodeFromPath_eq_walk root start ('/' :: p)
    (by simp only [List.length_cons, MAX_INPUT]; omega)
  have h2 := findNodeFromPath_eq_walk root start p (by simp only [MAX_INPUT]; omega)
  rw [h1, h2, segments_slash]
  have := walkTokens_eq_resolveSegments root (segments p)
    (fun t ht => mem_segments_ne_nil ht) start
  exact ⟨this, this⟩

/-- C17 as stated fails: in the tree `/a/b`, the path `/b` resolved from `a`
yields `b`, while resolved from the root it yields `NULL`. -/
theorem findNodeFromPath_absolute_not_root :
    findNodeFromPath nestedRoot [0] ['/', 'b'] = some [0, 0] ∧
      findNodeFromPath nestedRoot [] ['/', 'b'] = none := by
  decide

/-- C16, instance: `cd /a` in the initial session after `mkdir a`. -/
theorem cd_effect_witness :
    (cd (run initSession [Command.mkdir ['a']]) ['/', 'a']).1.root
        = (run initSession [Command.mkdir ['a']]).root ∧
      (cd (run initSession [Command.mkdir ['a']]) ['/', 'a']).1.cwd = [0] :=
  ⟨(cd_effect (run initSession [Command.mkdir ['a']]) ['/', 'a'] (by decide)).1,
    ((cd_effect (run initSession [Command.mkdir ['a']]) ['/', 'a'] (by decide)).2.2.2
      (by decide) (by decide)).trans (by decide)⟩

/-- C17, instance: `/b` and `b` resolved from `a` in the tree `/a/b`. -/
theorem findNodeFromPath_from_start_witness :
    findNodeFromPath nestedRoot [0] ('/' :: ['b'])
        = resolveSegments nestedRoot (segments ['b']) [0] ∧
      findNodeFromPath nestedRoot [0] ['b'] = resolveSegments nestedRoot (segments ['b']) [0] :=
  findNodeFromPath_from_start nestedRoot [0] ['b'] (by decide)

/-! ## The saved text -/

theorem saveNode_eq_linesList (n : Node) :
    ∀ d : Nat, saveNode n d = (Tree.linesList (forest n) d).flatten := by
  induction n with
  | null => intro d; simp [saveNode, forest, Tree.linesList]
  | mk name b ch sib ihc ihs =>
    intro d
    simp [saveNode, forest, Tree.linesList, Tree.lines, saveLine, ihc, ihs, List.append_assoc]

theorem linesList_length (n : Node) :
    ∀ d : Nat, (Tree.linesList (forest n) d).length = Tree.sizeList (forest n) := by
  induction n with
  | null => intro d; simp [forest, Tree.linesList, Tree.sizeList]
  | mk name b ch sib ihc ihs =>
    intro d
    simp [forest, Tree.linesList, Tree.lines, Tree.sizeList, Tree.size, ihc, ihs]
    omega

/-- C15: for a tree with root record `name`, `b` and children `children`,
`save` writes the lines of the pre-order listing (a node, then its children
in order, each with its whole subtree), one line for each node, the line of
a node at depth `d` being `2 * d` spaces, the name, one space, the flag `1`
for a directory or `0` for a file, and a newline; the first line is that of
the root at depth 0. -/
theorem save_preorder (name : List Char) (b : Bool) (children : Node) (cwd : List Nat) :
    save ⟨Node.mk name b children Node.null, cwd⟩
        = (Tree.lines (Tree.node name b (forest children)) 0).flatten ∧
      (Tree.lines (Tree.node name b (forest children)) 0).length
        = Tree.size (Tree.node name b (forest children)) ∧
      (Tree.lines (Tree.node name b (forest children)) 0).head?
        = some (List.replicate (2 * 0) ' ' ++ name ++ [' '] ++ [if b then '1' else '0']
            ++ ['\n']) := by
  refine ⟨?_, ?_, ?_⟩
  · have := saveNode_eq_linesList (Node.mk name b children Node.null) 0
    simpa [save, forest, Tree.linesList] using this
  · have := linesList_length children 1
    simp [Tree.lines, Tree.size, this]
    omega
  · simp [Tree.lines, saveLine]

/-! ## reload: malformed lines -/

theorem fgetsAll_fuel (n : Nat) :
    ∀ (m : Nat) (text : List Char), text.length ≤ n → text.length ≤ m →
      fgetsAll n text = fgetsAll m text := by
  induction n with
  | zero =>
    intro m text h _
    have : text = [] := List.length_eq_zero.mp (Nat.le_zero.mp h)
    subst this
    cases m <;> simp [fgetsAll, fgets]
  | succ n ih =>
    intro m text hn hm
    cases text with
    | nil => cases m <;> simp [fgetsAll, fgets]
    | cons c cs =>
      cases m with
      | zero => simp at hm
      | succ m =>
        have hlt : (fgetsAux (MAX_INPUT - 1) (c :: cs)).2.length < (c :: cs).length :=
          fgetsAux_rest_lt 126 c cs
        simp only [List.length_cons] at hn hm hlt
        simp only [fgetsAll, fgets]
        rw [ih m _ (by omega) (by omega)]

theorem fgetsAux_prefix_line (p : List Char) :
    ∀ (room : Nat) (rest : List Char),
      fgetsAux room (p ++ '\n' :: rest)
          = ((fgetsAux room (p ++ ['\n'])).1, (fgetsAux room (p ++ ['\n'])).2 ++ rest) ∧
        ((fgetsAux room (p ++ ['\n'])).2 = [] ∨
          ∃ p1, (fgetsAux room (p ++ ['\n'])).2 = p1 ++ ['\n']) := by
  induction p with
  | nil =>
    intro room rest
    cases room with
    | zero => exact ⟨by simp [fgetsAux], Or.inr ⟨[], by simp [fgetsAux]⟩⟩
    | succ r => exact ⟨by simp [fgetsAux], Or.inl (by simp [fgetsAux])⟩
  | cons c cs ih =>
    intro room rest
    cases room with
    | zero => exact ⟨by simp [fgetsAux], Or.inr ⟨c :: cs, by simp [fgetsAux]⟩⟩
    | succ r =>
      by_cases hc : c = '\n'
      · subst hc
        exact ⟨by simp [fgetsAux], Or.inr ⟨cs, by simp [fgetsAux]⟩⟩
      · obtain ⟨h1, h2⟩ := ih r rest
        refine ⟨?_, ?_⟩
        · simp only [List.cons_append, fgetsAux, hc, if_false, List.append_eq, h1]
        · simpa [fgetsAux, hc] using h2

/-- The buffers of a text that continues after a complete line are those of
the part up to the line end followed by those of the rest. -/
theorem fgetsAll_append (n : Nat) :
    ∀ (pre rest : List Char), pre.length ≤ n → (pre = [] ∨ ∃ p, pre = p ++ ['\n']) →
      fgetsAll (pre ++ rest).length (pre ++ rest)
        = fgetsAll pre.length pre ++ fgetsAll rest.length rest := by
  induction n with
  | zero =>
    intro pre rest h _
    have : pre = [] := List.length_eq_zero.mp (Nat.le_zero.mp h)
    subst this
    simp [fgetsAll]
  | succ n ih =>
    intro pre rest hlen hpre
    rcases hpre with rfl | ⟨p, rfl⟩
    · simp [fgetsAll]
    · obtain ⟨h1, h2⟩ := fgetsAux_prefix_line p (MAX_INPUT - 1) rest
      have hne : ∃ c cs, p ++ ['\n'] = c :: cs := by
        cases p with
        | nil => exact ⟨_, _, rfl⟩
        | cons c cs => exact ⟨c, cs ++ ['\n'], rfl⟩
      obtain ⟨c, cs, hcs⟩ := hne
      have hlt : (fgetsAux (MAX_INPUT - 1) (c :: cs)).2.length < (c :: cs).length :=
        fgetsAux_rest_lt 126 c cs
      have happ : p ++ ['\n'] ++ rest = c :: (cs ++ rest) := by rw [hcs]; rfl
      have h1b : fgetsAux (MAX_INPUT - 1) (c :: (cs ++ rest))
          = ((fgetsAux (MAX_INPUT - 1) (c :: cs)).1,
              (fgetsAux (MAX_INPUT - 1) (c :: cs)).2 ++ rest) := by
        rw [← hcs, ← h1]
        congr 1
        rw [← happ]; simp
      rw [hcs] at h2 hlen
      rw [happ, hcs]
      simp only [List.length_cons, fgetsAll, fgets, h1b]
      simp only [List.length_cons] at hlt hlen
      have hr := ih (fgetsAux (MAX_INPUT - 1) (c :: cs)).2 rest (by omega) h2
      rw [fgetsAll_fuel _ ((fgetsAux (MAX_INPUT - 1) (c :: cs)).2 ++ rest).length _
          (by simp only [List.length_append]; omega) (Nat.le_refl _), hr,
        fgetsAll_fuel cs.length (fgetsAux (MAX_INPUT - 1) (c :: cs)).2.length _
          (by omega) (Nat.le_refl _)]
      simp

theorem fgetsAux_no_newline (body : List Char) :
    ∀ room : Nat, '\n' ∉ body → body.length ≤ room → fgetsAux room body = (body, []) := by
  induction body with
  | nil => intro room _ _; cases room <;> simp [fgetsAux]
  | cons c cs ih =>
    intro room hn h
    cases room with
    | zero => simp at h
    | succ r =>
      have hc : c ≠ '\n' := fun hc => hn (by simp [hc])
      have hcs : '\n' ∉ cs := fun hcs => hn (by simp [hcs])
      simp only [List.length_cons] at h
      simp [fgetsAux, hc, ih r hcs (by omega)]

/-- A whole line of the file, of at most 127 bytes: one `fgets` call returns
it and leaves the text that follows. -/
theorem fgetsAll_line (line post : List Char) (hlen : line.length ≤ 127)
    (hne : line ≠ [])
    (hline : (∃ body, line = body ++ ['\n'] ∧ '\n' ∉ body) ∨ ('\n' ∉ line ∧ post = [])) :
    fgetsAll (line ++ post).length (line ++ post) = line :: fgetsAll post.length post := by
  have haux : fgetsAux (MAX_INPUT - 1) (line ++ post) = (line, post) := by
    rcases hline with ⟨body, rfl, hb⟩ | ⟨hn, rfl⟩
    · have := fgetsAux_line body (MAX_INPUT - 1) post hb
        (by simp only [List.length_append, List.length_singleton] at hlen
            show body.length + 1 ≤ 127
            omega)
      simpa using this
    · simpa using fgetsAux_no_newline line (MAX_INPUT - 1) hn hlen
  cases hl : line ++ post with
  | nil => simp at hl; exact absurd hl.1 hne
  | cons c cs =>
    rw [hl] at haux
    have hlen2 : post.length ≤ cs.length := by
      have := congrArg List.length hl
      simp only [List.length_append, List.length_cons] at this
      have : 0 < line.length := List.length_pos.mpr hne
      omega
    simp only [List.length_cons, fgetsAll, fgets, haux]
    rw [fgetsAll_fuel cs.length post.length post hlen2 (Nat.le_refl _)]

theorem reloadLoop_skip (line : List Char) (hskip : ∀ st, processLine st line = Step.next st)
    (before after : List (List Char)) :
    ∀ st : Loader, reloadLoop (before ++ line :: after) st = reloadLoop (before ++ after) st := by
  induction before with
  | nil => intro st; simp [reloadLoop, hskip]
  | cons b bs ih =>
    intro st
    simp only [List.cons_append, reloadLoop]
    cases processLine st b with
    | next st1 => exact ih st1
    | stop s status => rfl
    | undefined => rfl

theorem processLine_mismatch (line : List Char)
    (hnonblank : (trim (cstr line)).length ≠ 0)
    (heven : ((cstr line).takeWhile (fun c => decide (c = ' '))).length % 2 = 0)
    (hparse : sscanfNameFlag (trim (cstr line)) = Scan.mismatch) :
    ∀ st, processLine st line = Step.next st := by
  intro st
  unfold processLine
  simp [hnonblank, heven, hparse]

/-- C18 (amended): a whole line of the file (starting after a newline or at
the start, and ended by the next newline or by the end of the file) that has
at most 127 bytes with its newline, is not blank, starts with an even number
of spaces and on which `sscanf` does not deliver a name and a flag (its first
token having at most 63 bytes) is skipped: `reload` gives the same result as
on the text without that line. -/
theorem reload_skips_line (old : Session) (pre line post : List Char)
    (hpre : pre = [] ∨ ∃ p, pre = p ++ ['\n'])
    (hline : (∃ body, line = body ++ ['\n'] ∧ '\n' ∉ body) ∨ ('\n' ∉ line ∧ post = []))
    (hlen : line.length ≤ 127)
    (hnonblank : (trim (cstr line)).length ≠ 0)
    (heven : ((cstr line).takeWhile (fun c => decide (c = ' '))).length % 2 = 0)
    (hparse : sscanfNameFlag (trim (cstr line)) = Scan.mismatch) :
    reload old (pre ++ line ++ post) = reload old (pre ++ post) := by
  have hne : line ≠ [] := by
    intro h; subst h; exact hnonblank (by decide)
  unfold reload
  rw [List.append_assoc, fgetsAll_append _ pre (line ++ post) (Nat.le_refl _) hpre,
    fgetsAll_append _ pre post (Nat.le_refl _) hpre, fgetsAll_line line post hlen hne hline]
  exact reloadLoop_skip line (processLine_mismatch line hnonblank heven hparse) _ _ _

/-- C18, instance: the line `  junk` between `/ 1` and `  a 1`. -/
theorem reload_skips_line_witness :
    reload initSession ("/ 1\n".toList ++ "  junk\n".toList ++ "  a 1\n".toList)
      = reload initSession ("/ 1\n".toList ++ "  a 1\n".toList) :=
  reload_skips_line initSession "/ 1\n".toList "  junk\n".toList "  a 1\n".toList
    (Or.inr ⟨"/ 1".toList, by decide⟩) (Or.inl ⟨"  junk".toList, by decide, by decide⟩)
    (by decide) (by decide) (by decide) (by decide)

set_option maxRecDepth 100000 in
/-- C18 as stated fails for a line longer than the 127 bytes one `fgets` call
reads: `longLine` is not blank, has no leading space and does not parse as a
name and a flag, yet `reload` does not skip it: it reads its tail `b 1` as
an entry, which becomes the root, while the text without the line has no
entry at all. -/
theorem reload_long_line_not_skipped :
    (trim (cstr longLine)).length ≠ 0 ∧
      ((cstr longLine).takeWhile (fun c => decide (c = ' '))).length % 2 = 0 ∧
      sscanfNameFlag (trim (cstr longLine)) = Scan.mismatch ∧
      reload initSession ([] ++ longLine ++ [])
        = some (⟨Node.mk ['b'] true Node.null Node.null, []⟩, LoadStatus.loaded) ∧
      reload initSession ([] ++ [])
        = some (⟨Node.mk ['/'] true Node.null Node.null, []⟩, LoadStatus.noEntries) := by
  decide!

/-! ## normalizeName applied twice -/

/-- C22: `normalizeName` is idempotent on every string that fits its buffer
(at most 63 bytes, strings of separators included), so the name stored in a
node by `createNode` is left unchanged when `reload` copies it into its
64-byte buffer and normalizes it again, and `createNode` builds the same
record from it. -/
theorem normalizeName_idempotent (s name : List Char) (b : Bool)
    (hlen : s.length ≤ 63) (hnode : createNode name b ≠ Node.null) :
    normalizeName (normalizeName s) = normalizeName s ∧
      normalizeName (strncpy (createNode name b).name (MAX_NAME - 1))
        = (createNode name b).name ∧
      createNode (normalizeName (strncpy (createNode name b).name (MAX_NAME - 1))) b
        = createNode name b := by
  refine ⟨normalizeName_idem s hlen, ?_⟩
  have hcut : (strncpy name (MAX_NAME - 1)).length ≤ MAX_NAME - 1 := List.length_take_le _ _
  have hl := normalizeName_length_le (strncpy name (MAX_NAME - 1))
  have ht : strncpy (normalizeName (strncpy name (MAX_NAME - 1))) (MAX_NAME - 1)
      = normalizeName (strncpy name (MAX_NAME - 1)) := List.take_of_length_le hl
  have hidem := normalizeName_idem (strncpy name (MAX_NAME - 1)) hcut
  rcases createNode_cases name b with h | ⟨nm, hnm, h⟩
  · exact absurd h hnode
  · have hc : createNode name b
        = Node.mk (normalizeName (strncpy name (MAX_NAME - 1))) b Node.null Node.null := by
      unfold createNode at hnode ⊢
      simp only [ht] at hnode ⊢
      split
      · rename_i h1
        rw [if_pos h1] at hnode
        exact absurd rfl hnode
      · rename_i h1
        split
        · rename_i h2
          rw [if_neg h1, if_pos h2] at hnode
          exact absurd rfl hnode
        · rfl
    have hnm2 : normalizeName (strncpy name (MAX_NAME - 1)) = nm := by
      rw [hc] at h
      injection h
    have hstored : normalizeName (strncpy (createNode name b).name (MAX_NAME - 1))
        = (createNode name b).name := by
      rw [hc]
      simp only [Node.name, ht]
      exact hidem
    refine ⟨hstored, ?_⟩
    rw [hstored, hc]
    simp only [Node.name]
    rw [createNode_eq _ b hl (by rw [hidem, hnm2]; exact hnm), hidem]

theorem normalizeName_idempotent_witness :
    "///".toList.length ≤ 63 ∧ createNode "//usr///lib/".toList true ≠ Node.null ∧
      (normalizeName (normalizeName "///".toList) = normalizeName "///".toList ∧
        normalizeName (strncpy (createNode "//usr///lib/".toList true).name (MAX_NAME - 1))
          = (createNode "//usr///lib/".toList true).name ∧
        createNode (normalizeName
            (strncpy (createNode "//usr///lib/".toList true).name (MAX_NAME - 1))) true
          = createNode "//usr///lib/".toList true) :=
  ⟨by decide, by decide,
    normalizeName_idempotent "///".toList "//usr///lib/".toList true (by decide) (by decide)⟩

/-! ## reload: the ancestor stack -/

theorem popStack_le (fuel : Nat) :
    ∀ (t l : Int), popStack fuel t l ≤ t := by
  induction fuel with
  | zero => intro t l; simp [popStack]
  | succ n ih =>
    intro t l
    simp only [popStack]
    split
    · have := ih (t - 1) l
      omega
    · exact le_refl _

theorem popStack_nonneg (fuel : Nat) :
    ∀ (t l : Int), 0 ≤ t → 1 ≤ l → 0 ≤ popStack fuel t l := by
  induction fuel with
  | zero => intro t l ht _; simpa [popStack] using ht
  | succ n ih =>
    intro t l ht hl
    simp only [popStack]
    split
    · rename_i h
      exact ih (t - 1) l (by omega) hl
    · exact ht

theorem popStack_level_zero (fuel : Nat) :
    ∀ (t : Int), -1 ≤ t → t + 1 ≤ fuel → popStack fuel t 0 = -1 := by
  induction fuel with
  | zero => intro t h1 h2; simp only [popStack]; omega
  | succ n ih =>
    intro t h1 h2
    simp only [popStack]
    split
    · exact ih (t - 1) (by omega) (by push_cast at h2 ⊢; omega)
    · omega

theorem chainAt_appendSibling_ne_null (c leaf : Node) :
    ∀ (j : Nat) (q : List Nat), chainAt c j q ≠ Node.null →
      chainAt (appendSibling c leaf) j q ≠ Node.null := by
  induction c with
  | null => intro j q h; exact absurd (chainAt_null j q) h
  | mk n d ch sib _ ihs =>
    intro j q h
    cases j with
    | succ j => simpa [appendSibling, chainAt] using ihs j q (by simpa [chainAt] using h)
    | zero =>
      cases q with
      | nil => simp [appendSibling, chainAt]
      | cons j2 q2 => simpa [appendSibling, chainAt] using h

theorem chainAt_chainUpd_append_ne_null (c leaf : Node) :
    ∀ (i : Nat) (p : List Nat) (j : Nat) (q : List Nat), chainAt c j q ≠ Node.null →
      chainAt (chainUpd c i p (fun ch => appendSibling ch leaf)) j q ≠ Node.null := by
  induction c with
  | null => intro i p j q h; exact absurd (chainAt_null j q) h
  | mk n d ch sib ihc ihs =>
    intro i p j q h
    cases i with
    | succ i =>
      cases j with
      | succ j => simpa [chainUpd, chainAt] using ihs i p j q (by simpa [chainAt] using h)
      | zero =>
        cases q with
        | nil => simp [chainUpd, chainAt]
        | cons j2 q2 => simpa [chainUpd, chainAt] using h
    | zero =>
      cases p with
      | nil =>
        cases j with
        | succ j => simpa [chainUpd, chainAt] using h
        | zero =>
          cases q with
          | nil => simp [chainUpd, chainAt]
          | cons j2 q2 =>
            simpa [chainUpd, chainAt] using
              chainAt_appendSibling_ne_null ch leaf j2 q2 (by simpa [chainAt] using h)
      | cons i2 p2 =>
        cases j with
        | succ j => simpa [chainUpd, chainAt] using h
        | zero =>
          cases q with
          | nil => simp [chainUpd, chainAt]
          | cons j2 q2 =>
            simpa [chainUpd, chainAt] using ihc i2 p2 j2 q2 (by simpa [chainAt] using h)

/-- A record of the tree is still there after `insertChild`. -/
theorem deref_insertChild_ne_null (root : Node) (P q : List Nat) (child : Node)
    (h : deref root q ≠ Node.null) : deref (insertChild root P child) q ≠ Node.null := by
  unfold insertChild
  split
  · exact h
  · exact chainAt_chainUpd_append_ne_null root child 0 P 0 q h

/-- The record appended by `insertChild` is found at the end of the child
chain of its parent. -/
theorem deref_insertChild_new (root : Node) (P : List Nat) (nm : List Char) (b : Bool)
    (h : deref root P ≠ Node.null) :
    deref (insertChild root P (Node.mk nm b Node.null Node.null))
      (P ++ [chainLength (deref root P).child]) ≠ Node.null := by
  rw [deref_append]
  unfold insertChild
  rw [if_neg (by simp)]
  simp only [deref, updChild] at h ⊢
  rw [chainAt_chainUpd_same]
  cases hd : chainAt root 0 P with
  | null => exact absurd hd h
  | mk n d ch sib =>
    simp only [Node.child]
    rw [chainLength_eq, chainAt_appendSibling_last]
    simp [chainAt]

theorem stackLive_start : StackLive ⟨Node.null, fun _ => none, -1⟩ := Or.inl ⟨rfl, rfl⟩


/-- One iteration of the read loop keeps the stack invariant. -/
theorem processLine_next_stackLive (st st1 : Loader) (buf : List Char)
    (h : processLine st buf = Step.next st1) (hinv : StackLive st) : StackLive st1 := by
  unfold processLine at h
  simp only at h
  split at h
  · simp only [Step.next.injEq] at h
    subst h; exact hinv
  · split at h
    · simp at h
    · split at h
      · simp at h
      · simp only [Step.next.injEq] at h
        subst h; exact hinv
      · split at h
        · simp only [Step.next.injEq] at h
          subst h; exact hinv
        · split at h
          · rename_i hnull
            split at h
            · simp at h
            · split at h
              · simp at h
              · rename_i hne
                split at h
                · simp at h
                · simp only [Step.next.injEq] at h
                  subst h
                  rcases hinv with ⟨_, htop⟩ | ⟨hr, _⟩
                  · rw [htop]
                    refine Or.inr ⟨hne, ?_, ?_, ?_⟩
                    · show (0 : Int) ≤ -1 + 1
                      decide
                    · show (-1 + 1 : Int) < ((1024 : Nat) : Int)
                      decide
                    intro k hk
                    have hk2 : (k : Int) ≤ -1 + 1 := hk
                    have hk0 : k = 0 := by omega
                    subst hk0
                    exact ⟨[], by simp, by rw [deref_nil]; exact hne⟩
                  · exact absurd hnull hr
          · rename_i hnn
            split at h
            · simp at h
            · rename_i name isDir _ _ hlt
              split at h
              · simp at h
              · rename_i hnew
                split at h
                · simp at h
                · rename_i hge
                  split at h
                  · simp at h
                  · rename_i parent hparent
                    simp only [Step.next.injEq] at h
                    subst h
                    rcases hinv with ⟨hr, _⟩ | ⟨_, h0, _, hslots⟩
                    · exact absurd hr hnn
                    · generalize hr : popStack (st.stackTop + 1).toNat st.stackTop
                        ((((cstr buf).takeWhile (fun c => decide (c = ' '))).length / 2 : Nat) : Int)
                          = r at hlt hge hparent ⊢
                      have hle : r ≤ st.stackTop := by rw [← hr]; exact popStack_le _ _ _
                      have hlt2 : r + 1 < 1024 := by
                        have h2 := hlt
                        simp only [MAX_PATH_LEN] at h2
                        omega
                      obtain ⟨P, hP, hlive⟩ := hslots (r + 1 - 1).toNat (by omega)
                      rw [hparent] at hP
                      cases hP
                      rcases createNode_cases (normalizeName (strncpy name (MAX_NAME - 1)))
                        (decide (isDir ≠ 0)) with hc | ⟨nm, _, hc⟩
                      · exact absurd hc hnew
                      · rw [hc]
                        refine Or.inr ⟨?_, ?_, ?_, ?_⟩
                        · dsimp only
                          exact (insertChild_fields st.root parent _).2.2.2 hnn
                        · show 0 ≤ r + 1
                          omega
                        · show r + 1 < ((MAX_PATH_LEN : Nat) : Int)
                          simp only [MAX_PATH_LEN]
                          omega
                        · intro k hk
                          have hk2 : (k : Int) ≤ r + 1 := hk
                          by_cases hkt : k = (r + 1).toNat
                          · refine ⟨parent ++ [chainLength (deref st.root parent).child], ?_, ?_⟩
                            · show Function.update st.stack (r + 1).toNat _ k = _
                              rw [hkt, Function.update_same]
                            · dsimp only
                              exact deref_insertChild_new st.root parent nm _ hlive
                          · obtain ⟨Q, hQ, hQlive⟩ := hslots k (by omega)
                            refine ⟨Q, ?_, ?_⟩
                            · show Function.update st.stack (r + 1).toNat _ k = _
                              rw [Function.update_noteq hkt]
                              exact hQ
                            · dsimp only
                              exact deref_insertChild_ne_null _ _ _ _ hQlive

/-- With the stack invariant, an iteration of the read loop has undefined
behaviour only when the scan of the line overruns `name` or overflows the
flag, or when an entry at nesting level 0 comes after the root. -/
theorem processLine_undefined_cases (st : Loader) (buf : List Char)
    (h : processLine st buf = Step.undefined) (hinv : StackLive st) :
    sscanfNameFlag (trim (cstr buf)) = Scan.undefined ∨
      (st.root ≠ Node.null ∧
        ((cstr buf).takeWhile (fun c => decide (c = ' '))).length / 2 = 0) := by
  unfold processLine at h
  simp only at h
  split at h
  · simp at h
  · split at h
    · simp at h
    · split at h
      · rename_i hscan
        exact Or.inl hscan
      · simp at h
      · split at h
        · simp at h
        · split at h
          · rename_i hnull
            split at h
            · simp at h
            · split at h
              · simp at h
              · split at h
                · rename_i hbad
                  rcases hinv with ⟨_, htop⟩ | ⟨hr, _⟩
                  · rw [htop] at hbad
                    simp only [MAX_PATH_LEN] at hbad
                    omega
                  · exact absurd hnull hr
                · simp at h
          · rename_i hnn
            split at h
            · simp at h
            · split at h
              · simp at h
              · rcases hinv with ⟨hr, _⟩ | ⟨_, h0, _, hslots⟩
                · exact absurd hr hnn
                · by_cases hlev :
                    ((cstr buf).takeWhile (fun c => decide (c = ' '))).length / 2 = 0
                  · exact Or.inr ⟨hnn, hlev⟩
                  · exfalso
                    have hpos := popStack_nonneg (st.stackTop + 1).toNat st.stackTop
                      ((((cstr buf).takeWhile (fun c => decide (c = ' '))).length / 2 : Nat) : Int)
                      h0 (by omega)
                    have hle := popStack_le (st.stackTop + 1).toNat st.stackTop
                      ((((cstr buf).takeWhile (fun c => decide (c = ' '))).length / 2 : Nat) : Int)
                    generalize popStack (st.stackTop + 1).toNat st.stackTop
                      ((((cstr buf).takeWhile (fun c => decide (c = ' '))).length / 2 : Nat) : Int)
                        = r at h hpos hle
                    split at h
                    · omega
                    · obtain ⟨P, hP, _⟩ := hslots (r + 1 - 1).toNat (by omega)
                      rw [hP] at h
                      simp at h

/-- When the read loop has undefined behaviour, some line overruns the scan
or is at nesting level 0 after the root. -/
theorem reloadLoop_none_cases (lines : List (List Char)) :
    ∀ st : Loader, StackLive st → reloadLoop lines st = none →
      ∃ buf ∈ lines, sscanfNameFlag (trim (cstr buf)) = Scan.undefined ∨
        ((cstr buf).takeWhile (fun c => decide (c = ' '))).length / 2 = 0 := by
  induction lines with
  | nil =>
    intro st _ h
    simp only [reloadLoop] at h
    split at h <;> simp at h
  | cons buf rest ih =>
    intro st hinv h
    simp only [reloadLoop] at h
    split at h
    · rename_i st1 hstep
      obtain ⟨b, hb, hcase⟩ := ih st1 (processLine_next_stackLive st st1 buf hstep hinv) h
      exact ⟨b, List.mem_cons_of_mem _ hb, hcase⟩
    · simp at h
    · rename_i hstep
      rcases processLine_undefined_cases st buf hstep hinv with hs | ⟨_, hl⟩
      · exact ⟨buf, List.mem_cons_self _ _, Or.inl hs⟩
      · exact ⟨buf, List.mem_cons_self _ _, Or.inr hl⟩

/-- An entry at nesting level 0 after the root: the loop pops the whole
stack, `stackTop++` gives 0, and the parent is read from `stack[-1]`. -/
theorem processLine_level_zero (st : Loader) (name : List Char) (b : Bool)
    (hroot : st.root ≠ Node.null) (htop : -1 ≤ st.stackTop)
    (hp : plainName name = true) :
    processLine st (saveLine name b 0) = Step.undefined := by
  obtain ⟨hne, hlen, _, hn⟩ := (plainName_iff name).mp hp
  have hl0 : name.length ≠ 0 := fun h => hne (List.length_eq_zero.mp h)
  have hcreate : ∀ c : Bool, createNode name c = Node.mk name c Node.null Node.null := by
    intro c
    rw [createNode_eq name c hlen (by rw [hn]; exact hne), hn]
  have hpop : popStack (st.stackTop + 1).toNat st.stackTop ((2 * 0 / 2 : Nat) : Int) = -1 :=
    popStack_level_zero _ _ htop (by omega)
  unfold processLine
  simp only [saveLine_cstr name b 0 hp, saveLine_trim name b 0 hp,
    saveLine_leading name b 0 hp, sscanf_saved name b hp, normalize_saved name hp,
    hcreate, hpop]
  simp [hl0, hroot, MAX_PATH_LEN]

/-! ## Inputs on which the program departs from its specification -/

/-- C1 (defect): `mkdir a` followed by `mkdir /a` succeeds twice. The second
argument is compared unnormalized with the stored names, so it is not found,
and is then stored under its normalized form `a`: the root ends with two
children named `a`. -/
theorem mkdir_normalized_duplicate :
    normalizeName "/a".toList = "a".toList ∧
      (mkdir initSession "a".toList).2 = Outcome.ok ∧
      (mkdir (mkdir initSession "a".toList).1 "/a".toList).2 = Outcome.ok ∧
      (createFile (mkdir initSession "a".toList).1 "/a".toList).2 = Outcome.ok ∧
      entries (deref
        (run initSession [Command.mkdir "a".toList, Command.mkdir "/a".toList]).root
        (run initSession [Command.mkdir "a".toList, Command.mkdir "/a".toList]).cwd)
        = [("a".toList, true), ("a".toList, true)] := by
  decide

set_option maxRecDepth 100000 in
/-- C2 (defect): the tree built by `deepCommands` has no whitespace in any
name, yet reloading the text that `save` wrote for it ends with the
invalid-indentation error and the root-only tree: the line of the deepest
directory has 130 bytes, `fgets` delivers it in two pieces, the first is
skipped as malformed and the second starts with one space. -/
theorem save_reload_deep_tree :
    (save (run initSession deepCommands)).length = 1250 ∧
      entries (run initSession deepCommands).root = [(['a'], true)] ∧
      reload (run initSession deepCommands) (save (run initSession deepCommands))
        = some (⟨Node.mk ['/'] true Node.null Node.null, []⟩,
            LoadStatus.invalidIndentation) ∧
      entries (Node.mk ['/'] true Node.null Node.null) = [] := by
  decide!

set_option maxRecDepth 100000 in
/-- C9 (defect): a name of 70 bytes, whose normalized form has 70 bytes, is
not rejected: `createNode` cuts it to 63 bytes before normalizing, so the
length test that follows never fires, and `mkdir` adds a directory named by
the first 63 bytes. -/
theorem createNode_long_name_accepted :
    (joinSegments (segments longName)).length = 70 ∧
      createNode longName true
        = Node.mk (List.replicate 63 'a') true Node.null Node.null ∧
      mkdir initSession longName
        = (⟨Node.mk ['/'] true
              (Node.mk (List.replicate 63 'a') true Node.null Node.null) Node.null, []⟩,
            Outcome.ok) := by
  decide!

/-- C13 (defect): `reload` attaches an entry to whatever record is on the
stack one level up, also when that record is a file: for `fileParentText` it
ends with status loaded and a reachable session in which the file `f` has the
child `g`. -/
theorem reload_file_with_child :
    reload initSession fileParentText
        = some (⟨Node.mk ['/'] true
              (Node.mk ['f'] false (Node.mk ['g'] true Node.null Node.null) Node.null)
              Node.null, []⟩, LoadStatus.loaded) ∧
      ReachableWithReload ⟨Node.mk ['/'] true
          (Node.mk ['f'] false (Node.mk ['g'] true Node.null Node.null) Node.null)
          Node.null, []⟩ ∧
      (deref (Node.mk ['/'] true
          (Node.mk ['f'] false (Node.mk ['g'] true Node.null Node.null) Node.null)
          Node.null) [0]).isDirectory = false ∧
      entries (deref (Node.mk ['/'] true
          (Node.mk ['f'] false (Node.mk ['g'] true Node.null Node.null) Node.null)
          Node.null) [0]) = [(['g'], true)] :=
  ⟨by decide,
    ReachableWithReload.reload initSession fileParentText _ LoadStatus.loaded
      ReachableWithReload.init (by decide),
    by decide, by decide⟩

set_option maxRecDepth 100000 in
/-- C19 (defect): in the session after `mkdir docs`, `cd docs`, `create
notes`, `printTree(root)` prints `.`, then `└── docs/` after 7 spaces, then
`└── notes` after 14 spaces, not after 0 and 4 spaces: every level, the root
included, adds the four spaces passed to `snprintf` and the three of its
format. -/
theorem printTree_docs :
    printTree docsSession []
        = utf8 ".\n       └── docs/\n              └── notes\n" ∧
      printTree docsSession [] ≠ utf8 ".\n└── docs/\n    └── notes\n" := by
  decide!

/-- C20 (defect): the stack of `reload` is indexed by position, not by the
level of the entries. In `jumpText` the entry `a` (level 3) lands in slot 1,
so the entry `b` (level 2) is attached below `a`, whose level is not smaller,
and not below the root. -/
theorem reload_jump_attaches_deeper :
    reload initSession jumpText
      = some (⟨Node.mk ['/'] true
            (Node.mk ['a'] true (Node.mk ['b'] true Node.null Node.null) Node.null)
            Node.null, []⟩, LoadStatus.loaded) := by
  decide

/-- C21 (defect): in `levelZeroText` the entry `a` at nesting level 0 follows
the root line. After the root line `stack[0]` holds the root and `stackTop`
is 0; for `a` the loop pops down to -1, `stackTop++` gives 0, and the parent
passed to `insertChild` is read from `stack[-1]`, outside the array: the run
of `reload` has undefined behaviour. -/
theorem reload_level_zero_entry_below_stack :
    fgetsAll levelZeroText.length levelZeroText = ["/ 1\n".toList, "a 1\n".toList] ∧
      processLine ⟨Node.null, fun _ => none, -1⟩ "/ 1\n".toList = Step.next afterRootLine ∧
      popStack (afterRootLine.stackTop + 1).toNat afterRootLine.stackTop 0 + 1 - 1 = -1 ∧
      processLine afterRootLine "a 1\n".toList = Step.undefined ∧
      reload initSession levelZeroText = none := by
  refine ⟨by decide, rfl, by decide, rfl, by decide⟩

end FsSim
